import Mathlib

/-!
Verification development for the adaptive matching engine repository.

The Python sources are shallowly embedded: mutable objects become explicit
state records threaded through functions, Python `float` prices become `ℚ`,
Python `int` quantities become `ℤ`, and dictionaries become insertion-ordered
association lists (Python 3.7+ dicts preserve insertion order).  Wall-clock
reads (`time.time()`) and `uuid4` identifiers are opaque to every property
studied here; they are modelled by the constant `0` and `""` respectively.
Python `while` loops are modelled with an explicit fuel argument large enough
for every reachable state (each loop iteration strictly decreases a natural
measure when the book is well-formed).
-/

namespace AME

/-! ### Kernel-reducing rational arithmetic

The `Field ℚ` operations are compiler-implemented and do not reduce inside
the kernel, so concrete engine runs could not be settled by `decide` through
them.  The following equivalents, written with `Rat.divInt` (which does
reduce), are used by the model wherever Python performs float arithmetic;
each is proved equal to the corresponding field operation in the theorem
section. -/

/-- Addition on ℚ through `Rat.divInt`. -/
def qadd (a b : ℚ) : ℚ := Rat.divInt (a.num * b.den + b.num * a.den) (a.den * b.den)

/-- Subtraction on ℚ through `Rat.divInt`. -/
def qsub (a b : ℚ) : ℚ := Rat.divInt (a.num * b.den - b.num * a.den) (a.den * b.den)

/-- Multiplication on ℚ through `Rat.divInt`. -/
def qmul (a b : ℚ) : ℚ := Rat.divInt (a.num * b.num) (a.den * b.den)

/-- Division on ℚ through `Rat.divInt` (0 when the divisor is 0, as in
Mathlib). -/
def qdiv (a b : ℚ) : ℚ := Rat.divInt (a.num * b.den) (a.den * b.num)

/-- Absolute value on ℚ through `Rat.divInt`. -/
def qabs (a : ℚ) : ℚ := Rat.divInt a.num.natAbs a.den

/-- Integer-to-rational cast through `Rat.divInt`. -/
def qofInt (n : ℤ) : ℚ := Rat.divInt n 1

/-- Order kinds, from `order_types.py` `class OrderType`. -/
inductive OrderType where
  | LIMIT
  | MARKET
  | IOC
  | STOP_LOSS
  | STOP_LOSS_MARKET
  | FOK
  | ICEBERG
deriving DecidableEq, Repr

/-- Buy/sell side, from `order_types.py` `class OrderSide`. -/
inductive OrderSide where
  | BUY
  | SELL
deriving DecidableEq, Repr

/-- Order validity, from `order_types.py` `class OrderValidity`. -/
inductive OrderValidity where
  | DAY
  | IOC
  | GTC
  | GTD
deriving DecidableEq, Repr

/-- Trading phases, from `order_types.py` `class TradingPhase`. -/
inductive TradingPhase where
  | PRE_OPEN
  | OPENING
  | CONTINUOUS
  | CLOSING
  | POST_CLOSE
  | HALTED
deriving DecidableEq, Repr

/-- Market regimes, from `order_types.py` `class MarketRegime`. -/
inductive MarketRegime where
  | NORMAL
  | HIGH_VOLATILITY
  | ILLIQUID
  | DIRECTIONAL
  | HIGH_FREQUENCY
deriving DecidableEq, Repr

/-- The `.value` string of a `MarketRegime`, as read by `regime.value` in Python. -/
def MarketRegime.value : MarketRegime → String
  | .NORMAL => "NORMAL"
  | .HIGH_VOLATILITY => "HIGH_VOLATILITY"
  | .ILLIQUID => "ILLIQUID"
  | .DIRECTIONAL => "DIRECTIONAL"
  | .HIGH_FREQUENCY => "HIGH_FREQUENCY"

/-- The `Order` dataclass from `order_types.py`.  `price`/`timestamp` are ℚ
(Python floats), quantities are ℤ (Python ints). -/
structure Order where
  orderId : String
  side : OrderSide
  price : ℚ
  quantity : ℤ
  timestamp : ℚ
  orderType : OrderType := OrderType.LIMIT
  filledQuantity : ℤ := 0
  stopPrice : Option ℚ := none
  disclosedQuantity : Option ℤ := none
  validity : OrderValidity := OrderValidity.DAY
  expiryTime : Option ℚ := none
  isTriggered : Bool := false
deriving DecidableEq, Repr

/-- `Order.remaining_quantity`. -/
def Order.remainingQuantity (o : Order) : ℤ := o.quantity - o.filledQuantity

/-- `Order.visible_quantity`: `min(disclosed, remaining)` for ICEBERG orders
whose `disclosed_quantity` is truthy (Python: not `None` and not `0`). -/
def Order.visibleQuantity (o : Order) : ℤ :=
  match o.disclosedQuantity with
  | some d =>
      if o.orderType = OrderType.ICEBERG ∧ d ≠ 0 then min d o.remainingQuantity
      else o.remainingQuantity
  | none => o.remainingQuantity

/-- `Order.is_expired(current_time)`. -/
def Order.isExpired (o : Order) (currentTime : ℚ) : Bool :=
  if o.validity = OrderValidity.DAY then false
  else if o.validity = OrderValidity.GTD ∧ o.expiryTime.isSome then
    match o.expiryTime with
    | some e => decide (currentTime > e)
    | none => false
  else false

/-- The `Trade` dataclass from `order_types.py`.  `trade_id` for engine trades
made through `uuid4` is opaque and modelled as `""`; trade timestamps
(`time.time()`) are opaque and modelled as `0`. -/
structure Trade where
  tradeId : String
  buyOrderId : String
  sellOrderId : String
  price : ℚ
  quantity : ℤ
  timestamp : ℚ
deriving DecidableEq, Repr

/-- The price chosen by `Trade.create_trade`: the sell order's price when the
buy is a market order, the buy order's price when the sell is a market order,
and otherwise (both limit) the sell order's price. -/
def createTradePrice (buyOrder sellOrder : Order) : ℚ :=
  if buyOrder.orderType = OrderType.MARKET then sellOrder.price
  else if sellOrder.orderType = OrderType.MARKET then buyOrder.price
  else sellOrder.price

/-- `Trade.create_trade(buy_order, sell_order, quantity)` (uuid and wall clock
opaque). -/
def createTrade (buyOrder sellOrder : Order) (quantity : ℤ) : Trade :=
  { tradeId := ""
    buyOrderId := buyOrder.orderId
    sellOrderId := sellOrder.orderId
    price := createTradePrice buyOrder sellOrder
    quantity := quantity
    timestamp := 0 }

/-- The identity of a fill as compared by the specification: buy-order id,
sell-order id, price and quantity. -/
structure Fill where
  buyOrderId : String
  sellOrderId : String
  price : ℚ
  quantity : ℤ
deriving DecidableEq, Repr

/-- Project a trade to its fill identity. -/
def Trade.toFill (t : Trade) : Fill :=
  { buyOrderId := t.buyOrderId, sellOrderId := t.sellOrderId
    price := t.price, quantity := t.quantity }

/-! ### Association-list dictionaries

Python 3.7+ `dict`s preserve insertion order: a new key is appended, an update
keeps the key's position, and deletion removes the entry. -/

/-- Dictionary lookup (first matching key). -/
def dictGet {α β : Type} [DecidableEq α] (k : α) : List (α × β) → Option β
  | [] => none
  | kv :: rest => if kv.1 = k then some kv.2 else dictGet k rest

/-- Dictionary write: update in place if the key exists, else append. -/
def dictSet {α β : Type} [DecidableEq α] (k : α) (v : β) : List (α × β) → List (α × β)
  | [] => [(k, v)]
  | kv :: rest => if kv.1 = k then (k, v) :: rest else kv :: dictSet k v rest

/-- Dictionary deletion. -/
def dictDel {α β : Type} [DecidableEq α] (k : α) : List (α × β) → List (α × β)
  | [] => []
  | kv :: rest => if kv.1 = k then rest else kv :: dictDel k rest

/-- Membership test for a dictionary key (Python `k in d`). -/
def dictHas {α β : Type} [DecidableEq α] (k : α) (l : List (α × β)) : Bool :=
  (dictGet k l).isSome

/-! ### PriceLevel (`order_book.py`) -/

/-- `class PriceLevel`: all resting orders at one price, FIFO, plus the
`total_volume` aggregate. -/
structure PriceLevel where
  price : ℚ
  orders : List Order
  totalVolume : ℤ
deriving DecidableEq, Repr

/-- `PriceLevel.__init__`. -/
def PriceLevel.empty (price : ℚ) : PriceLevel :=
  { price := price, orders := [], totalVolume := 0 }

/-- `PriceLevel.add_order`: append FIFO, add the remaining quantity. -/
def PriceLevel.addOrder (lvl : PriceLevel) (o : Order) : PriceLevel :=
  { lvl with orders := lvl.orders ++ [o]
             totalVolume := lvl.totalVolume + o.remainingQuantity }

/-- `PriceLevel.remove_order`: remove the first element equal to the given
order (Python `deque.remove` uses dataclass field equality); subtract the
remaining quantity.  Returns the updated level and the success flag. -/
def PriceLevel.removeOrder (lvl : PriceLevel) (o : Order) : PriceLevel × Bool :=
  if o ∈ lvl.orders then
    ({ lvl with orders := lvl.orders.erase o
                totalVolume := lvl.totalVolume - o.remainingQuantity }, true)
  else (lvl, false)

/-- `PriceLevel.get_top_order`. -/
def PriceLevel.getTopOrder (lvl : PriceLevel) : Option Order := lvl.orders.head?

/-- `PriceLevel.is_empty`. -/
def PriceLevel.isEmpty (lvl : PriceLevel) : Bool := lvl.orders.isEmpty

/-- Sum of remaining quantities of the orders in a level (the quantity the
specification's volume invariant compares `total_volume` against). -/
def PriceLevel.sumRemaining (lvl : PriceLevel) : ℤ :=
  (lvl.orders.map Order.remainingQuantity).sum

/-! ### OrderBookSide (`order_book.py`)

The Python side keeps a `heapq` array of prices (negated for bids so that the
array root is always the best price).  The model keeps the bag of prices as a
list; `heapPeek` returns the root (minimum price for asks, maximum for bids)
and `heapRemove` removes it, which is the observable behaviour of the heap.
`order_map` stores `id → Order` object references, of which only key
membership is ever consulted (the referenced object is always recovered
through its price level), so the model keeps the key list;
`order_to_price_level` stores a reference to the owning level, modelled by the
level's price key. -/

/-- The better of two prices for a side: maximum for bids, minimum for asks. -/
def bestOf (side : OrderSide) (a b : ℚ) : ℚ :=
  match side with
  | .BUY => max a b
  | .SELL => min a b

/-- The heap root: best price stored in the heap, if any. -/
def heapPeek (side : OrderSide) : List ℚ → Option ℚ
  | [] => none
  | p :: ps => some (ps.foldl (bestOf side) p)

/-- `class OrderBookSide` state. -/
structure OrderBookSide where
  side : OrderSide
  heap : List ℚ
  priceLevels : List (ℚ × PriceLevel)
  orderMap : List String
  orderToPriceLevel : List (String × ℚ)
deriving DecidableEq, Repr

/-- `OrderBookSide.__init__`. -/
def OrderBookSide.init (side : OrderSide) : OrderBookSide :=
  { side := side, heap := [], priceLevels := [], orderMap := [], orderToPriceLevel := [] }

/-- `OrderBookSide.add_order`: create the level and push its price on first
use, append the order, and record the cancellation back-references. -/
def OrderBookSide.addOrder (bk : OrderBookSide) (o : Order) : OrderBookSide :=
  let price := o.price
  let (lvl, bk1) :=
    match dictGet price bk.priceLevels with
    | none =>
        let lvl := PriceLevel.empty price
        (lvl, { bk with priceLevels := dictSet price lvl bk.priceLevels
                        heap := bk.heap ++ [price] })
    | some lvl => (lvl, bk)
  let lvl' := lvl.addOrder o
  { bk1 with priceLevels := dictSet price lvl' bk1.priceLevels
             orderMap := if o.orderId ∈ bk1.orderMap then bk1.orderMap
                         else bk1.orderMap ++ [o.orderId]
             orderToPriceLevel := dictSet o.orderId price bk1.orderToPriceLevel }

/-- `OrderBookSide.remove_order`: O(1) removal through the back-references;
when the level empties it is deleted and the heap rebuilt from the remaining
price keys. -/
def OrderBookSide.removeOrder (bk : OrderBookSide) (orderId : String) :
    OrderBookSide × Bool :=
  match dictGet orderId bk.orderToPriceLevel with
  | none => (bk, false)
  | some price =>
    match dictGet price bk.priceLevels with
    | none => (bk, false)
    | some lvl =>
      match lvl.orders.find? (fun o => o.orderId == orderId) with
      | none => (bk, false)
      | some o =>
        let (lvl', removed) := lvl.removeOrder o
        if ¬ removed then (bk, false)
        else
          let bk1 := { bk with
            priceLevels := dictSet price lvl' bk.priceLevels
            orderMap := bk.orderMap.erase orderId
            orderToPriceLevel := dictDel orderId bk.orderToPriceLevel }
          if lvl'.isEmpty then
            let pls := dictDel price bk1.priceLevels
            ({ bk1 with priceLevels := pls, heap := pls.map (·.1) }, true)
          else (bk1, true)

/-- The lazy-cleanup loop of `OrderBookSide.get_best_price`: peek the heap
root; if its level exists and is non-empty return it, otherwise pop the root,
drop the dead level and retry.  The fuel is the heap size, which bounds the
number of iterations. -/
def OrderBookSide.getBestPriceAux : Nat → OrderBookSide → Option ℚ × OrderBookSide
  | 0, bk => (none, bk)
  | Nat.succ n, bk =>
    match heapPeek bk.side bk.heap with
    | none => (none, bk)
    | some best =>
      match dictGet best bk.priceLevels with
      | some lvl =>
          if ¬ lvl.isEmpty then (some best, bk)
          else
            OrderBookSide.getBestPriceAux n
              { bk with heap := bk.heap.erase best
                        priceLevels := dictDel best bk.priceLevels }
      | none =>
          OrderBookSide.getBestPriceAux n { bk with heap := bk.heap.erase best }

/-- `OrderBookSide.get_best_price` (it mutates the side through lazy cleanup,
so it returns the updated side as well). -/
def OrderBookSide.getBestPrice (bk : OrderBookSide) : Option ℚ × OrderBookSide :=
  OrderBookSide.getBestPriceAux bk.heap.length bk

/-- `OrderBookSide.get_price_level`. -/
def OrderBookSide.getPriceLevel (bk : OrderBookSide) (price : ℚ) : Option PriceLevel :=
  dictGet price bk.priceLevels

/-- All orders resting on a side, in level-insertion then FIFO order. -/
def OrderBookSide.allOrders (bk : OrderBookSide) : List Order :=
  (bk.priceLevels.map (fun kv => kv.2.orders)).flatten

/-! ### Base matching engine (`matching_engine.py`, `BaseMatchingEngine`) -/

/-- `BaseMatchingEngine` state. -/
structure BaseEngine where
  bids : OrderBookSide
  asks : OrderBookSide
  tradeHistory : List Trade
  orderHistory : List Order
deriving DecidableEq, Repr

/-- `BaseMatchingEngine.__init__`. -/
def BaseEngine.init : BaseEngine :=
  { bids := OrderBookSide.init OrderSide.BUY
    asks := OrderBookSide.init OrderSide.SELL
    tradeHistory := [], orderHistory := [] }

/-- Replace the head of a level's FIFO queue (the Python loop mutates the top
resting order object in place; the level's `total_volume` is not touched). -/
def PriceLevel.setTop (lvl : PriceLevel) (o : Order) : PriceLevel :=
  { lvl with orders := o :: lvl.orders.tail }

/-- One matching side-effect shared by the buy/sell loops of
`BaseMatchingEngine`: write the partially/fully filled resting order back into
its level (in Python this is the in-place mutation of the shared object). -/
def OrderBookSide.setTopAt (bk : OrderBookSide) (price : ℚ) (o : Order) : OrderBookSide :=
  match dictGet price bk.priceLevels with
  | none => bk
  | some lvl => { bk with priceLevels := dictSet price (lvl.setTop o) bk.priceLevels }

/-- The `while` loop of `BaseMatchingEngine._match_buy_order`.  Each iteration
follows the source line by line: re-read the best ask for each guard clause,
take the level's top resting order, trade `min(remaining, remaining)` at the
price computed by `Trade.create_trade`, advance both fills, and remove the
resting order when exhausted. -/
def baseMatchBuyLoop : Nat → Order → OrderBookSide → List Trade →
    Order × OrderBookSide × List Trade
  | 0, b, asks, acc => (b, asks, acc)
  | Nat.succ fuel, b, asks, acc =>
    if b.remainingQuantity > 0 then
      match asks.getBestPrice with
      | (none, asks1) => (b, asks1, acc)
      | (some _, asks1) =>
        let (guardOk, asks2) :=
          if b.orderType = OrderType.MARKET then (true, asks1)
          else
            match asks1.getBestPrice with
            | (some p2, a2) => (decide (p2 ≤ b.price), a2)
            | (none, a2) => (false, a2)
        if guardOk then
          match asks2.getBestPrice with
          | (none, asks3) => (b, asks3, acc)
          | (some bestAskPrice, asks3) =>
            match asks3.getPriceLevel bestAskPrice with
            | none => (b, asks3, acc)
            | some priceLevel =>
              match priceLevel.getTopOrder with
              | none =>
                  let (_, asks4) := asks3.getBestPrice
                  baseMatchBuyLoop fuel b asks4 acc
              | some sellOrder =>
                let tradeQuantity := min b.remainingQuantity sellOrder.remainingQuantity
                let trade := createTrade b sellOrder tradeQuantity
                let b' := { b with filledQuantity := b.filledQuantity + tradeQuantity }
                let sellOrder' :=
                  { sellOrder with filledQuantity := sellOrder.filledQuantity + tradeQuantity }
                let asks4 := asks3.setTopAt bestAskPrice sellOrder'
                let asks5 :=
                  if sellOrder'.remainingQuantity = 0 then
                    (asks4.removeOrder sellOrder'.orderId).1
                  else asks4
                baseMatchBuyLoop fuel b' asks5 (acc ++ [trade])
        else (b, asks2, acc)
    else (b, asks, acc)

/-- The `while` loop of `BaseMatchingEngine._match_sell_order`, mirror image
of the buy loop against the bid side. -/
def baseMatchSellLoop : Nat → Order → OrderBookSide → List Trade →
    Order × OrderBookSide × List Trade
  | 0, s, bids, acc => (s, bids, acc)
  | Nat.succ fuel, s, bids, acc =>
    if s.remainingQuantity > 0 then
      match bids.getBestPrice with
      | (none, bids1) => (s, bids1, acc)
      | (some _, bids1) =>
        let (guardOk, bids2) :=
          if s.orderType = OrderType.MARKET then (true, bids1)
          else
            match bids1.getBestPrice with
            | (some p2, b2) => (decide (p2 ≥ s.price), b2)
            | (none, b2) => (false, b2)
        if guardOk then
          match bids2.getBestPrice with
          | (none, bids3) => (s, bids3, acc)
          | (some bestBidPrice, bids3) =>
            match bids3.getPriceLevel bestBidPrice with
            | none => (s, bids3, acc)
            | some priceLevel =>
              match priceLevel.getTopOrder with
              | none =>
                  let (_, bids4) := bids3.getBestPrice
                  baseMatchSellLoop fuel s bids4 acc
              | some buyOrder =>
                let tradeQuantity := min s.remainingQuantity buyOrder.remainingQuantity
                let trade := createTrade buyOrder s tradeQuantity
                let s' := { s with filledQuantity := s.filledQuantity + tradeQuantity }
                let buyOrder' :=
                  { buyOrder with filledQuantity := buyOrder.filledQuantity + tradeQuantity }
                let bids4 := bids3.setTopAt bestBidPrice buyOrder'
                let bids5 :=
                  if buyOrder'.remainingQuantity = 0 then
                    (bids4.removeOrder buyOrder'.orderId).1
                  else bids4
                baseMatchSellLoop fuel s' bids5 (acc ++ [trade])
        else (s, bids2, acc)
    else (s, bids, acc)

/-- Fuel sufficient for any matching pass of an incoming order: each
trade-producing iteration decreases the incoming remaining quantity by at
least one, and the only non-trade iteration (empty level) cannot occur on a
well-formed book. -/
def matchFuel (o : Order) : Nat := o.quantity.toNat + 1

/-- `BaseMatchingEngine.add_order`: record the order, run the side's matching
loop, rest an unfilled LIMIT residual, and append the trades to the history.
Returns the trades. -/
def BaseEngine.addOrder (e : BaseEngine) (o : Order) : List Trade × BaseEngine :=
  let e0 := { e with orderHistory := e.orderHistory ++ [o] }
  let (o', e1, trades) :=
    if o.side = OrderSide.BUY then
      let (o', asks', trades) := baseMatchBuyLoop (matchFuel o) o e0.asks []
      (o', { e0 with asks := asks' }, trades)
    else
      let (o', bids', trades) := baseMatchSellLoop (matchFuel o) o e0.bids []
      (o', { e0 with bids := bids' }, trades)
  let e2 :=
    if o'.remainingQuantity > 0 ∧ o'.orderType = OrderType.LIMIT then
      if o'.side = OrderSide.BUY then { e1 with bids := e1.bids.addOrder o' }
      else { e1 with asks := e1.asks.addOrder o' }
    else e1
  (trades, { e2 with tradeHistory := e2.tradeHistory ++ trades })

/-- `BaseMatchingEngine.cancel_order`: probe the bid-side map, then the
ask-side map. -/
def BaseEngine.cancelOrder (e : BaseEngine) (orderId : String) : BaseEngine × Bool :=
  if orderId ∈ e.bids.orderMap then
    let (bids', r) := e.bids.removeOrder orderId
    ({ e with bids := bids' }, r)
  else if orderId ∈ e.asks.orderMap then
    let (asks', r) := e.asks.removeOrder orderId
    ({ e with asks := asks' }, r)
  else (e, false)

/-- Run a list of orders through `BaseMatchingEngine.add_order`, collecting
all trades in submission order. -/
def BaseEngine.run (os : List Order) : List Trade × BaseEngine :=
  os.foldl
    (fun (acc : List Trade × BaseEngine) o =>
      let (ts, e') := acc.2.addOrder o
      (acc.1 ++ ts, e'))
    ([], BaseEngine.init)

/-! ### Adaptive regime transitions (`matching_engine.py`,
`AdaptiveMatchingEngine`, and `sharded_matching_engine.py`,
`ShardedAdaptiveMatchingEngine`)

Only the regime-tracking slice is modelled: the fields `_transition_regime`
reads and writes (`set_regime` on the two book sides, `current_regime`,
`regime_change_count`, `regime_history`).  `last_regime_change` stores a raw
wall-clock read and is omitted; history timestamps are modelled as `0`. -/

/-- One `regime_history` entry (the Python dict
`timestamp / from_regime / to_regime`). -/
structure RegimeHistoryEntry where
  timestamp : ℚ
  fromRegime : String
  toRegime : String
deriving DecidableEq, Repr

/-- The regime-tracking state of an adaptive engine. -/
structure AdaptiveRegimeState where
  bidsRegime : MarketRegime
  asksRegime : MarketRegime
  currentRegime : MarketRegime
  regimeChangeCount : ℤ
  regimeHistory : List RegimeHistoryEntry
deriving DecidableEq, Repr

/-- Initial regime state of `AdaptiveMatchingEngine.__init__`. -/
def AdaptiveRegimeState.init : AdaptiveRegimeState :=
  { bidsRegime := MarketRegime.NORMAL, asksRegime := MarketRegime.NORMAL
    currentRegime := MarketRegime.NORMAL, regimeChangeCount := 0, regimeHistory := [] }

/-- `AdaptiveMatchingEngine._transition_regime`, statement by statement: the
book sides are rebound, then `current_regime` is overwritten, the counter is
bumped, and only then is the history entry appended — so its `from_regime`
field reads the already-updated `current_regime`. -/
def AdaptiveRegimeState.transitionRegime (s : AdaptiveRegimeState)
    (newRegime : MarketRegime) : AdaptiveRegimeState :=
  let s1 := { s with bidsRegime := newRegime, asksRegime := newRegime }
  let s2 := { s1 with currentRegime := newRegime
                      regimeChangeCount := s1.regimeChangeCount + 1 }
  { s2 with regimeHistory := s2.regimeHistory ++
      [{ timestamp := 0
         fromRegime := s2.currentRegime.value
         toRegime := newRegime.value }] }

/-- `ShardedAdaptiveMatchingEngine._transition_regime`: here the old regime is
saved in `old_regime` before `current_regime` is overwritten, and the history
entry records it. -/
def AdaptiveRegimeState.shardedTransitionRegime (s : AdaptiveRegimeState)
    (newRegime : MarketRegime) : AdaptiveRegimeState :=
  let s1 := { s with bidsRegime := newRegime, asksRegime := newRegime }
  let oldRegime := s1.currentRegime
  let s2 := { s1 with currentRegime := newRegime
                      regimeChangeCount := s1.regimeChangeCount + 1 }
  { s2 with regimeHistory := s2.regimeHistory ++
      [{ timestamp := 0
         fromRegime := oldRegime.value
         toRegime := newRegime.value }] }

/-- The regime-change guard of `AdaptiveMatchingEngine.process_order`:
transition exactly when the detector's report differs from the current
regime. -/
def AdaptiveRegimeState.onDetected (s : AdaptiveRegimeState)
    (newRegime : MarketRegime) : AdaptiveRegimeState :=
  if newRegime ≠ s.currentRegime then s.transitionRegime newRegime else s

/-- The same guard in `ShardedAdaptiveMatchingEngine.process_order`. -/
def AdaptiveRegimeState.shardedOnDetected (s : AdaptiveRegimeState)
    (newRegime : MarketRegime) : AdaptiveRegimeState :=
  if newRegime ≠ s.currentRegime then s.shardedTransitionRegime newRegime else s

/-! ### NSE-style exchange engine (`nse_matching_engine.py`) -/

/-- Floor of a rational, written with `Int.fdiv` so that it reduces inside the
kernel. -/
def ratFloor (q : ℚ) : ℤ := Int.fdiv q.num q.den

/-- Python `round()`: round half to even (banker's rounding). -/
def roundHalfToEven (q : ℚ) : ℤ :=
  let f := ratFloor q
  let r := qsub q (qofInt f)
  if r < Rat.divInt 1 2 then f
  else if r > Rat.divInt 1 2 then f + 1
  else if f % 2 = 0 then f else f + 1

/-- `NSEMatchingEngine` state.  The async-cancellation queue and worker thread
are represented only by the `asyncCancel` flag: the synchronous observable of
`cancel_order` in async mode is that `put_nowait` on the unbounded queue
succeeds and `True` is returned, with the actual removal deferred to the
worker thread. -/
structure NSEEngine where
  symbol : String
  tickSize : ℚ
  circuitBreakerPct : ℚ
  priceBandPct : ℚ
  bids : OrderBookSide
  asks : OrderBookSide
  tradingPhase : TradingPhase
  isHalted : Bool
  referencePrice : Option ℚ
  lastTradedPrice : Option ℚ
  openingPrice : Option ℚ
  upperBand : Option ℚ
  lowerBand : Option ℚ
  auctionOrders : List Order
  tradeHistory : List Trade
  orderHistory : List Order
  pendingStopOrders : List (String × Order)
  totalOrdersProcessed : ℤ
  totalTrades : ℤ
  circuitBreakerHits : ℤ
  asyncCancel : Bool
deriving DecidableEq, Repr

/-- `NSEMatchingEngine.__init__`. -/
def NSEEngine.init (symbol : String) (tickSize circuitBreakerPct priceBandPct : ℚ)
    (asyncCancel : Bool) : NSEEngine :=
  { symbol := symbol, tickSize := tickSize
    circuitBreakerPct := circuitBreakerPct, priceBandPct := priceBandPct
    bids := OrderBookSide.init OrderSide.BUY
    asks := OrderBookSide.init OrderSide.SELL
    tradingPhase := TradingPhase.CONTINUOUS, isHalted := false
    referencePrice := none, lastTradedPrice := none, openingPrice := none
    upperBand := none, lowerBand := none
    auctionOrders := [], tradeHistory := [], orderHistory := []
    pendingStopOrders := []
    totalOrdersProcessed := 0, totalTrades := 0, circuitBreakerHits := 0
    asyncCancel := asyncCancel }

/-- `NSEMatchingEngine._update_price_bands` (`if self.reference_price:` is a
Python truthiness test: `None` and `0.0` are falsy). -/
def NSEEngine.updatePriceBands (s : NSEEngine) : NSEEngine :=
  match s.referencePrice with
  | some r =>
      if r ≠ 0 then
        { s with upperBand := some (qmul r (qadd 1 (qdiv s.priceBandPct 100)))
                 lowerBand := some (qmul r (qsub 1 (qdiv s.priceBandPct 100))) }
      else s
  | none => s

/-- `NSEMatchingEngine.set_reference_price`. -/
def NSEEngine.setReferencePrice (s : NSEEngine) (price : ℚ) : NSEEngine :=
  ({ s with referencePrice := some price }).updatePriceBands

/-- `NSEMatchingEngine._validate_tick_size`. -/
def NSEEngine.validateTickSize (s : NSEEngine) (price : ℚ) : ℚ :=
  if s.tickSize > 0 then qmul (qofInt (roundHalfToEven (qdiv price s.tickSize))) s.tickSize
  else price

/-- `NSEMatchingEngine._check_price_band`. -/
def NSEEngine.checkPriceBand (s : NSEEngine) (price : ℚ) : Bool :=
  match s.upperBand, s.lowerBand with
  | some ub, some lb => decide (lb ≤ price ∧ price ≤ ub)
  | _, _ => true

/-- `NSEMatchingEngine._check_circuit_breaker` (`if not self.reference_price:`
is falsy for `None` and `0.0`). -/
def NSEEngine.checkCircuitBreaker (s : NSEEngine) (tradePrice : ℚ) : NSEEngine × Bool :=
  match s.referencePrice with
  | none => (s, false)
  | some r =>
      if r = 0 then (s, false)
      else
        let priceChangePct := qmul (qdiv (qabs (qsub tradePrice r)) r) 100
        if priceChangePct ≥ s.circuitBreakerPct then
          ({ s with isHalted := true, tradingPhase := TradingPhase.HALTED
                    circuitBreakerHits := s.circuitBreakerHits + 1 }, true)
        else (s, false)

/-- `NSEMatchingEngine.resume_trading`. -/
def NSEEngine.resumeTrading (s : NSEEngine) : NSEEngine :=
  { s with isHalted := false, tradingPhase := TradingPhase.CONTINUOUS }

/-- `NSEMatchingEngine.set_trading_phase`. -/
def NSEEngine.setTradingPhase (s : NSEEngine) (phase : TradingPhase) : NSEEngine :=
  let s1 := { s with tradingPhase := phase }
  if phase = TradingPhase.PRE_OPEN ∨ phase = TradingPhase.CLOSING then
    { s1 with auctionOrders := [] }
  else s1

/-- `NSEMatchingEngine._is_stop_triggered` (`if not self.last_traded_price or
not order.stop_price:` — `None` and `0.0` are falsy). -/
def NSEEngine.isStopTriggered (s : NSEEngine) (o : Order) : Bool :=
  match s.lastTradedPrice, o.stopPrice with
  | some ltp, some sp =>
      if ltp = 0 ∨ sp = 0 then false
      else if o.side = OrderSide.BUY then decide (ltp ≥ sp)
      else decide (ltp ≤ sp)
  | _, _ => false

/-- The conversion performed on a triggered stop order (shared by
`_handle_stop_loss_order` and `_check_pending_stop_orders`): flag it
triggered, then turn STOP_LOSS_MARKET into a MARKET order at price 0 and
STOP_LOSS into a LIMIT order. -/
def activateStopOrder (o : Order) : Order :=
  let o1 := { o with isTriggered := true }
  if o1.orderType = OrderType.STOP_LOSS_MARKET then
    { o1 with orderType := OrderType.MARKET, price := 0 }
  else { o1 with orderType := OrderType.LIMIT }

/-- `NSEMatchingEngine._get_available_volume_at_price`: sum the
`total_volume` of the levels at acceptable prices.  `none` models the
`float("inf")` passed at the buy-side call site of `_handle_fok_order`. -/
def NSEEngine.getAvailableVolumeAtPrice (bookSide : OrderBookSide)
    (limitPrice : Option ℚ) : ℤ :=
  if bookSide.side = OrderSide.SELL then
    ((bookSide.priceLevels.filter (fun kv =>
        match limitPrice with
        | some lp => decide (kv.1 ≤ lp)
        | none => true)).map (fun kv => kv.2.totalVolume)).sum
  else
    ((bookSide.priceLevels.filter (fun kv =>
        match limitPrice with
        | some lp => decide (kv.1 ≥ lp)
        | none => true)).map (fun kv => kv.2.totalVolume)).sum

/-- The `while` loop of `NSEMatchingEngine._match_buy_order`: like the base
loop, but the matched quantity is capped by the resting order's
`visible_quantity`, the trade is built inline with id `T-<len(trade_history)>`
(the history length at pass start, unchanged during the loop) at the resting
price, and the level's `total_volume` is decremented by the traded
quantity. -/
def nseMatchBuyLoop (histLen : Nat) : Nat → Order → OrderBookSide → List Trade →
    Order × OrderBookSide × List Trade
  | 0, b, asks, acc => (b, asks, acc)
  | Nat.succ fuel, b, asks, acc =>
    if b.remainingQuantity > 0 then
      match asks.getBestPrice with
      | (none, asks1) => (b, asks1, acc)
      | (some _, asks1) =>
        let (guardOk, asks2) :=
          if b.orderType = OrderType.MARKET then (true, asks1)
          else
            match asks1.getBestPrice with
            | (some p2, a2) => (decide (p2 ≤ b.price), a2)
            | (none, a2) => (false, a2)
        if guardOk then
          match asks2.getBestPrice with
          | (none, asks3) => (b, asks3, acc)
          | (some bestAskPrice, asks3) =>
            match asks3.getPriceLevel bestAskPrice with
            | none => (b, asks3, acc)
            | some priceLevel =>
              match priceLevel.getTopOrder with
              | none =>
                  let (_, asks4) := asks3.getBestPrice
                  nseMatchBuyLoop histLen fuel b asks4 acc
              | some sellOrder =>
                let availableQty := sellOrder.visibleQuantity
                let tradeQuantity := min b.remainingQuantity availableQty
                let trade : Trade :=
                  { tradeId := "T-" ++ toString histLen
                    buyOrderId := b.orderId, sellOrderId := sellOrder.orderId
                    price := sellOrder.price, quantity := tradeQuantity, timestamp := 0 }
                let b' := { b with filledQuantity := b.filledQuantity + tradeQuantity }
                let sellOrder' :=
                  { sellOrder with filledQuantity := sellOrder.filledQuantity + tradeQuantity }
                let asks4 :=
                  match dictGet bestAskPrice asks3.priceLevels with
                  | none => asks3
                  | some lvl =>
                      let lvl' :=
                        { lvl.setTop sellOrder' with
                            totalVolume := lvl.totalVolume - tradeQuantity }
                      { asks3 with priceLevels := dictSet bestAskPrice lvl' asks3.priceLevels }
                let asks5 :=
                  if sellOrder'.remainingQuantity = 0 then
                    (asks4.removeOrder sellOrder'.orderId).1
                  else asks4
                nseMatchBuyLoop histLen fuel b' asks5 (acc ++ [trade])
        else (b, asks2, acc)
    else (b, asks, acc)

/-- The `while` loop of `NSEMatchingEngine._match_sell_order`, mirror image of
the NSE buy loop. -/
def nseMatchSellLoop (histLen : Nat) : Nat → Order → OrderBookSide → List Trade →
    Order × OrderBookSide × List Trade
  | 0, sOrd, bids, acc => (sOrd, bids, acc)
  | Nat.succ fuel, sOrd, bids, acc =>
    if sOrd.remainingQuantity > 0 then
      match bids.getBestPrice with
      | (none, bids1) => (sOrd, bids1, acc)
      | (some _, bids1) =>
        let (guardOk, bids2) :=
          if sOrd.orderType = OrderType.MARKET then (true, bids1)
          else
            match bids1.getBestPrice with
            | (some p2, b2) => (decide (p2 ≥ sOrd.price), b2)
            | (none, b2) => (false, b2)
        if guardOk then
          match bids2.getBestPrice with
          | (none, bids3) => (sOrd, bids3, acc)
          | (some bestBidPrice, bids3) =>
            match bids3.getPriceLevel bestBidPrice with
            | none => (sOrd, bids3, acc)
            | some priceLevel =>
              match priceLevel.getTopOrder with
              | none =>
                  let (_, bids4) := bids3.getBestPrice
                  nseMatchSellLoop histLen fuel sOrd bids4 acc
              | some buyOrder =>
                let availableQty := buyOrder.visibleQuantity
                let tradeQuantity := min sOrd.remainingQuantity availableQty
                let trade : Trade :=
                  { tradeId := "T-" ++ toString histLen
                    buyOrderId := buyOrder.orderId, sellOrderId := sOrd.orderId
                    price := buyOrder.price, quantity := tradeQuantity, timestamp := 0 }
                let sOrd' := { sOrd with filledQuantity := sOrd.filledQuantity + tradeQuantity }
                let buyOrder' :=
                  { buyOrder with filledQuantity := buyOrder.filledQuantity + tradeQuantity }
                let bids4 :=
                  match dictGet bestBidPrice bids3.priceLevels with
                  | none => bids3
                  | some lvl =>
                      let lvl' :=
                        { lvl.setTop buyOrder' with
                            totalVolume := lvl.totalVolume - tradeQuantity }
                      { bids3 with priceLevels := dictSet bestBidPrice lvl' bids3.priceLevels }
                let bids5 :=
                  if buyOrder'.remainingQuantity = 0 then
                    (bids4.removeOrder buyOrder'.orderId).1
                  else bids4
                nseMatchSellLoop histLen fuel sOrd' bids5 (acc ++ [trade])
        else (bids2, acc) |> fun (bk, a) => (sOrd, bk, a)
    else (sOrd, bids, acc)

/-- `NSEMatchingEngine._add_to_order_book`. -/
def NSEEngine.addToOrderBook (s : NSEEngine) (o : Order) : NSEEngine :=
  if o.side = OrderSide.BUY then { s with bids := s.bids.addOrder o }
  else { s with asks := s.asks.addOrder o }

/-- One unfolding of `NSEMatchingEngine._match_order`: run the side's
matching loop; if there were trades, set `last_traded_price` to the last
trade's price, run the circuit-breaker check, scan the pending stop orders
(through the supplied `checkPending`); finally extend the trade history. -/
def nseMatchAux (checkPending : NSEEngine → NSEEngine) (s : NSEEngine) (o : Order) :
    List Trade × NSEEngine × Order :=
  let histLen := s.tradeHistory.length
  let (o', s1, trades) :=
    if o.side = OrderSide.BUY then
      let (o', asks', tr) := nseMatchBuyLoop histLen (matchFuel o) o s.asks []
      (o', { s with asks := asks' }, tr)
    else
      let (o', bids', tr) := nseMatchSellLoop histLen (matchFuel o) o s.bids []
      (o', { s with bids := bids' }, tr)
  let s2 :=
    match trades.getLast? with
    | some lastTrade =>
        let s2a := { s1 with lastTradedPrice := some lastTrade.price }
        let (s2b, _) := s2a.checkCircuitBreaker lastTrade.price
        checkPending s2b
    | none => s1
  (trades, { s2 with tradeHistory := s2.tradeHistory ++ trades
                     totalTrades := s2.totalTrades + trades.length }, o')

/-- `NSEMatchingEngine._check_pending_stop_orders`, fuelled: collect the
triggered stops (deleting them from the pending map), then activate and match
each in discovery order, the nested `_match_order` calls rechecking the
now-smaller pending map one fuel level down.  The returned trades of the
nested matches are discarded (they reach only the trade history).  The
recursion through stop activation strictly shrinks the pending map, so
`pending.length + 1` fuel at top-level entry always suffices. -/
def NSEEngine.checkPendingStopOrdersF : Nat → NSEEngine → NSEEngine
  | 0, s => s
  | Nat.succ sf, s =>
      let triggered := (s.pendingStopOrders.filter
        (fun kv => s.isStopTriggered kv.2)).map (fun kv => kv.2)
      let remaining := s.pendingStopOrders.filter (fun kv => ¬ s.isStopTriggered kv.2)
      let s1 := { s with pendingStopOrders := remaining }
      triggered.foldl
        (fun st o =>
          (nseMatchAux (NSEEngine.checkPendingStopOrdersF sf) st (activateStopOrder o)).2.1)
        s1

/-- `NSEMatchingEngine._match_order` with explicit stop fuel. -/
def NSEEngine.matchOrderF (stopFuel : Nat) (s : NSEEngine) (o : Order) :
    List Trade × NSEEngine × Order :=
  nseMatchAux (NSEEngine.checkPendingStopOrdersF stopFuel) s o

/-- The stop fuel used whenever `_match_order` is entered from a handler: one
more than the size of the pending-stop map (the recursion strictly shrinks
the map). -/
def NSEEngine.stopFuel (s : NSEEngine) : Nat := s.pendingStopOrders.length + 1

/-- `NSEMatchingEngine._match_order` as called from the order handlers. -/
def NSEEngine.matchOrder (s : NSEEngine) (o : Order) : List Trade × NSEEngine × Order :=
  NSEEngine.matchOrderF s.stopFuel s o

/-- `NSEMatchingEngine._handle_stop_loss_order`. -/
def NSEEngine.handleStopLossOrder (s : NSEEngine) (o : Order) : List Trade × NSEEngine :=
  if s.isStopTriggered o then
    let (trades, s', _) := s.matchOrder (activateStopOrder o)
    (trades, s')
  else
    ([], { s with pendingStopOrders := dictSet o.orderId o s.pendingStopOrders })

/-- `NSEMatchingEngine._handle_fok_order`: the depth probe uses the order's
limit price only when `order.order_type == OrderType.LIMIT` (never true for a
FOK order, whose type is FOK), else `float("inf")` for buys and `0` for
sells. -/
def NSEEngine.handleFokOrder (s : NSEEngine) (o : Order) : List Trade × NSEEngine :=
  let available :=
    if o.side = OrderSide.BUY then
      NSEEngine.getAvailableVolumeAtPrice s.asks
        (if o.orderType = OrderType.LIMIT then some o.price else none)
    else
      NSEEngine.getAvailableVolumeAtPrice s.bids
        (if o.orderType = OrderType.LIMIT then some o.price else some 0)
  if available ≥ o.quantity then
    let (trades, s', _) := s.matchOrder o
    (trades, s')
  else ([], s)

/-- `NSEMatchingEngine._handle_continuous_order`. -/
def NSEEngine.handleContinuousOrder (s : NSEEngine) (o : Order) : List Trade × NSEEngine :=
  if o.orderType = OrderType.STOP_LOSS ∨ o.orderType = OrderType.STOP_LOSS_MARKET then
    s.handleStopLossOrder o
  else if o.orderType = OrderType.FOK then s.handleFokOrder o
  else
    let (trades, s', o') := s.matchOrder o
    let s'' :=
      if o'.remainingQuantity > 0 then
        if o'.orderType = OrderType.LIMIT then s'.addToOrderBook o'
        else if o'.orderType = OrderType.ICEBERG then s'.addToOrderBook o'
        else s'
      else s'
    (trades, s'')

/-- `NSEMatchingEngine._handle_auction_order`: buffer only. -/
def NSEEngine.handleAuctionOrder (s : NSEEngine) (o : Order) : List Trade × NSEEngine :=
  ([], { s with auctionOrders := s.auctionOrders ++ [o] })

/-- The bookkeeping prefix of `NSEMatchingEngine.process_order`: bump the
order counter and append to the order history. -/
def NSEEngine.noteOrder (s : NSEEngine) (o : Order) : NSEEngine :=
  { s with totalOrdersProcessed := s.totalOrdersProcessed + 1
           orderHistory := s.orderHistory ++ [o] }

/-- `NSEMatchingEngine.process_order`.  `now` is the wall-clock reading used
by the expiry check. -/
def NSEEngine.processOrder (s : NSEEngine) (now : ℚ) (o : Order) :
    List Trade × NSEEngine :=
  let s0 := s.noteOrder o
  if s0.isHalted then ([], s0)
  else if o.isExpired now then ([], s0)
  else
    let o1 :=
      if o.orderType = OrderType.LIMIT ∨ o.orderType = OrderType.STOP_LOSS then
        { o with price := s0.validateTickSize o.price }
      else o
    if (o1.orderType = OrderType.LIMIT ∨ o1.orderType = OrderType.STOP_LOSS) ∧
        ¬ s0.checkPriceBand o1.price then ([], s0)
    else if s0.tradingPhase = TradingPhase.PRE_OPEN ∨
        s0.tradingPhase = TradingPhase.CLOSING then
      s0.handleAuctionOrder o1
    else s0.handleContinuousOrder o1

/-- `NSEMatchingEngine.cancel_order`. -/
def NSEEngine.cancelOrder (s : NSEEngine) (orderId : String) : NSEEngine × Bool :=
  if s.asyncCancel then (s, true)
  else if orderId ∈ s.bids.orderMap then
    let (bids', r) := s.bids.removeOrder orderId
    ({ s with bids := bids' }, r)
  else if orderId ∈ s.asks.orderMap then
    let (asks', r) := s.asks.removeOrder orderId
    ({ s with asks := asks' }, r)
  else if dictHas orderId s.pendingStopOrders then
    ({ s with pendingStopOrders := dictDel orderId s.pendingStopOrders }, true)
  else (s, false)

/-! ### Call auction (`nse_matching_engine.py`, `execute_call_auction`) -/

/-- Stable ascending insertion by price (used to model Python's
`sorted(set(...))`). -/
def insertAsc (x : ℚ) : List ℚ → List ℚ
  | [] => [x]
  | y :: ys => if x ≤ y then x :: y :: ys else y :: insertAsc x ys

/-- Ascending sort of a price list. -/
def sortAsc : List ℚ → List ℚ
  | [] => []
  | x :: xs => insertAsc x (sortAsc xs)

/-- Stable insertion by timestamp, placing an element before the first
strictly-later one (so Python's stable `list.sort(key=timestamp)` is
matched). -/
def insertByTs (x : Order) : List Order → List Order
  | [] => [x]
  | y :: ys => if x.timestamp ≤ y.timestamp then x :: y :: ys else y :: insertByTs x ys

/-- Stable sort of orders by timestamp. -/
def sortByTs : List Order → List Order
  | [] => []
  | x :: xs => insertByTs x (sortByTs xs)

/-- Group auction orders of one side by price, in first-occurrence key order
(the `defaultdict(list)` build loop). -/
def groupByPrice (os : List Order) : List (ℚ × List Order) :=
  os.foldl
    (fun d o =>
      match dictGet o.price d with
      | some l => dictSet o.price (l ++ [o]) d
      | none => dictSet o.price [o] d) []

/-- Buy volume at a candidate price: total quantity of buys priced at or
above it. -/
def buyVolumeAt (buys : List (ℚ × List Order)) (price : ℚ) : ℤ :=
  (((buys.filter (fun kv => kv.1 ≥ price)).map
    (fun kv => (kv.2.map (fun o => o.quantity)).sum)).sum)

/-- Sell volume at a candidate price: total quantity of sells priced at or
below it. -/
def sellVolumeAt (sells : List (ℚ × List Order)) (price : ℚ) : ℤ :=
  (((sells.filter (fun kv => kv.1 ≤ price)).map
    (fun kv => (kv.2.map (fun o => o.quantity)).sum)).sum)

/-- Tradeable volume at a candidate price. -/
def tradeableAt (buys sells : List (ℚ × List Order)) (price : ℚ) : ℤ :=
  min (buyVolumeAt buys price) (sellVolumeAt sells price)

/-- The candidate scan of `_find_equilibrium_price`: better volume wins; on a
volume tie with an existing best, a truthy reference price arbitrates by
strictly smaller distance. -/
def findEqLoop (ref : Option ℚ) (buys sells : List (ℚ × List Order)) :
    List ℚ → Option ℚ × ℤ → Option ℚ × ℤ
  | [], acc => acc
  | price :: rest, (bestPrice, maxVolume) =>
      let tradeableVolume := tradeableAt buys sells price
      let acc' :=
        if tradeableVolume > maxVolume then (some price, tradeableVolume)
        else if tradeableVolume = maxVolume ∧ bestPrice.isSome then
          match ref, bestPrice with
          | some r, some bp =>
              if r ≠ 0 then
                if qabs (qsub price r) < qabs (qsub bp r) then (some price, maxVolume)
                else (bestPrice, maxVolume)
              else (bestPrice, maxVolume)
          | _, _ => (bestPrice, maxVolume)
        else (bestPrice, maxVolume)
      findEqLoop ref buys sells rest acc'

/-- The candidate price list scanned by `_find_equilibrium_price`: Python's
`sorted(set(buy_prices + sell_prices))`. -/
def auctionCandidatePrices (buys sells : List (ℚ × List Order)) : List ℚ :=
  sortAsc ((buys.map (fun kv => kv.1)) ++ (sells.map (fun kv => kv.1))).dedup

/-- `NSEMatchingEngine._find_equilibrium_price`. -/
def findEquilibriumPrice (ref : Option ℚ) (buys sells : List (ℚ × List Order)) :
    Option ℚ × ℤ :=
  findEqLoop ref buys sells (auctionCandidatePrices buys sells) (none, 0)

/-- The index-walking match loop of `_execute_auction_at_price`.  Orders are
Python objects mutated in place; the model returns the updated buyer/seller
lists so the caller can observe the fills (keyed by order id, which
coincides with object identity for distinct ids). -/
def auctionMatchLoop (price : ℚ) : Nat → NSEEngine → List Order → List Order →
    List Trade → List Order → List Order →
    List Trade × NSEEngine × List Order × List Order
  | 0, s, buyers, sellers, acc, doneB, doneS => (acc, s, doneB ++ buyers, doneS ++ sellers)
  | Nat.succ fuel, s, buyers, sellers, acc, doneB, doneS =>
      match buyers, sellers with
      | buyOrder :: bs, sellOrder :: ss =>
          if buyOrder.remainingQuantity = 0 then
            auctionMatchLoop price fuel s bs (sellOrder :: ss) acc (doneB ++ [buyOrder]) doneS
          else if sellOrder.remainingQuantity = 0 then
            auctionMatchLoop price fuel s (buyOrder :: bs) ss acc doneB (doneS ++ [sellOrder])
          else
            let tradeQty := min buyOrder.remainingQuantity sellOrder.remainingQuantity
            let trade : Trade :=
              { tradeId := "T-" ++ toString s.tradeHistory.length
                buyOrderId := buyOrder.orderId, sellOrderId := sellOrder.orderId
                price := price, quantity := tradeQty, timestamp := 0 }
            let s' := { s with tradeHistory := s.tradeHistory ++ [trade]
                               totalTrades := s.totalTrades + 1 }
            let buyOrder' :=
              { buyOrder with filledQuantity := buyOrder.filledQuantity + tradeQty }
            let sellOrder' :=
              { sellOrder with filledQuantity := sellOrder.filledQuantity + tradeQty }
            let acc' := acc ++ [trade]
            if buyOrder'.remainingQuantity = 0 ∧ sellOrder'.remainingQuantity = 0 then
              auctionMatchLoop price fuel s' bs ss acc'
                (doneB ++ [buyOrder']) (doneS ++ [sellOrder'])
            else if buyOrder'.remainingQuantity = 0 then
              auctionMatchLoop price fuel s' bs (sellOrder' :: ss) acc'
                (doneB ++ [buyOrder']) doneS
            else if sellOrder'.remainingQuantity = 0 then
              auctionMatchLoop price fuel s' (buyOrder' :: bs) ss acc'
                doneB (doneS ++ [sellOrder'])
            else
              auctionMatchLoop price fuel s' (buyOrder' :: bs) (sellOrder' :: ss) acc'
                doneB doneS
      | buyers, sellers => (acc, s, doneB ++ buyers, doneS ++ sellers)

/-- `NSEMatchingEngine._execute_auction_at_price`: collect eligible buyers
(price ≥ p*) and sellers (price ≤ p*) in dict order, sort each stably by
timestamp, and run the match loop at the equilibrium price. -/
def NSEEngine.executeAuctionAtPrice (s : NSEEngine) (price : ℚ)
    (buys sells : List (ℚ × List Order)) :
    List Trade × NSEEngine × List Order × List Order :=
  let buyers := sortByTs (((buys.filter (fun kv => kv.1 ≥ price)).map
    (fun kv => kv.2)).flatten)
  let sellers := sortByTs (((sells.filter (fun kv => kv.1 ≤ price)).map
    (fun kv => kv.2)).flatten)
  auctionMatchLoop price (buyers.length + sellers.length + 1) s buyers sellers [] [] []

/-- `NSEMatchingEngine.execute_call_auction`. -/
def NSEEngine.executeCallAuction (s : NSEEngine) : List Trade × NSEEngine :=
  if s.auctionOrders.isEmpty then ([], s)
  else
    let buys := groupByPrice (s.auctionOrders.filter (fun o => o.side = OrderSide.BUY))
    let sells := groupByPrice (s.auctionOrders.filter (fun o => o.side = OrderSide.SELL))
    match findEquilibriumPrice s.referencePrice buys sells with
    | (none, _) =>
        let s1 := s.auctionOrders.foldl
          (fun st o => if o.orderType = OrderType.LIMIT then st.addToOrderBook o else st) s
        ([], { s1 with auctionOrders := [] })
    | (some equilibriumPrice, _) =>
        let (trades, s1, updB, updS) := s.executeAuctionAtPrice equilibriumPrice buys sells
        let s2 :=
          if s1.tradingPhase = TradingPhase.PRE_OPEN then
            let s2a := { s1 with openingPrice := some equilibriumPrice
                                 lastTradedPrice := some equilibriumPrice }
            if s2a.referencePrice = none then
              ({ s2a with referencePrice := some equilibriumPrice }).updatePriceBands
            else s2a
          else s1
        let updatedAll := updB ++ updS
        let s3 := s.auctionOrders.foldl
          (fun st o =>
            let o' := (updatedAll.find? (fun u => u.orderId == o.orderId)).getD o
            if o'.remainingQuantity > 0 ∧ o'.orderType = OrderType.LIMIT then
              st.addToOrderBook o'
            else st) s2
        (trades, { s3 with auctionOrders := []
                           tradingPhase := TradingPhase.CONTINUOUS })

/-! ### Sharded order book (`sharded_order_book.py`) -/

/-- `ShardedOrderBookSide._get_shard_index`: the sum of the character codes of
the first eight characters of the id, modulo the shard count. -/
def shardIndex (orderId : String) (numShards : Nat) : Nat :=
  ((orderId.toList.take 8).map Char.toNat).sum % numShards

/-- `class ShardedOrderBookSide` state: independent shards plus the
`(best_price, valid)` cache and the statistics counters. -/
structure ShardedOrderBookSide where
  side : OrderSide
  numShards : Nat
  shards : List OrderBookSide
  bestPriceCache : Option ℚ
  cacheValid : Bool
  totalOrders : ℤ
  totalCancellations : ℤ
deriving DecidableEq, Repr

/-- `ShardedOrderBookSide.__init__` (`num_shards = max(1, num_shards)`). -/
def ShardedOrderBookSide.init (side : OrderSide) (numShards : Nat) : ShardedOrderBookSide :=
  { side := side, numShards := max 1 numShards
    shards := List.replicate (max 1 numShards) (OrderBookSide.init side)
    bestPriceCache := none, cacheValid := false
    totalOrders := 0, totalCancellations := 0 }

/-- `ShardedOrderBookSide.add_order`: route to the id's shard; the per-shard
`add_order` always succeeds, so the counter is bumped and the cache
invalidated. -/
def ShardedOrderBookSide.addOrder (bk : ShardedOrderBookSide) (o : Order) :
    ShardedOrderBookSide :=
  let idx := shardIndex o.orderId bk.numShards
  match bk.shards.get? idx with
  | none => bk
  | some shard =>
      { bk with shards := bk.shards.set idx (shard.addOrder o)
                totalOrders := bk.totalOrders + 1
                cacheValid := false }

/-- `ShardedOrderBookSide.remove_order`: route to the id's shard; on success
bump the cancellation counter and invalidate the cache (the per-shard
`remove_order` leaves its book untouched on failure, so the failure branch
returns the side unchanged). -/
def ShardedOrderBookSide.removeOrder (bk : ShardedOrderBookSide) (orderId : String) :
    ShardedOrderBookSide × Bool :=
  let idx := shardIndex orderId bk.numShards
  match bk.shards.get? idx with
  | none => (bk, false)
  | some shard =>
      let (shard', res) := shard.removeOrder orderId
      if res then
        ({ bk with shards := bk.shards.set idx shard'
                   totalCancellations := bk.totalCancellations + 1
                   cacheValid := false }, true)
      else (bk, false)

/-- `ShardedOrderBookSide.get_best_price`: return the cache when valid and
non-`None`; otherwise scan every shard's (state-mutating) `get_best_price`,
take the best (max for bids, min for asks), and store it in the cache. -/
def ShardedOrderBookSide.getBestPrice (bk : ShardedOrderBookSide) :
    Option ℚ × ShardedOrderBookSide :=
  if bk.cacheValid ∧ bk.bestPriceCache.isSome then (bk.bestPriceCache, bk)
  else
    let scan := bk.shards.foldl
      (fun (acc : Option ℚ × List OrderBookSide) shard =>
        let (shardBest, shard') := shard.getBestPrice
        let best' :=
          match acc.1, shardBest with
          | none, sb => sb
          | some b, none => some b
          | some b, some v => some (bestOf bk.side b v)
        (best', acc.2 ++ [shard'])) (none, [])
    (scan.1, { bk with shards := scan.2, bestPriceCache := scan.1, cacheValid := true })

/-- `ShardedOrderBookSide.get_orders_at_best_price`: collect the orders of
every shard's non-empty level at the global best price, in shard order, then
sort them stably by timestamp (Python's stable `list.sort`). -/
def ShardedOrderBookSide.getOrdersAtBestPrice (bk : ShardedOrderBookSide) :
    List Order × ShardedOrderBookSide :=
  let (best, bk1) := bk.getBestPrice
  match best with
  | none => ([], bk1)
  | some bestPrice =>
      let allOrders := (bk1.shards.map (fun shard =>
        match shard.getPriceLevel bestPrice with
        | some lvl => if ¬ lvl.isEmpty then lvl.orders else []
        | none => [])).flatten
      (sortByTs allOrders, bk1)

/-- Write an updated order value back into whichever shard level holds its id
(this is the Python in-place mutation of the shared `Order` object returned by
`get_orders_at_best_price`; ids are unique while resting, so keying by id
coincides with object identity). -/
def OrderBookSide.writeBackOrder (bk : OrderBookSide) (orderId : String) (o' : Order) :
    OrderBookSide :=
  { bk with priceLevels := bk.priceLevels.map (fun kv =>
      (kv.1, { kv.2 with orders := kv.2.orders.map (fun o =>
        if o.orderId = orderId then o' else o) })) }

/-- Write an updated order value back across all shards. -/
def ShardedOrderBookSide.writeBackOrder (bk : ShardedOrderBookSide) (orderId : String)
    (o' : Order) : ShardedOrderBookSide :=
  { bk with shards := bk.shards.map (fun sh => sh.writeBackOrder orderId o') }

/-- All orders resting across the shards of a sharded side. -/
def ShardedOrderBookSide.allOrders (bk : ShardedOrderBookSide) : List Order :=
  (bk.shards.map OrderBookSide.allOrders).flatten

/-! ### Sharded matching engine (`sharded_matching_engine.py`) -/

/-- `ShardedMatchingEngine` state. -/
structure ShardedEngine where
  numShards : Nat
  bids : ShardedOrderBookSide
  asks : ShardedOrderBookSide
  tradeHistory : List Trade
  orderHistory : List Order
deriving DecidableEq, Repr

/-- `ShardedMatchingEngine.__init__`. -/
def ShardedEngine.init (numShards : Nat) : ShardedEngine :=
  { numShards := numShards
    bids := ShardedOrderBookSide.init OrderSide.BUY numShards
    asks := ShardedOrderBookSide.init OrderSide.SELL numShards
    tradeHistory := [], orderHistory := [] }

/-- The `while` loop of `ShardedMatchingEngine._match_buy_order`: same guards
as the base loop, but the resting order is the first of
`get_orders_at_best_price()` (globally earliest timestamp at the best
price), and an empty result means `continue`. -/
def shardedMatchBuyLoop : Nat → Order → ShardedOrderBookSide → List Trade →
    Order × ShardedOrderBookSide × List Trade
  | 0, b, asks, acc => (b, asks, acc)
  | Nat.succ fuel, b, asks, acc =>
    if b.remainingQuantity > 0 then
      match asks.getBestPrice with
      | (none, asks1) => (b, asks1, acc)
      | (some _, asks1) =>
        let (guardOk, asks2) :=
          if b.orderType = OrderType.MARKET then (true, asks1)
          else
            match asks1.getBestPrice with
            | (some p2, a2) => (decide (p2 ≤ b.price), a2)
            | (none, a2) => (false, a2)
        if guardOk then
          match asks2.getBestPrice with
          | (none, asks3) => (b, asks3, acc)
          | (some _, asks3) =>
            match asks3.getOrdersAtBestPrice with
            | ([], asks4) => shardedMatchBuyLoop fuel b asks4 acc
            | (sellOrder :: _, asks4) =>
                let tradeQuantity := min b.remainingQuantity sellOrder.remainingQuantity
                let trade := createTrade b sellOrder tradeQuantity
                let b' := { b with filledQuantity := b.filledQuantity + tradeQuantity }
                let sellOrder' :=
                  { sellOrder with filledQuantity := sellOrder.filledQuantity + tradeQuantity }
                let asks5 := asks4.writeBackOrder sellOrder.orderId sellOrder'
                let asks6 :=
                  if sellOrder'.remainingQuantity = 0 then
                    (asks5.removeOrder sellOrder'.orderId).1
                  else asks5
                shardedMatchBuyLoop fuel b' asks6 (acc ++ [trade])
        else (b, asks2, acc)
    else (b, asks, acc)

/-- The `while` loop of `ShardedMatchingEngine._match_sell_order`, mirror
image of the sharded buy loop. -/
def shardedMatchSellLoop : Nat → Order → ShardedOrderBookSide → List Trade →
    Order × ShardedOrderBookSide × List Trade
  | 0, s, bids, acc => (s, bids, acc)
  | Nat.succ fuel, s, bids, acc =>
    if s.remainingQuantity > 0 then
      match bids.getBestPrice with
      | (none, bids1) => (s, bids1, acc)
      | (some _, bids1) =>
        let (guardOk, bids2) :=
          if s.orderType = OrderType.MARKET then (true, bids1)
          else
            match bids1.getBestPrice with
            | (some p2, b2) => (decide (p2 ≥ s.price), b2)
            | (none, b2) => (false, b2)
        if guardOk then
          match bids2.getBestPrice with
          | (none, bids3) => (s, bids3, acc)
          | (some _, bids3) =>
            match bids3.getOrdersAtBestPrice with
            | ([], bids4) => shardedMatchSellLoop fuel s bids4 acc
            | (buyOrder :: _, bids4) =>
                let tradeQuantity := min s.remainingQuantity buyOrder.remainingQuantity
                let trade := createTrade buyOrder s tradeQuantity
                let s' := { s with filledQuantity := s.filledQuantity + tradeQuantity }
                let buyOrder' :=
                  { buyOrder with filledQuantity := buyOrder.filledQuantity + tradeQuantity }
                let bids5 := bids4.writeBackOrder buyOrder.orderId buyOrder'
                let bids6 :=
                  if buyOrder'.remainingQuantity = 0 then
                    (bids5.removeOrder buyOrder'.orderId).1
                  else bids5
                shardedMatchSellLoop fuel s' bids6 (acc ++ [trade])
        else (s, bids2, acc)
    else (s, bids, acc)

/-- `ShardedMatchingEngine.add_order` (also the body of its
`process_order`). -/
def ShardedEngine.addOrder (e : ShardedEngine) (o : Order) : List Trade × ShardedEngine :=
  let e0 := { e with orderHistory := e.orderHistory ++ [o] }
  let (o', e1, trades) :=
    if o.side = OrderSide.BUY then
      let (o', asks', trades) := shardedMatchBuyLoop (matchFuel o) o e0.asks []
      (o', { e0 with asks := asks' }, trades)
    else
      let (o', bids', trades) := shardedMatchSellLoop (matchFuel o) o e0.bids []
      (o', { e0 with bids := bids' }, trades)
  let e2 :=
    if o'.remainingQuantity > 0 ∧ o'.orderType = OrderType.LIMIT then
      if o'.side = OrderSide.BUY then { e1 with bids := e1.bids.addOrder o' }
      else { e1 with asks := e1.asks.addOrder o' }
    else e1
  (trades, { e2 with tradeHistory := e2.tradeHistory ++ trades })

/-- `ShardedMatchingEngine.cancel_order`. -/
def ShardedEngine.cancelOrder (e : ShardedEngine) (orderId : String) :
    ShardedEngine × Bool :=
  let (bids', rb) := e.bids.removeOrder orderId
  if rb then ({ e with bids := bids' }, true)
  else
    let (asks', ra) := e.asks.removeOrder orderId
    if ra then ({ e with asks := asks' }, true)
    else (e, false)

/-- Run a list of orders through `ShardedMatchingEngine.add_order` with the
given shard count, collecting all trades in submission order. -/
def ShardedEngine.run (numShards : Nat) (os : List Order) : List Trade × ShardedEngine :=
  os.foldl
    (fun (acc : List Trade × ShardedEngine) o =>
      let (ts, e') := acc.2.addOrder o
      (acc.1 ++ ts, e'))
    ([], ShardedEngine.init numShards)

/-! ### Concrete scenarios -/

/-- Scenario S1 order `b1`: BUY limit 100 × 100 at t = 1. -/
def s1b1 : Order := { orderId := "b1", side := .BUY, price := 100, quantity := 100, timestamp := 1 }

/-- Scenario S1 order `b2`: BUY limit 100 × 200 at t = 2. -/
def s1b2 : Order := { orderId := "b2", side := .BUY, price := 100, quantity := 200, timestamp := 2 }

/-- Scenario S1 order `s1`: SELL limit 100 × 150 at t = 3. -/
def s1s1 : Order := { orderId := "s1", side := .SELL, price := 100, quantity := 150, timestamp := 3 }

/-- A resting BUY limit at 101 × 100 (for the pricing-rule scenario). -/
def prB : Order := { orderId := "B", side := .BUY, price := 101, quantity := 100, timestamp := 1 }

/-- An incoming SELL limit at 100 × 50 crossing `prB`. -/
def prS : Order := { orderId := "S", side := .SELL, price := 100, quantity := 50, timestamp := 2 }

/-- A resting SELL limit 100 × 100 (for the volume-invariant scenario). -/
def volS : Order := { orderId := "v1", side := .SELL, price := 100, quantity := 100, timestamp := 1 }

/-- An incoming BUY limit 100 × 40 partially filling `volS`. -/
def volB : Order := { orderId := "v2", side := .BUY, price := 100, quantity := 40, timestamp := 2 }

/-- An NSE engine with tick size 1, 10% circuit breaker, 20% price band,
synchronous cancellation, and reference price 100 (bands [80, 120]). -/
def nseRef : NSEEngine := (NSEEngine.init "TEST" 1 10 20 false).setReferencePrice 100

/-- FOK scenario: resting SELL 100 × 50. -/
def fokS1 : Order := { orderId := "S1", side := .SELL, price := 100, quantity := 50, timestamp := 1 }

/-- FOK scenario: resting SELL 110 × 100, above the FOK limit. -/
def fokS2 : Order := { orderId := "S2", side := .SELL, price := 110, quantity := 100, timestamp := 2 }

/-- The incoming BUY FOK at limit 100 for quantity 100. -/
def fokB : Order := { orderId := "F1", side := .BUY, price := 100, quantity := 100, timestamp := 3, orderType := .FOK }

/-- The NSE engine state holding `fokS1` and `fokS2`. -/
def fokPre : NSEEngine := ((nseRef.processOrder 0 fokS1).2.processOrder 0 fokS2).2

/-- Circuit-breaker scenario: resting SELL 89 × 10 (11% below reference). -/
def cbS1 : Order := { orderId := "A1", side := .SELL, price := 89, quantity := 10, timestamp := 1 }

/-- Circuit-breaker scenario: resting SELL 95 × 10 (5% below reference). -/
def cbS2 : Order := { orderId := "A2", side := .SELL, price := 95, quantity := 10, timestamp := 2 }

/-- Incoming BUY 95 × 20 sweeping both resting sells. -/
def cbB : Order := { orderId := "B1", side := .BUY, price := 95, quantity := 20, timestamp := 3 }

/-- Incoming BUY 89 × 10 producing a single trade at 89. -/
def cbB1 : Order := { orderId := "B2", side := .BUY, price := 89, quantity := 10, timestamp := 3 }

/-- NSE engine holding both circuit-breaker resting sells. -/
def cbPre : NSEEngine := ((nseRef.processOrder 0 cbS1).2.processOrder 0 cbS2).2

/-- NSE engine holding only the 89-priced resting sell. -/
def cbPre1 : NSEEngine := (nseRef.processOrder 0 cbS1).2

/-- Auction scenario S3: the six buffered orders. -/
def s3Orders : List Order :=
  [ { orderId := "B1", side := .BUY, price := 102, quantity := 100, timestamp := 1 },
    { orderId := "B2", side := .BUY, price := 101, quantity := 150, timestamp := 2 },
    { orderId := "B3", side := .BUY, price := 100, quantity := 200, timestamp := 3 },
    { orderId := "S1", side := .SELL, price := 100, quantity := 120, timestamp := 4 },
    { orderId := "S2", side := .SELL, price := 101, quantity := 180, timestamp := 5 },
    { orderId := "S3", side := .SELL, price := 102, quantity := 150, timestamp := 6 } ]

/-- Pre-open NSE engine with the S3 orders buffered. -/
def s3Pre : NSEEngine :=
  s3Orders.foldl (fun st o => (st.processOrder 0 o).2)
    ((NSEEngine.init "TEST" 1 10 20 false).setTradingPhase TradingPhase.PRE_OPEN)

/-- The grouped S3 buy orders. -/
def s3Buys : List (ℚ × List Order) :=
  groupByPrice (s3Orders.filter (fun o => o.side = OrderSide.BUY))

/-- The grouped S3 sell orders. -/
def s3Sells : List (ℚ × List Order) :=
  groupByPrice (s3Orders.filter (fun o => o.side = OrderSide.SELL))

/-- Tie-break scenario: a single BUY at 102 × 100 (the tradeable volume is
then 100 both at candidate price 100 and at candidate price 102). -/
def tieB : Order := { orderId := "TB", side := .BUY, price := 102, quantity := 100, timestamp := 1 }

/-- Tie-break scenario: a single SELL at 100 × 100. -/
def tieS : Order := { orderId := "TS", side := .SELL, price := 100, quantity := 100, timestamp := 2 }

/-- The grouped tie-break buys. -/
def tieBuys : List (ℚ × List Order) := [(102, [tieB])]

/-- The grouped tie-break sells. -/
def tieSells : List (ℚ × List Order) := [(100, [tieS])]

/-- Stop-loss scenario: resting BUY 95 × 10. -/
def stpB0 : Order := { orderId := "b0", side := .BUY, price := 95, quantity := 10, timestamp := 1 }

/-- Stop-loss scenario: resting BUY 94 × 20. -/
def stpB1 : Order := { orderId := "b1", side := .BUY, price := 94, quantity := 20, timestamp := 2 }

/-- Stop-loss scenario: SELL stop-limit, stop 98, limit 94, quantity 20. -/
def stpSL : Order := { orderId := "SL1", side := .SELL, price := 94, quantity := 20, timestamp := 3, orderType := .STOP_LOSS, stopPrice := some 98 }

/-- Stop-loss scenario: incoming SELL 95 × 10 whose trade triggers `stpSL`. -/
def stpS1 : Order := { orderId := "s1", side := .SELL, price := 95, quantity := 10, timestamp := 4 }

/-- Equal-timestamp scenario: SELL limit 100 × 10, id `"A"` (shard 65 % 8 = 1),
submitted first. -/
def eqTsA : Order := { orderId := "A", side := .SELL, price := 100, quantity := 10, timestamp := 1 }

/-- Equal-timestamp scenario: SELL limit 100 × 20, id `"H"` (shard 72 % 8 = 0),
submitted second with the same timestamp. -/
def eqTsH : Order := { orderId := "H", side := .SELL, price := 100, quantity := 20, timestamp := 1 }

/-- Equal-timestamp scenario: incoming BUY limit 100 × 10. -/
def eqTsB : Order := { orderId := "B", side := .BUY, price := 100, quantity := 10, timestamp := 2 }

/-- The equal-timestamp order sequence. -/
def eqTsOrders : List Order := [eqTsA, eqTsH, eqTsB]

/-- An NSE engine with asynchronous cancellation enabled. -/
def nseAsync : NSEEngine := NSEEngine.init "TEST" 1 10 20 true

/-! ### Well-formedness and halted-state predicates -/

/-- The orders resting at price `p` of a side (empty when the level is
absent). -/
def levelOrdersAt (bk : OrderBookSide) (p : ℚ) : List Order :=
  match dictGet p bk.priceLevels with
  | some lvl => lvl.orders
  | none => []

/-- A structurally sound book side: no duplicate keys in the order map, the
two cancellation back-maps cover exactly the same ids, and every back-mapped
id leads to an existing level containing an order with that id.  Every side
reachable by engine operations from an empty book satisfies this; the
predicate is stated over the side's finite lists so concrete instances are
decidable. -/
def WFSide (bk : OrderBookSide) : Prop :=
  bk.orderMap.Nodup ∧
  (bk.orderToPriceLevel.map (fun kv => kv.1)).Nodup ∧
  (∀ oid ∈ bk.orderMap, (dictGet oid bk.orderToPriceLevel).isSome) ∧
  (∀ kv ∈ bk.orderToPriceLevel, kv.1 ∈ bk.orderMap) ∧
  (∀ kv ∈ bk.orderToPriceLevel, ∃ o ∈ levelOrdersAt bk kv.2, o.orderId = kv.1)

instance (bk : OrderBookSide) : Decidable (WFSide bk) :=
  decidable_of_iff
    (bk.orderMap.Nodup ∧
     (bk.orderToPriceLevel.map (fun kv => (kv.1 : String))).Nodup ∧
     (∀ oid ∈ bk.orderMap, (dictGet oid bk.orderToPriceLevel).isSome) ∧
     (∀ kv ∈ bk.orderToPriceLevel, kv.1 ∈ bk.orderMap) ∧
     (∀ kv ∈ bk.orderToPriceLevel, ∃ o ∈ levelOrdersAt bk kv.2, o.orderId = kv.1))
    (by unfold WFSide; exact Iff.rfl)

/-- A structurally sound sharded side: as many shards as `num_shards`, each
shard well-formed, and every resting id held by the shard its hash routes
to. -/
def ShardedWF (bk : ShardedOrderBookSide) : Prop :=
  bk.shards.length = bk.numShards ∧ 0 < bk.numShards ∧
  (∀ i (h : i < bk.shards.length), WFSide (bk.shards.get ⟨i, h⟩)) ∧
  (∀ i (h : i < bk.shards.length), ∀ oid ∈ (bk.shards.get ⟨i, h⟩).orderMap,
    shardIndex oid bk.numShards = i)

instance (bk : ShardedOrderBookSide) : Decidable (ShardedWF bk) :=
  decidable_of_iff
    (bk.shards.length = bk.numShards ∧ 0 < bk.numShards ∧
     (∀ i (h : i < bk.shards.length), WFSide (bk.shards.get ⟨i, h⟩)) ∧
     (∀ i (h : i < bk.shards.length), ∀ oid ∈ (bk.shards.get ⟨i, h⟩).orderMap,
       shardIndex oid bk.numShards = i))
    (by unfold ShardedWF; exact Iff.rfl)

/-- An id rests somewhere in a sharded side. -/
def ShardedOrderBookSide.hasOrder (bk : ShardedOrderBookSide) (oid : String) : Prop :=
  ∃ sh ∈ bk.shards, oid ∈ sh.orderMap

instance (bk : ShardedOrderBookSide) (oid : String) : Decidable (bk.hasOrder oid) :=
  decidable_of_iff (∃ sh ∈ bk.shards, oid ∈ sh.orderMap)
    (by unfold ShardedOrderBookSide.hasOrder; exact Iff.rfl)

/-- The circuit-breaker halt state of the exchange engine. -/
def HaltedSt (s : NSEEngine) : Prop :=
  s.isHalted = true ∧ s.tradingPhase = TradingPhase.HALTED

/-- NSE engine with `stpB0` and `stpB1` resting and `stpSL` pending. -/
def stpPre : NSEEngine :=
  (((nseRef.processOrder 0 stpB0).2.processOrder 0 stpB1).2.processOrder 0 stpSL).2

/-- Invariant statement for the candidate scan: the best price seen so far is
a processed candidate realising the running maximum volume, and — whenever the
reference price is truthy — it is of minimal distance to the reference among
the processed candidates of maximal volume. -/
def EqInv (ref : Option ℚ) (buys sells : List (ℚ × List Order))
    (processed : List ℚ) (acc : Option ℚ × ℤ) : Prop :=
  match acc.1 with
  | none => acc.2 = 0 ∧ ∀ q ∈ processed, tradeableAt buys sells q ≤ 0
  | some bp => tradeableAt buys sells bp = acc.2 ∧ bp ∈ processed ∧
      (∀ q ∈ processed, tradeableAt buys sells q ≤ acc.2) ∧
      (∀ r, ref = some r → r ≠ 0 → ∀ q ∈ processed,
        tradeableAt buys sells q = acc.2 → |bp - r| ≤ |q - r|)


/-! ### Lockstep development: well-formedness predicates and the
simulation relations between the base and the sharded books. -/

def TsStrict (l : List Order) : Prop :=
  l.Pairwise (fun a b => a.timestamp < b.timestamp)

def GoodSide (bk : OrderBookSide) : Prop :=
  bk.heap = bk.priceLevels.map (fun kv => kv.1) ∧
  (bk.priceLevels.map (fun kv => kv.1)).Nodup ∧
  (∀ kv ∈ bk.priceLevels, kv.2.orders ≠ []) ∧
  (∀ kv ∈ bk.priceLevels, ∀ o ∈ kv.2.orders, o.price = kv.1) ∧
  (∀ kv ∈ bk.priceLevels, TsStrict kv.2.orders) ∧
  (∀ kv ∈ bk.priceLevels, ∀ o ∈ kv.2.orders, dictGet o.orderId bk.orderToPriceLevel = some kv.1)

def IdsNodup (bk : OrderBookSide) : Prop :=
  (bk.allOrders.map (fun o => o.orderId)).Nodup

/-- The level left behind after removing the queue head. -/
def levelTail (lvl : PriceLevel) (o₀ : Order) (tl : List Order) : PriceLevel :=
  { lvl with orders := tl, totalVolume := lvl.totalVolume - o₀.remainingQuantity }

/-- The combination step of `ShardedOrderBookSide.get_best_price`'s scan. -/
def combine (side : OrderSide) : Option ℚ → Option ℚ → Option ℚ
  | none, sb => sb
  | some b, none => some b
  | some b, some v => some (bestOf side b v)

/-- The best price over all shards (the value the scan computes). -/
def combinedPeek (sbk : ShardedOrderBookSide) : Option ℚ :=
  sbk.shards.foldl (fun acc sh => combine sbk.side acc (heapPeek sh.side sh.heap)) none

/-- The state left by a cache-refreshing `get_best_price`. -/
def cacheSet (sbk : ShardedOrderBookSide) : ShardedOrderBookSide :=
  { sbk with bestPriceCache := combinedPeek sbk, cacheValid := true }

/-- Structural soundness of a sharded side. -/
def GoodSharded (sbk : ShardedOrderBookSide) : Prop :=
  sbk.shards.length = sbk.numShards ∧ 0 < sbk.numShards ∧
  (∀ sh ∈ sbk.shards, sh.side = sbk.side ∧ GoodSide sh) ∧
  (∀ i (hi : i < sbk.shards.length), ∀ x ∈ (sbk.shards.get ⟨i, hi⟩).allOrders,
    shardIndex x.orderId sbk.numShards = i) ∧
  (sbk.cacheValid = true → sbk.bestPriceCache = combinedPeek sbk)

def BookRel (bk : OrderBookSide) (sbk : ShardedOrderBookSide) : Prop :=
  GoodSide bk ∧ GoodSharded sbk ∧ sbk.side = bk.side ∧
  IdsNodup bk ∧ (bk.allOrders.map (fun o => o.timestamp)).Nodup ∧
  bk.allOrders.Perm sbk.allOrders

/-- Advance an order's filled quantity (the in-place `filled_quantity +=`). -/
def fillBy (o : Order) (q : ℤ) : Order :=
  { o with filledQuantity := o.filledQuantity + q }

def coreEq (a b : Order) : Prop :=
  a.orderId = b.orderId ∧ a.timestamp = b.timestamp ∧ a.side = b.side ∧
  a.orderType = b.orderType ∧ a.price = b.price

def EngineRel (e : BaseEngine) (g : ShardedEngine) : Prop :=
  BookRel e.bids g.bids ∧ BookRel e.asks g.asks


/-! ## Theorems

First the bridging lemmas identifying the kernel-reducing rational
operations with the field operations of ℚ, then the claim theorems. -/

theorem qdiv_eq (a b : ℚ) : qdiv a b = a / b := (Rat.div_def' a b).symm

theorem qadd_eq (a b : ℚ) : qadd a b = a + b := by
  have ha : ((a.den : ℚ)) ≠ 0 := by exact_mod_cast a.den_nz
  have hb : ((b.den : ℚ)) ≠ 0 := by exact_mod_cast b.den_nz
  rw [qadd, Rat.divInt_eq_div]
  push_cast
  conv_rhs => rw [← Rat.num_div_den a, ← Rat.num_div_den b]
  field_simp

theorem qsub_eq (a b : ℚ) : qsub a b = a - b := by
  have ha : ((a.den : ℚ)) ≠ 0 := by exact_mod_cast a.den_nz
  have hb : ((b.den : ℚ)) ≠ 0 := by exact_mod_cast b.den_nz
  rw [qsub, Rat.divInt_eq_div]
  push_cast
  conv_rhs => rw [← Rat.num_div_den a, ← Rat.num_div_den b]
  field_simp
  ring

theorem qmul_eq (a b : ℚ) : qmul a b = a * b := by
  have ha : ((a.den : ℚ)) ≠ 0 := by exact_mod_cast a.den_nz
  have hb : ((b.den : ℚ)) ≠ 0 := by exact_mod_cast b.den_nz
  rw [qmul, Rat.divInt_eq_div]
  push_cast
  conv_rhs => rw [← Rat.num_div_den a, ← Rat.num_div_den b]
  field_simp

theorem qabs_eq (a : ℚ) : qabs a = |a| := by
  rw [qabs, Rat.divInt_eq_div]
  push_cast
  conv_rhs => rw [← Rat.num_div_den a]
  rw [abs_div, abs_of_nonneg (show (0:ℚ) ≤ (a.den : ℚ) by positivity)]

theorem qofInt_eq (n : ℤ) : qofInt n = (n : ℚ) := by
  rw [qofInt, Rat.divInt_eq_div]
  norm_num

/-- C1: evaluation of the base engine at the failing input.  A resting BUY
limit at 101 is crossed by an incoming SELL limit at 100, and the produced
trade's price is 100 — the incoming sell's own price — although the claim
requires the resting buy's price 101 (`Trade.create_trade` uses the sell
order's price whenever both orders are limit, and the engine's locally
computed `trade_price = buy_order.price` is never used). -/
theorem C1_incoming_sell_limit_trades_at_its_own_price :
    ((BaseEngine.run [prB, prS]).1.map Trade.toFill =
      [{ buyOrderId := "B", sellOrderId := "S", price := 100, quantity := 50 }]) ∧
    prB.price = 101 ∧ prS.price = 100 ∧ (100 : ℚ) ≠ 101 := by decide

/-- C2 counterexample: three orders with equal submission timestamps on the
resting sells.  The base engine matches FIFO within the level and fills sell
`"A"`; the sharded engine re-sorts the orders of the best level by timestamp
across shards in shard order (`"H"` hashes to shard 0, `"A"` to shard 1) and
fills sell `"H"`; the two fill multisets differ. -/
theorem C2_counterexample_equal_timestamps :
    ((BaseEngine.run eqTsOrders).1.map Trade.toFill =
      [{ buyOrderId := "B", sellOrderId := "A", price := 100, quantity := 10 }]) ∧
    ((ShardedEngine.run 8 eqTsOrders).1.map Trade.toFill =
      [{ buyOrderId := "B", sellOrderId := "H", price := 100, quantity := 10 }]) ∧
    ¬ ((((BaseEngine.run eqTsOrders).1.map Trade.toFill : List Fill) : Multiset Fill) =
       (((ShardedEngine.run 8 eqTsOrders).1.map Trade.toFill : List Fill) : Multiset Fill)) := by
  decide

/-- C3: evaluation of the exchange engine at the failing input.  The book
holds asks 100 × 50 and 110 × 100; the FOK BUY at limit 100 for 100 should
see only 50 acceptable-price volume and be rejected without side effects, but
`_handle_fok_order` tests `order_type == LIMIT` (never true for a FOK order)
and so probes the whole book (150 ≥ 100), proceeds, fills 50 at 100, discards
the rest, and leaves the book changed — a partial fill of an FOK order. -/
theorem C3_fok_ignores_limit_price_and_partially_fills :
    (NSEEngine.getAvailableVolumeAtPrice fokPre.asks (some fokB.price) = 50) ∧
    (NSEEngine.getAvailableVolumeAtPrice fokPre.asks none = 150) ∧
    fokB.quantity = 100 ∧
    ((fokPre.processOrder 0 fokB).1.map Trade.toFill =
      [{ buyOrderId := "F1", sellOrderId := "S1", price := 100, quantity := 50 }]) ∧
    ((fokPre.processOrder 0 fokB).2.asks.allOrders.map
      (fun o => (o.orderId, o.remainingQuantity)) = [("S2", 100)]) := by decide

/-- C4 counterexample: reference 100, breaker 10%.  An incoming BUY sweeps
asks at 89 (11% deviation — `_check_circuit_breaker` itself says this price
trips the breaker) and then at 95 (5%); the engine checks only the last
trade's price and ends the pass in CONTINUOUS phase, not HALTED, so a trade
crossed the threshold without the engine halting. -/
theorem C4_counterexample_intermediate_trade_crosses_without_halt :
    ((cbPre.processOrder 0 cbB).1.map (fun t => t.price) = [89, 95]) ∧
    ((cbPre.checkCircuitBreaker 89).2 = true) ∧
    ((cbPre.processOrder 0 cbB).2.isHalted = false) ∧
    ((cbPre.processOrder 0 cbB).2.tradingPhase = TradingPhase.CONTINUOUS) := by decide

/-- C5: evaluation of the base engine at the failing input.  After a resting
SELL 100 × 100 is partially filled by a BUY 100 × 40, the level's
`total_volume` still reads 100 while the sum of remaining quantities is 60:
the base engine's match loop never decrements `total_volume` (and removal of
a fully filled order subtracts its remaining 0). -/
theorem C5_total_volume_not_decremented_on_partial_fill :
    ((BaseEngine.run [volS, volB]).2.asks.priceLevels.map
      (fun kv => (kv.1, kv.2.totalVolume, kv.2.sumRemaining))) = [(100, 100, 60)] ∧
    (100 : ℤ) ≠ 60 := by decide

/-- C6: evaluation of the adaptive engine's transition at the failing input.
With current regime NORMAL and the detector reporting HIGH_VOLATILITY,
`AdaptiveMatchingEngine._transition_regime` overwrites `current_regime`
before building the history entry, so the recorded `from_regime` is
HIGH_VOLATILITY instead of NORMAL (the sharded variant, which saves
`old_regime` first, records NORMAL as the claim requires). -/
theorem C6_from_regime_field_records_new_regime :
    AdaptiveRegimeState.init.currentRegime = MarketRegime.NORMAL ∧
    ((AdaptiveRegimeState.init.onDetected MarketRegime.HIGH_VOLATILITY).regimeHistory =
      [{ timestamp := 0, fromRegime := "HIGH_VOLATILITY", toRegime := "HIGH_VOLATILITY" }]) ∧
    ((AdaptiveRegimeState.init.onDetected MarketRegime.HIGH_VOLATILITY).currentRegime =
      MarketRegime.HIGH_VOLATILITY) ∧
    ((AdaptiveRegimeState.init.onDetected MarketRegime.HIGH_VOLATILITY).regimeChangeCount = 1) ∧
    ((AdaptiveRegimeState.init.shardedOnDetected MarketRegime.HIGH_VOLATILITY).regimeHistory =
      [{ timestamp := 0, fromRegime := "NORMAL", toRegime := "HIGH_VOLATILITY" }]) ∧
    "HIGH_VOLATILITY" ≠ "NORMAL" := by decide

/-- C8 counterexample: with asynchronous cancellation enabled,
`cancel_order` enqueues the id and returns `True` even though the book and the
pending-stop map are empty and the engine state is unchanged — so `True` is
returned without any resting order being removed or pending stop dropped. -/
theorem C8_counterexample_async_cancel_returns_true_without_removal :
    ((nseAsync.cancelOrder "missing").2 = true) ∧
    nseAsync.bids.orderMap = [] ∧ nseAsync.asks.orderMap = [] ∧
    nseAsync.pendingStopOrders = [] ∧
    ((nseAsync.cancelOrder "missing").1 = nseAsync) := by decide

/-- C9: the FIFO scenario S1.  Processing BUY b1 @100 × 100, BUY b2
@100 × 200, then SELL s1 @100 × 150 produces exactly the trades
(b1, s1, 100, 100) then (b2, s1, 100, 50) in that order, after which b1 is
gone and b2 rests with remaining 150. -/
theorem C9_fifo_same_price_scenario :
    ((BaseEngine.run [s1b1, s1b2, s1s1]).1.map Trade.toFill =
      [{ buyOrderId := "b1", sellOrderId := "s1", price := 100, quantity := 100 },
       { buyOrderId := "b2", sellOrderId := "s1", price := 100, quantity := 50 }]) ∧
    ((BaseEngine.run [s1b1, s1b2, s1s1]).2.bids.allOrders.map
      (fun o => (o.orderId, o.remainingQuantity)) = [("b2", 150)]) ∧
    (BaseEngine.run [s1b1, s1b2, s1s1]).2.asks.allOrders = [] := by decide

theorem haltedSt_checkCircuitBreaker (s : NSEEngine) (p : ℚ) (h : HaltedSt s) :
    HaltedSt ((s.checkCircuitBreaker p).1) := by
  unfold NSEEngine.checkCircuitBreaker
  rcases href : s.referencePrice with _ | r
  · exact h
  · dsimp only
    split_ifs with h1 h2
    · exact h
    · exact ⟨rfl, rfl⟩
    · exact h

theorem haltedSt_nseMatchAux (cp : NSEEngine → NSEEngine)
    (hcp : ∀ st, HaltedSt st → HaltedSt (cp st)) (s : NSEEngine) (o : Order)
    (h : HaltedSt s) : HaltedSt ((nseMatchAux cp s o).2.1) := by
  by_cases hs : o.side = OrderSide.BUY
  · rcases hloop : nseMatchBuyLoop s.tradeHistory.length (matchFuel o) o s.asks [] with ⟨o', asks', tr⟩
    simp only [nseMatchAux, hs, if_true, hloop]
    rcases hlast : tr.getLast? with _ | t <;> simp only [hlast]
    · exact ⟨h.1, h.2⟩
    · have hh := hcp _ (haltedSt_checkCircuitBreaker
        ({ s with asks := asks', lastTradedPrice := some t.price }) t.price ⟨h.1, h.2⟩)
      exact ⟨hh.1, hh.2⟩
  · rcases hloop : nseMatchSellLoop s.tradeHistory.length (matchFuel o) o s.bids [] with ⟨o', bids', tr⟩
    simp only [nseMatchAux, hs, if_false, hloop]
    rcases hlast : tr.getLast? with _ | t <;> simp only [hlast]
    · exact ⟨h.1, h.2⟩
    · have hh := hcp _ (haltedSt_checkCircuitBreaker
        ({ s with bids := bids', lastTradedPrice := some t.price }) t.price ⟨h.1, h.2⟩)
      exact ⟨hh.1, hh.2⟩

theorem haltedSt_checkPending : ∀ (fuel : Nat) (s : NSEEngine), HaltedSt s →
    HaltedSt (NSEEngine.checkPendingStopOrdersF fuel s) := by
  intro fuel
  induction fuel with
  | zero => intro s h; exact h
  | succ sf ih =>
      intro s h
      simp only [NSEEngine.checkPendingStopOrdersF]
      have hfold : ∀ (l : List Order) (st : NSEEngine), HaltedSt st →
          HaltedSt (l.foldl (fun st o =>
            (nseMatchAux (NSEEngine.checkPendingStopOrdersF sf) st (activateStopOrder o)).2.1) st) := by
        intro l
        induction l with
        | nil => intro st hst; exact hst
        | cons hd tl ihl =>
            intro st hst
            exact ihl _ (haltedSt_nseMatchAux _ ih _ _ hst)
      exact hfold _ _ ⟨h.1, h.2⟩

theorem nseMatchAux_fires (cp : NSEEngine → NSEEngine)
    (hcp : ∀ st, HaltedSt st → HaltedSt (cp st)) (s : NSEEngine) (o : Order) (t : Trade) (r : ℚ)
    (hlast : ((nseMatchAux cp s o).1).getLast? = some t)
    (href : s.referencePrice = some r) (hr : r ≠ 0)
    (hcross : qmul (qdiv (qabs (qsub t.price r)) r) 100 ≥ s.circuitBreakerPct) :
    HaltedSt ((nseMatchAux cp s o).2.1) := by
  by_cases hs : o.side = OrderSide.BUY
  · rcases hloop : nseMatchBuyLoop s.tradeHistory.length (matchFuel o) o s.asks [] with ⟨o', asks', tr⟩
    simp only [nseMatchAux, hs, if_true, hloop] at hlast ⊢
    simp only [hlast]
    have hcb : HaltedSt ((({ s with asks := asks', lastTradedPrice := some t.price
        } : NSEEngine).checkCircuitBreaker t.price).1) := by
      unfold NSEEngine.checkCircuitBreaker
      simp only [href]
      rw [if_neg hr, if_pos hcross]
      exact ⟨rfl, rfl⟩
    have hh := hcp _ hcb
    exact ⟨hh.1, hh.2⟩
  · rcases hloop : nseMatchSellLoop s.tradeHistory.length (matchFuel o) o s.bids [] with ⟨o', bids', tr⟩
    simp only [nseMatchAux, hs, if_false, hloop] at hlast ⊢
    simp only [hlast]
    have hcb : HaltedSt ((({ s with bids := bids', lastTradedPrice := some t.price
        } : NSEEngine).checkCircuitBreaker t.price).1) := by
      unfold NSEEngine.checkCircuitBreaker
      simp only [href]
      rw [if_neg hr, if_pos hcross]
      exact ⟨rfl, rfl⟩
    have hh := hcp _ hcb
    exact ⟨hh.1, hh.2⟩

theorem haltedSt_stopFuelCheck (s : NSEEngine) : ∀ st, HaltedSt st →
    HaltedSt (NSEEngine.checkPendingStopOrdersF s.stopFuel st) :=
  fun st h => haltedSt_checkPending _ st h

theorem handleContinuous_fires (s : NSEEngine) (o : Order) (t : Trade) (r : ℚ)
    (hlast : ((s.handleContinuousOrder o).1).getLast? = some t)
    (href : s.referencePrice = some r) (hr : r ≠ 0)
    (hcross : qmul (qdiv (qabs (qsub t.price r)) r) 100 ≥ s.circuitBreakerPct) :
    HaltedSt ((s.handleContinuousOrder o).2) := by
  have key : ∀ (oo : Order), ((s.matchOrder oo).1).getLast? = some t →
      HaltedSt ((s.matchOrder oo).2.1) :=
    fun oo hl => nseMatchAux_fires _ (haltedSt_checkPending s.stopFuel) s oo t r hl href hr hcross
  unfold NSEEngine.handleContinuousOrder at hlast ⊢
  split_ifs at hlast ⊢ with h1 h2
  · -- stop-loss handler
    unfold NSEEngine.handleStopLossOrder at hlast ⊢
    split_ifs at hlast ⊢ with h3
    · rcases hm : s.matchOrder (activateStopOrder o) with ⟨tr, s', o'⟩
      simp only [hm] at hlast ⊢
      have hfire := key (activateStopOrder o) (by rw [hm]; exact hlast)
      rw [hm] at hfire
      exact hfire
    · simp at hlast
  · -- FOK handler
    unfold NSEEngine.handleFokOrder at hlast ⊢
    dsimp only at hlast ⊢
    rcases hm : s.matchOrder o with ⟨tr, s', o'⟩
    simp only [hm] at hlast ⊢
    split_ifs at hlast ⊢
    all_goals first
      | (have hfire := key o (by rw [hm]; exact hlast)
         rw [hm] at hfire
         exact hfire)
      | (simp at hlast)
  · -- regular orders
    rcases hm : s.matchOrder o with ⟨tr, s', o'⟩
    simp only [hm] at hlast ⊢
    have hfire := key o (by rw [hm]; exact hlast)
    rw [hm] at hfire
    split_ifs
    · unfold NSEEngine.addToOrderBook
      split_ifs
      · exact ⟨hfire.1, hfire.2⟩
      · exact ⟨hfire.1, hfire.2⟩
    · unfold NSEEngine.addToOrderBook
      split_ifs
      · exact ⟨hfire.1, hfire.2⟩
      · exact ⟨hfire.1, hfire.2⟩
    · exact hfire
    · exact hfire

@[simp] theorem noteOrder_isHalted (s : NSEEngine) (o : Order) :
    (s.noteOrder o).isHalted = s.isHalted := rfl

@[simp] theorem noteOrder_referencePrice (s : NSEEngine) (o : Order) :
    (s.noteOrder o).referencePrice = s.referencePrice := rfl

@[simp] theorem noteOrder_circuitBreakerPct (s : NSEEngine) (o : Order) :
    (s.noteOrder o).circuitBreakerPct = s.circuitBreakerPct := rfl

@[simp] theorem noteOrder_tradingPhase (s : NSEEngine) (o : Order) :
    (s.noteOrder o).tradingPhase = s.tradingPhase := rfl

theorem processOrder_halted (s : NSEEngine) (now : ℚ) (o : Order) (h : s.isHalted = true) :
    s.processOrder now o = ([], s.noteOrder o) := by
  unfold NSEEngine.processOrder
  simp only [noteOrder_isHalted, h]
  rfl

/-- C4 (amended): the engine evaluates the circuit breaker only on the final
trade of an order's matching pass.  If that final trade's price deviates from
the (non-zero) reference price by at least `circuit_breaker_pct` percent,
then immediately after the `process_order` call the engine is in the HALTED
phase with `is_halted` set, and every subsequently processed order yields no
trades and leaves the books and pending stops unchanged until
`resume_trading()` — though trades of pending-stop activations belonging to
the same pass may still occur, and an intermediate trade of the pass crossing
the threshold does not halt the engine (see the counterexample). -/
theorem C4_halt_on_final_trade_price (s : NSEEngine) (now : ℚ) (o : Order) (t : Trade) (r : ℚ)
    (hlast : ((s.processOrder now o).1).getLast? = some t)
    (href : s.referencePrice = some r) (hr : r ≠ 0)
    (hcross : |t.price - r| / r * 100 ≥ s.circuitBreakerPct) :
    HaltedSt ((s.processOrder now o).2) ∧
    ∀ now2 o2,
      ((((s.processOrder now o).2).processOrder now2 o2).1 = [] ∧
       (((s.processOrder now o).2).processOrder now2 o2).2.isHalted = true ∧
       (((s.processOrder now o).2).processOrder now2 o2).2.bids = ((s.processOrder now o).2).bids ∧
       (((s.processOrder now o).2).processOrder now2 o2).2.asks = ((s.processOrder now o).2).asks ∧
       (((s.processOrder now o).2).processOrder now2 o2).2.pendingStopOrders =
         ((s.processOrder now o).2).pendingStopOrders) := by
  have hcross' : qmul (qdiv (qabs (qsub t.price r)) r) 100 ≥ s.circuitBreakerPct := by
    rwa [qmul_eq, qdiv_eq, qabs_eq, qsub_eq]
  have main : HaltedSt ((s.processOrder now o).2) := by
    unfold NSEEngine.processOrder at hlast ⊢
    by_cases h1 : (s.noteOrder o).isHalted = true
    · simp only [h1, if_true] at hlast
      simp at hlast
    · simp only [h1, if_false, Bool.false_eq_true] at hlast ⊢
      by_cases h2 : o.isExpired now = true
      · simp only [h2, if_true] at hlast
        simp at hlast
      · simp only [h2, if_false, Bool.false_eq_true] at hlast ⊢
        split_ifs at hlast ⊢
        all_goals first
          | (simp at hlast)
          | (unfold NSEEngine.handleAuctionOrder at hlast; simp at hlast)
          | (exact handleContinuous_fires _ _ t r hlast (by simp [href]) hr (by simpa using hcross'))
  refine ⟨main, fun now2 o2 => ?_⟩
  rw [processOrder_halted _ now2 o2 main.1]
  exact ⟨rfl, main.1, rfl, rfl, rfl⟩

/-- C4 witness: the single-trade scenario at 89 against reference 100 with a
10% breaker halts the engine, and a follow-up order produces no trades. -/
theorem C4_halt_on_final_trade_price_witness :
    HaltedSt ((cbPre1.processOrder 0 cbB1).2) ∧
    (((cbPre1.processOrder 0 cbB1).2).processOrder 0 cbB).1 = [] := by
  have h := C4_halt_on_final_trade_price cbPre1 0 cbB1
    { tradeId := "T-0", buyOrderId := "B2", sellOrderId := "A1",
      price := 89, quantity := 10, timestamp := 0 } 100
    (by decide) (by decide) (by norm_num)
    (by have hcb : cbPre1.circuitBreakerPct = 10 := by decide
        rw [hcb]; norm_num)
  exact ⟨h.1, (h.2 0 cbB).1⟩

theorem findEqLoop_spec (ref : Option ℚ) (buys sells : List (ℚ × List Order)) :
    ∀ (rest processed : List ℚ) (acc : Option ℚ × ℤ),
    EqInv ref buys sells processed acc →
    EqInv ref buys sells (processed ++ rest) (findEqLoop ref buys sells rest acc) := by
  intro rest
  induction rest with
  | nil =>
      intro processed acc h
      simpa [findEqLoop] using h
  | cons price rest ih =>
      intro processed acc h
      rcases acc with ⟨bestPrice, maxVolume⟩
      have hassoc : processed ++ price :: rest = (processed ++ [price]) ++ rest := by simp
      rw [hassoc]
      simp only [findEqLoop]
      rcases bestPrice with _ | bp
      · obtain ⟨h1, h2⟩ := h
        by_cases hgt : tradeableAt buys sells price > maxVolume
        · rw [if_pos hgt]
          refine ih (processed ++ [price]) _ ⟨rfl, by simp, ?_, ?_⟩
          · intro q hq
            rcases List.mem_append.mp hq with hq | hq
            · calc tradeableAt buys sells q ≤ 0 := h2 q hq
                _ = maxVolume := h1.symm
                _ ≤ _ := le_of_lt hgt
            · simp at hq
              subst hq
              exact le_refl _
          · intro r href hrne q hq hveq
            rcases List.mem_append.mp hq with hq | hq
            · have hle : tradeableAt buys sells q ≤ maxVolume :=
                le_trans (h2 q hq) (le_of_eq h1.symm)
              exact absurd hveq (ne_of_lt (lt_of_le_of_lt hle hgt))
            · simp at hq
              subst hq
              exact le_refl _
        · rw [if_neg hgt, if_neg (by simp)]
          refine ih (processed ++ [price]) _ ⟨h1, ?_⟩
          intro q hq
          rcases List.mem_append.mp hq with hq | hq
          · exact h2 q hq
          · simp at hq
            subst hq
            exact le_trans (not_lt.mp hgt) (le_of_eq h1)
      · obtain ⟨h1, h2, h3, h4⟩ := h
        by_cases hgt : tradeableAt buys sells price > maxVolume
        · rw [if_pos hgt]
          refine ih (processed ++ [price]) _ ⟨rfl, by simp, ?_, ?_⟩
          · intro q hq
            rcases List.mem_append.mp hq with hq | hq
            · exact le_trans (h3 q hq) (le_of_lt hgt)
            · simp at hq
              subst hq
              exact le_refl _
          · intro r href hrne q hq hveq
            rcases List.mem_append.mp hq with hq | hq
            · exact absurd hveq (ne_of_lt (lt_of_le_of_lt (h3 q hq) hgt))
            · simp at hq
              subst hq
              exact le_refl _
        · rw [if_neg hgt]
          have hkeep : (∀ r, ref = some r → r ≠ 0 →
                tradeableAt buys sells price = maxVolume → |bp - r| ≤ |price - r|) →
              EqInv ref buys sells (processed ++ [price]) (some bp, maxVolume) := by
            intro htb
            refine ⟨h1, List.mem_append.mpr (Or.inl h2), ?_, ?_⟩
            · intro q hq
              rcases List.mem_append.mp hq with hq | hq
              · exact h3 q hq
              · simp at hq
                subst hq
                exact not_lt.mp hgt
            · intro r href hrne q hq hveq
              rcases List.mem_append.mp hq with hq | hq
              · exact h4 r href hrne q hq hveq
              · simp at hq
                subst hq
                exact htb r href hrne hveq
          by_cases htie : tradeableAt buys sells price = maxVolume
          · rw [if_pos ⟨htie, rfl⟩]
            rcases ref with _ | r
            · dsimp only
              refine ih (processed ++ [price]) _ (hkeep ?_)
              intro r href
              simp at href
            · dsimp only
              by_cases hr : r ≠ 0
              · rw [if_pos hr]
                by_cases hcl : qabs (qsub price r) < qabs (qsub bp r)
                · rw [if_pos hcl]
                  have hcl2 : |price - r| < |bp - r| := by
                    rw [← qsub_eq, ← qsub_eq, ← qabs_eq, ← qabs_eq]
                    exact hcl
                  refine ih (processed ++ [price]) _
                    ⟨htie, List.mem_append.mpr (Or.inr (by simp)), ?_, ?_⟩
                  · intro q hq
                    rcases List.mem_append.mp hq with hq | hq
                    · exact h3 q hq
                    · simp at hq
                      subst hq
                      exact le_of_eq htie
                  · intro r' href' hrne' q hq hveq
                    injection href' with he2
                    rw [← he2] at hrne' ⊢
                    rcases List.mem_append.mp hq with hq | hq
                    · exact le_trans (le_of_lt hcl2) (h4 r rfl hrne' q hq hveq)
                    · simp at hq
                      subst hq
                      exact le_refl _
                · rw [if_neg hcl]
                  have hncl : ¬ |price - r| < |bp - r| := by
                    rw [← qsub_eq, ← qsub_eq, ← qabs_eq, ← qabs_eq]
                    exact hcl
                  refine ih (processed ++ [price]) _ (hkeep ?_)
                  intro r' href' hrne' hveq
                  injection href' with he2
                  rw [← he2]
                  exact not_lt.mp hncl
              · rw [if_neg hr]
                refine ih (processed ++ [price]) _ (hkeep ?_)
                intro r' href' hrne' hveq
                injection href' with he2
                rw [← he2] at hrne'
                exact absurd hrne' hr
          · rw [if_neg (fun hc => htie hc.1)]
            refine ih (processed ++ [price]) _ (hkeep ?_)
            intro r href hrne hveq
            exact absurd hveq htie

theorem auctionMatchLoop_prices (price : ℚ) :
    ∀ (fuel : Nat) (s : NSEEngine) (buyers sellers : List Order)
      (accT : List Trade) (doneB doneS : List Order),
      (∀ t ∈ accT, t.price = price) →
      ∀ t ∈ (auctionMatchLoop price fuel s buyers sellers accT doneB doneS).1,
        t.price = price := by
  intro fuel
  induction fuel with
  | zero =>
      intro s buyers sellers accT doneB doneS hacc
      simpa [auctionMatchLoop] using hacc
  | succ fuel ih =>
      intro s buyers sellers accT doneB doneS hacc
      rcases buyers with _ | ⟨b, bs⟩
      · simpa [auctionMatchLoop] using hacc
      · rcases sellers with _ | ⟨sl, ss⟩
        · simpa [auctionMatchLoop] using hacc
        · simp only [auctionMatchLoop]
          split_ifs with h1 h2 h3 h4 h5
          · exact ih _ _ _ _ _ _ hacc
          · exact ih _ _ _ _ _ _ hacc
          · refine ih _ _ _ _ _ _ ?_
            intro t ht
            rcases List.mem_append.mp ht with ht | ht
            · exact hacc t ht
            · simp at ht; subst ht; rfl
          · refine ih _ _ _ _ _ _ ?_
            intro t ht
            rcases List.mem_append.mp ht with ht | ht
            · exact hacc t ht
            · simp at ht; subst ht; rfl
          · refine ih _ _ _ _ _ _ ?_
            intro t ht
            rcases List.mem_append.mp ht with ht | ht
            · exact hacc t ht
            · simp at ht; subst ht; rfl
          · refine ih _ _ _ _ _ _ ?_
            intro t ht
            rcases List.mem_append.mp ht with ht | ht
            · exact hacc t ht
            · simp at ht; subst ht; rfl

theorem executeAuctionAtPrice_prices (s : NSEEngine) (price : ℚ)
    (buys sells : List (ℚ × List Order)) :
    ∀ t ∈ (s.executeAuctionAtPrice price buys sells).1, t.price = price := by
  unfold NSEEngine.executeAuctionAtPrice
  exact auctionMatchLoop_prices price _ _ _ _ _ _ _ (by simp)

/-- C7: `_find_equilibrium_price` returns a candidate price whose tradeable
volume (minimum of cumulative buy volume at prices ≥ p and cumulative sell
volume at prices ≤ p) is maximal over all candidate prices and — whenever the
reference price is truthy — of minimal distance to the reference price among
the candidates of maximal volume (the tie-break by closeness to the
reference); every trade of `execute_call_auction` is priced at the returned
equilibrium price, and in scenario S3 the equilibrium price is 101 with all
trades at 101. -/
theorem C7_call_auction_maximises_tradeable_volume :
    (∀ (ref : Option ℚ) (buys sells : List (ℚ × List Order)) (p : ℚ) (v : ℤ),
      findEquilibriumPrice ref buys sells = (some p, v) →
      p ∈ auctionCandidatePrices buys sells ∧ tradeableAt buys sells p = v ∧
      (∀ q ∈ auctionCandidatePrices buys sells, tradeableAt buys sells q ≤ v) ∧
      (∀ r, ref = some r → r ≠ 0 → ∀ q ∈ auctionCandidatePrices buys sells,
        tradeableAt buys sells q = v → |p - r| ≤ |q - r|)) ∧
    (∀ (s : NSEEngine) (p : ℚ) (v : ℤ),
      findEquilibriumPrice s.referencePrice
        (groupByPrice (s.auctionOrders.filter (fun o => o.side = OrderSide.BUY)))
        (groupByPrice (s.auctionOrders.filter (fun o => o.side = OrderSide.SELL))) = (some p, v) →
      ∀ t ∈ (s.executeCallAuction).1, t.price = p) ∧
    (findEquilibriumPrice s3Pre.referencePrice s3Buys s3Sells = (some 101, 250) ∧
     (s3Pre.executeCallAuction).1.map (fun t => t.price) = [101, 101, 101]) := by
  refine ⟨?_, ?_, by decide⟩
  · intro ref buys sells p v heq
    have h0 : EqInv ref buys sells [] (none, 0) := ⟨rfl, by simp⟩
    have := findEqLoop_spec ref buys sells (auctionCandidatePrices buys sells) [] (none, 0) h0
    rw [show findEqLoop ref buys sells (auctionCandidatePrices buys sells) (none, 0)
        = findEquilibriumPrice ref buys sells from rfl, heq] at this
    simp only [EqInv, List.nil_append] at this
    exact ⟨this.2.1, this.1, this.2.2.1, this.2.2.2⟩
  · intro s p v heq t ht
    unfold NSEEngine.executeCallAuction at ht
    by_cases hemp : s.auctionOrders.isEmpty = true
    · rw [if_pos hemp] at ht
      simp at ht
    · rw [if_neg hemp] at ht
      dsimp only at ht
      rw [heq] at ht
      dsimp only at ht
      rcases hex : s.executeAuctionAtPrice p
          (groupByPrice (s.auctionOrders.filter (fun o => o.side = OrderSide.BUY)))
          (groupByPrice (s.auctionOrders.filter (fun o => o.side = OrderSide.SELL)))
        with ⟨trades, s1, updB, updS⟩
      rw [hex] at ht
      dsimp only at ht
      have := executeAuctionAtPrice_prices s p
        (groupByPrice (s.auctionOrders.filter (fun o => o.side = OrderSide.BUY)))
        (groupByPrice (s.auctionOrders.filter (fun o => o.side = OrderSide.SELL))) t
      rw [hex] at this
      exact this ht

/-- C7 witness: the equilibrium properties instantiated on scenario S3 (a
unique maximiser) and on the tie-break scenario, where candidates 100 and 102
both carry volume 100 and the scan, given reference 103, picks 102 — the
candidate closer to the reference. -/
theorem C7_call_auction_maximises_tradeable_volume_witness :
    ((101 : ℚ) ∈ auctionCandidatePrices s3Buys s3Sells ∧
     tradeableAt s3Buys s3Sells 101 = 250 ∧
     tradeableAt s3Buys s3Sells 100 ≤ 250 ∧ tradeableAt s3Buys s3Sells 102 ≤ 250) ∧
    (tradeableAt tieBuys tieSells 100 = 100 ∧
     tradeableAt tieBuys tieSells 102 = 100 ∧
     findEquilibriumPrice (some 103) tieBuys tieSells = (some 102, 100) ∧
     |(102 : ℚ) - 103| ≤ |(100 : ℚ) - 103|) ∧
    ({ tradeId := "T-0", buyOrderId := "B1", sellOrderId := "S1",
       price := 101, quantity := 100, timestamp := 0 } : Trade).price = 101 := by
  have h1 := C7_call_auction_maximises_tradeable_volume.1 s3Pre.referencePrice s3Buys s3Sells 101 250 (by decide)
  have h3 := C7_call_auction_maximises_tradeable_volume.1 (some 103) tieBuys tieSells 102 100 (by decide)
  have h2 := C7_call_auction_maximises_tradeable_volume.2.1 s3Pre 101 250 (by decide)
    { tradeId := "T-0", buyOrderId := "B1", sellOrderId := "S1",
      price := 101, quantity := 100, timestamp := 0 } (by decide)
  exact ⟨⟨h1.1, h1.2.1, h1.2.2.1 100 (by decide), h1.2.2.1 102 (by decide)⟩,
    ⟨by decide, by decide, by decide,
     h3.2.2.2 103 rfl (by norm_num) 100 (by decide) (by decide)⟩,
    h2⟩

theorem checkCircuitBreaker_tradeHistory (s : NSEEngine) (p : ℚ) :
    ((s.checkCircuitBreaker p).1).tradeHistory = s.tradeHistory := by
  unfold NSEEngine.checkCircuitBreaker
  rcases s.referencePrice with _ | r
  · rfl
  · dsimp only
    split_ifs <;> rfl

theorem nseMatchAux_history (cp : NSEEngine → NSEEngine)
    (hcp : ∀ st, ∃ pre, (cp st).tradeHistory = st.tradeHistory ++ pre)
    (s : NSEEngine) (o : Order) :
    ∃ pre, ((nseMatchAux cp s o).2.1).tradeHistory =
      s.tradeHistory ++ pre ++ (nseMatchAux cp s o).1 := by
  by_cases hs : o.side = OrderSide.BUY
  · rcases hloop : nseMatchBuyLoop s.tradeHistory.length (matchFuel o) o s.asks [] with ⟨o', asks', tr⟩
    simp only [nseMatchAux, hs, if_true, hloop]
    rcases hlast : tr.getLast? with _ | t <;> simp only [hlast]
    · exact ⟨[], by simp⟩
    · obtain ⟨pre, hpre⟩ := hcp (({ s with asks := asks', lastTradedPrice := some t.price } : NSEEngine).checkCircuitBreaker t.price).1
      refine ⟨pre, ?_⟩
      show (cp _).tradeHistory ++ tr = _
      rw [hpre, checkCircuitBreaker_tradeHistory]
  · rcases hloop : nseMatchSellLoop s.tradeHistory.length (matchFuel o) o s.bids [] with ⟨o', bids', tr⟩
    simp only [nseMatchAux, hs, if_false, hloop]
    rcases hlast : tr.getLast? with _ | t <;> simp only [hlast]
    · exact ⟨[], by simp⟩
    · obtain ⟨pre, hpre⟩ := hcp (({ s with bids := bids', lastTradedPrice := some t.price } : NSEEngine).checkCircuitBreaker t.price).1
      refine ⟨pre, ?_⟩
      show (cp _).tradeHistory ++ tr = _
      rw [hpre, checkCircuitBreaker_tradeHistory]

theorem checkPending_history : ∀ (fuel : Nat) (s : NSEEngine),
    ∃ pre, (NSEEngine.checkPendingStopOrdersF fuel s).tradeHistory = s.tradeHistory ++ pre := by
  intro fuel
  induction fuel with
  | zero => intro s; exact ⟨[], by simp [NSEEngine.checkPendingStopOrdersF]⟩
  | succ sf ih =>
      intro s
      simp only [NSEEngine.checkPendingStopOrdersF]
      have hfold : ∀ (l : List Order) (st : NSEEngine),
          ∃ pre, (l.foldl (fun st o =>
            (nseMatchAux (NSEEngine.checkPendingStopOrdersF sf) st (activateStopOrder o)).2.1) st).tradeHistory
            = st.tradeHistory ++ pre := by
        intro l
        induction l with
        | nil => intro st; exact ⟨[], by simp⟩
        | cons hd tl ihl =>
            intro st
            obtain ⟨pre1, h1⟩ := nseMatchAux_history _ ih st (activateStopOrder hd)
            obtain ⟨pre2, h2⟩ := ihl ((nseMatchAux (NSEEngine.checkPendingStopOrdersF sf) st (activateStopOrder hd)).2.1)
            refine ⟨(pre1 ++ (nseMatchAux (NSEEngine.checkPendingStopOrdersF sf) st (activateStopOrder hd)).1) ++ pre2, ?_⟩
            simp only [List.foldl]
            rw [h2, h1]
            simp
      exact hfold _ _

theorem matchOrder_history (s : NSEEngine) (o : Order) :
    ∃ pre, ((s.matchOrder o).2.1).tradeHistory =
      s.tradeHistory ++ pre ++ (s.matchOrder o).1 :=
  nseMatchAux_history _ (checkPending_history s.stopFuel) s o

theorem handleContinuous_history (s : NSEEngine) (o : Order) :
    ∃ pre, ((s.handleContinuousOrder o).2).tradeHistory =
      s.tradeHistory ++ pre ++ (s.handleContinuousOrder o).1 := by
  unfold NSEEngine.handleContinuousOrder
  split_ifs with h1 h2
  · unfold NSEEngine.handleStopLossOrder
    split_ifs with h3
    · rcases hm : s.matchOrder (activateStopOrder o) with ⟨tr, s', o'⟩
      obtain ⟨pre, hpre⟩ := matchOrder_history s (activateStopOrder o)
      rw [hm] at hpre
      exact ⟨pre, by simpa [hm] using hpre⟩
    · exact ⟨[], by simp⟩
  · unfold NSEEngine.handleFokOrder
    dsimp only
    rcases hm : s.matchOrder o with ⟨tr, s', o'⟩
    obtain ⟨pre, hpre⟩ := matchOrder_history s o
    rw [hm] at hpre
    split_ifs
    all_goals first
      | (exact ⟨pre, by simpa using hpre⟩)
      | (exact ⟨[], by simp⟩)
  · rcases hm : s.matchOrder o with ⟨tr, s', o'⟩
    obtain ⟨pre, hpre⟩ := matchOrder_history s o
    rw [hm] at hpre
    simp only [hm]
    split_ifs
    all_goals first
      | (exact ⟨pre, by simpa [NSEEngine.addToOrderBook] using hpre⟩)
      | (refine ⟨pre, ?_⟩
         unfold NSEEngine.addToOrderBook
         split_ifs
         all_goals simpa using hpre)

@[simp] theorem noteOrder_tradeHistory (s : NSEEngine) (o : Order) :
    (s.noteOrder o).tradeHistory = s.tradeHistory := rfl

@[simp] theorem handleAuctionOrder_fst (s : NSEEngine) (o : Order) :
    (s.handleAuctionOrder o).1 = [] := rfl

@[simp] theorem handleAuctionOrder_tradeHistory (s : NSEEngine) (o : Order) :
    ((s.handleAuctionOrder o).2).tradeHistory = s.tradeHistory := rfl

theorem processOrder_history (s : NSEEngine) (now : ℚ) (o : Order) :
    ∃ pre, ((s.processOrder now o).2).tradeHistory =
      s.tradeHistory ++ pre ++ (s.processOrder now o).1 := by
  unfold NSEEngine.processOrder
  by_cases h1 : (s.noteOrder o).isHalted = true
  · simp only [h1, if_true]
    exact ⟨[], by simp⟩
  · simp only [h1, if_false, Bool.false_eq_true]
    by_cases h2 : o.isExpired now = true
    · simp only [h2, if_true]
      exact ⟨[], by simp⟩
    · simp only [h2, if_false, Bool.false_eq_true]
      split_ifs
      all_goals first
        | (refine ⟨([] : List Trade), ?_⟩
           simp
           done)
        | (obtain ⟨pre, hpre⟩ := handleContinuous_history (s.noteOrder o) _
           exact ⟨pre, by simpa using hpre⟩)

/-- C10: the trade list returned by `process_order` is exactly the suffix of
the trade-history delta of the call — the history grows by `pre ++ returned`
where `pre` holds the trades generated by matching pending-stop activations,
which never appear in the returned list.  In the concrete scenario a resting
SELL triggers the pending stop SL1: the returned list holds only the direct
trade (b0, s1, 95, 10), while the history additionally holds the stop's trade
(b1, SL1, 94, 20), which also moved `last_traded_price` to 94. -/
theorem C10_stop_activation_trades_history_only :
    (∀ (s : NSEEngine) (now : ℚ) (o : Order),
      ∃ pre, ((s.processOrder now o).2).tradeHistory =
        s.tradeHistory ++ pre ++ (s.processOrder now o).1) ∧
    (((stpPre.processOrder 0 stpS1).1.map Trade.toFill =
        [{ buyOrderId := "b0", sellOrderId := "s1", price := 95, quantity := 10 }]) ∧
     ((stpPre.processOrder 0 stpS1).2.tradeHistory.map Trade.toFill =
        [{ buyOrderId := "b1", sellOrderId := "SL1", price := 94, quantity := 20 },
         { buyOrderId := "b0", sellOrderId := "s1", price := 95, quantity := 10 }]) ∧
     stpPre.tradeHistory = [] ∧
     stpPre.pendingStopOrders.length = 1 ∧
     ((stpPre.processOrder 0 stpS1).2.lastTradedPrice = some 94) ∧
     ((stpPre.processOrder 0 stpS1).2.pendingStopOrders = []) ∧
     (({ buyOrderId := "b1", sellOrderId := "SL1", price := 94, quantity := 20 } : Fill) ∉
        (stpPre.processOrder 0 stpS1).1.map Trade.toFill)) :=
  ⟨processOrder_history, by decide⟩

/-! ### C8: cancellation semantics.  Helper lemmas about `remove_order` on a
well-formed side, then the synchronous-cancellation characterisation for all
three engine variants. -/

/-- A successful dict lookup exhibits a member pair. -/
theorem dictGet_mem {α β : Type} [DecidableEq α] {k : α} {v : β} :
    ∀ {l : List (α × β)}, dictGet k l = some v → (k, v) ∈ l := by
  intro l
  induction l with
  | nil => intro h; simp [dictGet] at h
  | cons kv rest ih =>
      intro h
      rw [dictGet] at h
      split_ifs at h with hk
      · rcases kv with ⟨k0, v0⟩
        simp at hk h
        subst hk; subst h
        simp
      · exact List.mem_cons_of_mem _ (ih h)

/-- Deleting a key from a dict with distinct keys makes its lookup fail. -/
theorem dictGet_dictDel_self {α β : Type} [DecidableEq α] {k : α} :
    ∀ {l : List (α × β)}, (l.map (fun kv => kv.1)).Nodup →
      dictGet k (dictDel k l) = none := by
  intro l
  induction l with
  | nil => intro _; simp [dictDel, dictGet]
  | cons kv rest ih =>
      intro hnd
      simp at hnd
      rw [dictDel]
      split_ifs with hk
      · subst hk
        rcases hg : dictGet kv.1 rest with _ | v
        · rfl
        · exact absurd (dictGet_mem hg) (hnd.1 v)
      · rw [dictGet, if_neg hk]
        exact ih hnd.2

/-- `dictHas` after deleting the same key is false. -/
theorem dictHas_dictDel_self {α β : Type} [DecidableEq α] {k : α} {l : List (α × β)}
    (hnd : (l.map (fun kv => kv.1)).Nodup) : dictHas k (dictDel k l) = false := by
  rw [dictHas, dictGet_dictDel_self hnd]
  rfl

/-- On a well-formed side, `remove_order` of a resting id succeeds and erases
the id from both cancellation maps. -/
theorem removeOrder_succeeds (bk : OrderBookSide) (oid : String)
    (hwf : WFSide bk) (hmem : oid ∈ bk.orderMap) :
    (bk.removeOrder oid).2 = true ∧
    ((bk.removeOrder oid).1).orderMap = bk.orderMap.erase oid ∧
    ((bk.removeOrder oid).1).orderToPriceLevel = dictDel oid bk.orderToPriceLevel := by
  obtain ⟨hnd, hndp, hcov, hback, hlvl⟩ := hwf
  have hsome := hcov oid hmem
  rcases hp : dictGet oid bk.orderToPriceLevel with _ | p
  · rw [hp] at hsome; simp at hsome
  · have hmem2 := dictGet_mem hp
    have hl := hlvl (oid, p) hmem2
    unfold levelOrdersAt at hl
    rcases hlv : dictGet p bk.priceLevels with _ | lvl
    · rw [hlv] at hl; simp at hl
    · rw [hlv] at hl
      obtain ⟨o0, ho0mem, ho0id⟩ := hl
      have hfind : (lvl.orders.find? (fun o => o.orderId == oid)).isSome := by
        rw [List.find?_isSome]
        exact ⟨o0, ho0mem, by simp [ho0id]⟩
      rcases hf : lvl.orders.find? (fun o => o.orderId == oid) with _ | ofound
      · rw [hf] at hfind; simp at hfind
      · have hofmem : ofound ∈ lvl.orders := List.mem_of_find?_eq_some hf
        unfold OrderBookSide.removeOrder
        simp only [hp, hlv, hf]
        simp only [PriceLevel.removeOrder, if_pos hofmem]
        simp only [Bool.not_true, not_true_eq_false, if_neg, ite_false, if_false]
        split_ifs with hemp
        · exact ⟨rfl, rfl, rfl⟩
        · exact ⟨rfl, rfl, rfl⟩

/-- `remove_order` of an id with no back-map entry fails and leaves the side
untouched. -/
theorem removeOrder_none (bk : OrderBookSide) (oid : String)
    (h : dictGet oid bk.orderToPriceLevel = none) :
    bk.removeOrder oid = (bk, false) := by
  unfold OrderBookSide.removeOrder
  simp only [h]

/-- Synchronous `NSEMatchingEngine.cancel_order`: true iff the id rests in a
book or is a pending stop, and a second cancel of the same id is false. -/
theorem C8_nse_part (s : NSEEngine) (oid : String)
    (hasync : s.asyncCancel = false)
    (hwb : WFSide s.bids) (hwa : WFSide s.asks)
    (hpnd : (s.pendingStopOrders.map (fun kv => kv.1)).Nodup)
    (hd1 : ¬ (oid ∈ s.bids.orderMap ∧ oid ∈ s.asks.orderMap))
    (hd2 : ¬ (oid ∈ s.bids.orderMap ∧ dictHas oid s.pendingStopOrders = true))
    (hd3 : ¬ (oid ∈ s.asks.orderMap ∧ dictHas oid s.pendingStopOrders = true)) :
    ((s.cancelOrder oid).2 = true ↔
      (oid ∈ s.bids.orderMap ∨ oid ∈ s.asks.orderMap ∨ dictHas oid s.pendingStopOrders = true)) ∧
    ((s.cancelOrder oid).2 = true → (((s.cancelOrder oid).1).cancelOrder oid).2 = false) := by
  unfold NSEEngine.cancelOrder
  simp only [hasync, if_false, Bool.false_eq_true, ite_false]
  by_cases hb : oid ∈ s.bids.orderMap
  · obtain ⟨hr, hmap, hmap2⟩ := removeOrder_succeeds s.bids oid hwb hb
    rcases hrm : s.bids.removeOrder oid with ⟨bids', flag⟩
    rw [hrm] at hr hmap hmap2
    simp only [if_pos hb, hrm]
    subst hr
    refine ⟨by simp [hb], fun _ => ?_⟩
    have hnb : oid ∉ bids'.orderMap := by
      rw [hmap]; exact (List.Nodup.mem_erase_iff hwb.1).not.mpr (by simp)
    have hna : oid ∉ s.asks.orderMap := fun ha => hd1 ⟨hb, ha⟩
    have hnp : ¬ dictHas oid s.pendingStopOrders = true := fun hp => hd2 ⟨hb, hp⟩
    simp only [hasync, if_neg hnb, if_neg hna, Bool.false_eq_true, ite_false]
    rw [if_neg hnp]
  · by_cases ha : oid ∈ s.asks.orderMap
    · obtain ⟨hr, hmap, hmap2⟩ := removeOrder_succeeds s.asks oid hwa ha
      rcases hrm : s.asks.removeOrder oid with ⟨asks', flag⟩
      rw [hrm] at hr hmap hmap2
      simp only [if_neg hb, if_pos ha, hrm]
      subst hr
      refine ⟨by simp [ha], fun _ => ?_⟩
      have hnb : oid ∉ asks'.orderMap := by
        rw [hmap]; exact (List.Nodup.mem_erase_iff hwa.1).not.mpr (by simp)
      have hnp : ¬ dictHas oid s.pendingStopOrders = true := fun hp => hd3 ⟨ha, hp⟩
      simp only [hasync, if_neg hb, if_neg hnb, Bool.false_eq_true, ite_false]
      rw [if_neg hnp]
    · by_cases hp : dictHas oid s.pendingStopOrders = true
      · simp only [if_neg hb, if_neg ha, if_pos hp]
        refine ⟨by simp [hp], fun _ => ?_⟩
        have hnp : ¬ dictHas oid (dictDel oid s.pendingStopOrders) = true := by
          rw [dictHas_dictDel_self hpnd]; simp
        simp only [hasync, if_neg hb, if_neg ha, Bool.false_eq_true, ite_false]
        rw [if_neg hnp]
      · simp only [if_neg hb, if_neg ha, if_neg hp]
        constructor
        · constructor
          · intro h; simp at h
          · intro h; rcases h with h | h | h
            · exact absurd h hb
            · exact absurd h ha
            · exact absurd h hp
        · intro h; simp at h

/-- A successful `remove_order` on a well-formed side implies the id was
resting. -/
theorem removeOrder_true_mem (bk : OrderBookSide) (oid : String) (hwf : WFSide bk)
    (h : (bk.removeOrder oid).2 = true) : oid ∈ bk.orderMap := by
  rcases hp : dictGet oid bk.orderToPriceLevel with _ | p
  · rw [removeOrder_none bk oid hp] at h; simp at h
  · exact hwf.2.2.2.1 (oid, p) (dictGet_mem hp)

/-- `ShardedOrderBookSide.remove_order`: success iff the id rests in some
shard, and a repeated removal fails. -/
theorem shardedRemoveOrder_spec (bk : ShardedOrderBookSide) (oid : String)
    (hwf : ShardedWF bk) :
    ((bk.removeOrder oid).2 = true ↔ bk.hasOrder oid) ∧
    ((bk.removeOrder oid).2 = true → (((bk.removeOrder oid).1).removeOrder oid).2 = false) := by
  obtain ⟨hlen, hpos, hwfs, hroute⟩ := hwf
  have hidx : shardIndex oid bk.numShards < bk.shards.length := by
    rw [hlen]; exact Nat.mod_lt _ hpos
  have hget : bk.shards.get? (shardIndex oid bk.numShards)
      = some (bk.shards.get ⟨shardIndex oid bk.numShards, hidx⟩) := List.get?_eq_get hidx
  have hasIff : bk.hasOrder oid ↔
      oid ∈ (bk.shards.get ⟨shardIndex oid bk.numShards, hidx⟩).orderMap := by
    constructor
    · rintro ⟨sh, hsh, hmemsh⟩
      obtain ⟨j, hj⟩ := List.mem_iff_get.mp hsh
      have hji := hroute j.1 j.2 oid (hj ▸ hmemsh)
      have hfin : (⟨shardIndex oid bk.numShards, hidx⟩ : Fin bk.shards.length) = j :=
        Fin.ext hji
      rw [hfin, hj]
      exact hmemsh
    · intro hm
      exact ⟨_, List.get_mem _ _ _, hm⟩
  by_cases hm : oid ∈ (bk.shards.get ⟨shardIndex oid bk.numShards, hidx⟩).orderMap
  · obtain ⟨hr, hmap, hmap2⟩ :=
      removeOrder_succeeds _ oid (hwfs _ hidx) hm
    rcases hrm : (bk.shards.get ⟨shardIndex oid bk.numShards, hidx⟩).removeOrder oid
      with ⟨shard', flag⟩
    rw [hrm] at hr hmap hmap2
    simp only at hr
    subst hr
    unfold ShardedOrderBookSide.removeOrder
    simp only [hget, hrm]
    rw [if_pos trivial]
    refine ⟨⟨fun _ => hasIff.mpr hm, fun _ => rfl⟩, fun _ => ?_⟩
    have hset : shardIndex oid bk.numShards < (bk.shards.set (shardIndex oid bk.numShards) shard').length := by
      simpa using hidx
    have hget2 : (bk.shards.set (shardIndex oid bk.numShards) shard').get?
        (shardIndex oid bk.numShards) = some shard' :=
      List.get?_set_eq_of_lt shard' hidx
    have hnone : dictGet oid shard'.orderToPriceLevel = none := by
      rw [hmap2]
      exact dictGet_dictDel_self (hwfs _ hidx).2.1
    simp only [hget2, removeOrder_none shard' oid hnone]
    simp
  · have hflag : ((bk.shards.get ⟨shardIndex oid bk.numShards, hidx⟩).removeOrder oid).2 = false := by
      rcases hfl : ((bk.shards.get ⟨shardIndex oid bk.numShards, hidx⟩).removeOrder oid).2
      · rfl
      · exact absurd (removeOrder_true_mem _ oid (hwfs _ hidx) hfl) hm
    unfold ShardedOrderBookSide.removeOrder
    rcases hrm : (bk.shards.get ⟨shardIndex oid bk.numShards, hidx⟩).removeOrder oid
      with ⟨shard', flag⟩
    rw [hrm] at hflag
    simp only at hflag
    subst hflag
    simp only [hget, hrm]
    rw [if_neg (by simp)]
    exact ⟨⟨fun h => absurd h (by simp), fun h => absurd (hasIff.mp h) hm⟩, fun h => absurd h (by simp)⟩

/-- `BaseMatchingEngine.cancel_order`: true iff the id rests in a book, and a
second cancel of the same id is false. -/
theorem C8_base_part (e : BaseEngine) (oid : String)
    (hwb : WFSide e.bids) (hwa : WFSide e.asks)
    (hd : ¬ (oid ∈ e.bids.orderMap ∧ oid ∈ e.asks.orderMap)) :
    ((e.cancelOrder oid).2 = true ↔ (oid ∈ e.bids.orderMap ∨ oid ∈ e.asks.orderMap)) ∧
    ((e.cancelOrder oid).2 = true → (((e.cancelOrder oid).1).cancelOrder oid).2 = false) := by
  unfold BaseEngine.cancelOrder
  by_cases hb : oid ∈ e.bids.orderMap
  · obtain ⟨hr, hmap, hmap2⟩ := removeOrder_succeeds e.bids oid hwb hb
    rcases hrm : e.bids.removeOrder oid with ⟨bids', flag⟩
    rw [hrm] at hr hmap hmap2
    simp only [if_pos hb, hrm]
    subst hr
    refine ⟨by simp [hb], fun _ => ?_⟩
    have hnb : oid ∉ bids'.orderMap := by
      rw [hmap]; exact (List.Nodup.mem_erase_iff hwb.1).not.mpr (by simp)
    have hna : oid ∉ e.asks.orderMap := fun ha => hd ⟨hb, ha⟩
    simp only [if_neg hnb, if_neg hna]
  · by_cases ha : oid ∈ e.asks.orderMap
    · obtain ⟨hr, hmap, hmap2⟩ := removeOrder_succeeds e.asks oid hwa ha
      rcases hrm : e.asks.removeOrder oid with ⟨asks', flag⟩
      rw [hrm] at hr hmap hmap2
      simp only [if_neg hb, if_pos ha, hrm]
      subst hr
      refine ⟨by simp [ha], fun _ => ?_⟩
      have hna : oid ∉ asks'.orderMap := by
        rw [hmap]; exact (List.Nodup.mem_erase_iff hwa.1).not.mpr (by simp)
      simp only [if_neg hb, if_neg hna]
    · simp only [if_neg hb, if_neg ha]
      exact ⟨by simp [hb, ha], by simp⟩

/-- `ShardedMatchingEngine.cancel_order`: true iff the id rests in a sharded
book, and a second cancel of the same id is false. -/
theorem shardedCancel_spec (e : ShardedEngine) (oid : String)
    (hwb : ShardedWF e.bids) (hwa : ShardedWF e.asks)
    (hd : ¬ (e.bids.hasOrder oid ∧ e.asks.hasOrder oid)) :
    ((e.cancelOrder oid).2 = true ↔ (e.bids.hasOrder oid ∨ e.asks.hasOrder oid)) ∧
    ((e.cancelOrder oid).2 = true → (((e.cancelOrder oid).1).cancelOrder oid).2 = false) := by
  obtain ⟨hbIff, hbSecond⟩ := shardedRemoveOrder_spec e.bids oid hwb
  obtain ⟨haIff, haSecond⟩ := shardedRemoveOrder_spec e.asks oid hwa
  rcases hrb : e.bids.removeOrder oid with ⟨bids', fb⟩
  rcases hra : e.asks.removeOrder oid with ⟨asks', fa⟩
  rw [hrb] at hbIff hbSecond
  rw [hra] at haIff haSecond
  simp only at hbIff hbSecond haIff haSecond
  have hc : e.cancelOrder oid =
      if fb = true then ({ e with bids := bids' }, true)
      else if fa = true then ({ e with asks := asks' }, true)
      else (e, false) := by
    unfold ShardedEngine.cancelOrder
    rw [hrb, hra]
  rw [hc]
  cases fb
  · cases fa
    · simp only [Bool.false_eq_true, if_false]
      constructor
      · constructor
        · intro h; simp at h
        · rintro (h | h)
          · exact absurd (hbIff.mpr h) (by simp)
          · exact absurd (haIff.mpr h) (by simp)
      · intro h; simp at h
    · simp only [Bool.false_eq_true, if_false]
      rw [if_pos trivial]
      refine ⟨⟨fun _ => Or.inr (haIff.mp rfl), fun _ => rfl⟩, fun _ => ?_⟩
      have h2 := haSecond rfl
      rcases hx : asks'.removeOrder oid with ⟨a2, r2⟩
      rw [hx] at h2
      simp only at h2
      subst h2
      unfold ShardedEngine.cancelOrder
      simp only [hrb, hx, Bool.false_eq_true, if_false]
  · rw [if_pos rfl]
    refine ⟨⟨fun _ => Or.inl (hbIff.mp rfl), fun _ => rfl⟩, fun _ => ?_⟩
    have hfa : fa = false := by
      rcases hq : fa
      · rfl
      · rw [hq] at haIff
        exact absurd ⟨hbIff.mp rfl, haIff.mp rfl⟩ hd
    subst hfa
    have h2 := hbSecond rfl
    rcases hx : bids'.removeOrder oid with ⟨b2, r2⟩
    rw [hx] at h2
    simp only at h2
    subst h2
    unfold ShardedEngine.cancelOrder
    simp only [hx, hra, Bool.false_eq_true, if_false]

/-- C8 (amended to the synchronous cancellation paths; the asynchronous NSE
path refutes the claim as stated, see the counterexample): for each engine
variant, on well-formed books whose sides (and, for the NSE engine, pending
stop keys) do not share the cancelled id, `cancel_order(id)` returns true if
and only if a resting order was removed from a book or a pending stop order
was dropped; consequently a second cancel of the same id returns false, and a
cancel of an id no longer resting (e.g. a fully filled order) returns
false. -/
theorem C8_sync_cancel_true_iff_removed
    (e : BaseEngine) (oidB : String)
    (hwb : WFSide e.bids) (hwa : WFSide e.asks)
    (hde : ¬ (oidB ∈ e.bids.orderMap ∧ oidB ∈ e.asks.orderMap))
    (s : NSEEngine) (oidN : String)
    (hasync : s.asyncCancel = false)
    (hwsb : WFSide s.bids) (hwsa : WFSide s.asks)
    (hpnd : (s.pendingStopOrders.map (fun kv => kv.1)).Nodup)
    (hd1 : ¬ (oidN ∈ s.bids.orderMap ∧ oidN ∈ s.asks.orderMap))
    (hd2 : ¬ (oidN ∈ s.bids.orderMap ∧ dictHas oidN s.pendingStopOrders = true))
    (hd3 : ¬ (oidN ∈ s.asks.orderMap ∧ dictHas oidN s.pendingStopOrders = true))
    (g : ShardedEngine) (oidS : String)
    (hgb : ShardedWF g.bids) (hga : ShardedWF g.asks)
    (hdg : ¬ (g.bids.hasOrder oidS ∧ g.asks.hasOrder oidS)) :
    (((e.cancelOrder oidB).2 = true ↔
        (oidB ∈ e.bids.orderMap ∨ oidB ∈ e.asks.orderMap)) ∧
      ((e.cancelOrder oidB).2 = true →
        (((e.cancelOrder oidB).1).cancelOrder oidB).2 = false)) ∧
    (((s.cancelOrder oidN).2 = true ↔
        (oidN ∈ s.bids.orderMap ∨ oidN ∈ s.asks.orderMap ∨
          dictHas oidN s.pendingStopOrders = true)) ∧
      ((s.cancelOrder oidN).2 = true →
        (((s.cancelOrder oidN).1).cancelOrder oidN).2 = false)) ∧
    (((g.cancelOrder oidS).2 = true ↔
        (g.bids.hasOrder oidS ∨ g.asks.hasOrder oidS)) ∧
      ((g.cancelOrder oidS).2 = true →
        (((g.cancelOrder oidS).1).cancelOrder oidS).2 = false)) :=
  ⟨C8_base_part e oidB hwb hwa hde,
   C8_nse_part s oidN hasync hwsb hwsa hpnd hd1 hd2 hd3,
   shardedCancel_spec g oidS hgb hga hdg⟩

/-- Witness for C8: concrete engines holding the resting bid `b1` (base and
sharded variants) and the pending stop `SL1` (NSE variant). -/
theorem C8_sync_cancel_true_iff_removed_witness :
    (((((BaseEngine.init.addOrder s1b1).2).cancelOrder "b1").2 = true ↔
        ("b1" ∈ ((BaseEngine.init.addOrder s1b1).2).bids.orderMap ∨
         "b1" ∈ ((BaseEngine.init.addOrder s1b1).2).asks.orderMap)) ∧
      ((((BaseEngine.init.addOrder s1b1).2).cancelOrder "b1").2 = true →
        (((((BaseEngine.init.addOrder s1b1).2).cancelOrder "b1").1).cancelOrder "b1").2 = false)) ∧
    (((stpPre.cancelOrder "SL1").2 = true ↔
        ("SL1" ∈ stpPre.bids.orderMap ∨ "SL1" ∈ stpPre.asks.orderMap ∨
          dictHas "SL1" stpPre.pendingStopOrders = true)) ∧
      ((stpPre.cancelOrder "SL1").2 = true →
        (((stpPre.cancelOrder "SL1").1).cancelOrder "SL1").2 = false)) ∧
    (((((ShardedEngine.init 4).addOrder s1b1).2.cancelOrder "b1").2 = true ↔
        ((((ShardedEngine.init 4).addOrder s1b1).2).bids.hasOrder "b1" ∨
         (((ShardedEngine.init 4).addOrder s1b1).2).asks.hasOrder "b1")) ∧
      ((((ShardedEngine.init 4).addOrder s1b1).2.cancelOrder "b1").2 = true →
        ((((((ShardedEngine.init 4).addOrder s1b1).2).cancelOrder "b1").1).cancelOrder "b1").2 = false)) :=
  C8_sync_cancel_true_iff_removed
    (BaseEngine.init.addOrder s1b1).2 "b1" (by decide) (by decide) (by decide)
    stpPre "SL1" (by decide) (by decide) (by decide) (by decide) (by decide)
    (by decide) (by decide)
    ((ShardedEngine.init 4).addOrder s1b1).2 "b1" (by decide) (by decide) (by decide)


/-! ### Claim C2: lockstep simulation of the sharded engine by the base
engine, and its consequences. -/

/-! Layer 1: dictionary, heap-peek and timestamp-sort lemmas. -/

theorem dictGet_isSome_iff {α β : Type} [DecidableEq α] (k : α) :
    ∀ (l : List (α × β)), (dictGet k l).isSome ↔ k ∈ l.map (fun kv => kv.1) := by
  intro l
  induction l with
  | nil => simp [dictGet]
  | cons kv rest ih =>
      rw [dictGet]
      by_cases hk : kv.1 = k
      · simp [hk]
      · simp only [if_neg hk, List.map_cons, List.mem_cons, ih]
        constructor
        · intro h; exact Or.inr h
        · rintro (h | h)
          · exact absurd h.symm hk
          · exact h

theorem dictGet_of_mem_nodup {α β : Type} [DecidableEq α] {k : α} {v : β} :
    ∀ {l : List (α × β)}, (l.map (fun kv => kv.1)).Nodup → (k, v) ∈ l →
      dictGet k l = some v := by
  intro l
  induction l with
  | nil => intro _ h; simp at h
  | cons kv rest ih =>
      intro hnd hm
      rw [List.map_cons, List.nodup_cons] at hnd
      rw [dictGet]
      rcases List.mem_cons.mp hm with h | h
      · subst h; simp
      · have hkmem : k ∈ rest.map (fun kv => kv.1) := List.mem_map.mpr ⟨(k, v), h, rfl⟩
        have hne : kv.1 ≠ k := fun he => hnd.1 (he ▸ hkmem)
        rw [if_neg hne]
        exact ih hnd.2 h

theorem dictGet_dictSet_self {α β : Type} [DecidableEq α] (k : α) (v : β) :
    ∀ (l : List (α × β)), dictGet k (dictSet k v l) = some v := by
  intro l
  induction l with
  | nil => simp [dictSet, dictGet]
  | cons kv rest ih =>
      rw [dictSet]
      split_ifs with hk
      · rw [dictGet]; simp
      · rw [dictGet, if_neg hk]; exact ih

theorem dictGet_dictSet_ne {α β : Type} [DecidableEq α] {k k' : α} (v : β)
    (hne : k' ≠ k) :
    ∀ (l : List (α × β)), dictGet k' (dictSet k v l) = dictGet k' l := by
  intro l
  induction l with
  | nil => simp [dictSet, dictGet, Ne.symm hne]
  | cons kv rest ih =>
      rw [dictSet]
      split_ifs with hk
      · rw [dictGet, dictGet, if_neg (show ¬(k, v).1 = k' from fun h => hne h.symm),
            if_neg (show ¬kv.1 = k' from fun h => hne (hk.symm.trans h).symm)]
      · rw [dictGet, dictGet]
        split_ifs with h2
        · rfl
        · exact ih

theorem dictSet_keys {α β : Type} [DecidableEq α] (k : α) (v : β) :
    ∀ (l : List (α × β)), (dictSet k v l).map (fun kv => kv.1) =
      if k ∈ l.map (fun kv => kv.1) then l.map (fun kv => kv.1)
      else l.map (fun kv => kv.1) ++ [k] := by
  intro l
  induction l with
  | nil => simp [dictSet]
  | cons kv rest ih =>
      by_cases hk : kv.1 = k
      · rw [dictSet, if_pos hk]
        simp only [List.map_cons]
        rw [if_pos (by simp [hk])]
        simp [hk]
      · rw [dictSet, if_neg hk]
        simp only [List.map_cons, ih]
        by_cases hm : k ∈ rest.map (fun kv => kv.1)
        · rw [if_pos hm, if_pos (by simp [hm])]
        · rw [if_neg hm, if_neg (by
            simp only [List.mem_cons]
            rintro (h | h)
            · exact hk h.symm
            · exact hm h)]
          simp

theorem dictDel_keys {α β : Type} [DecidableEq α] (k : α) :
    ∀ (l : List (α × β)), (dictDel k l).map (fun kv => kv.1) =
      (l.map (fun kv => kv.1)).erase k := by
  intro l
  induction l with
  | nil => simp [dictDel]
  | cons kv rest ih =>
      rw [dictDel]
      split_ifs with hk
      · simp [List.erase_cons, hk]
      · simp [List.erase_cons, hk, ih]

theorem dictGet_dictDel_ne {α β : Type} [DecidableEq α] {k k' : α} (hne : k' ≠ k) :
    ∀ (l : List (α × β)), dictGet k' (dictDel k l) = dictGet k' l := by
  intro l
  induction l with
  | nil => simp [dictDel]
  | cons kv rest ih =>
      rw [dictDel]
      split_ifs with hk
      · rw [dictGet, if_neg (hk ▸ Ne.symm hne)]
      · rw [dictGet, dictGet]
        split_ifs with h2
        · rfl
        · exact ih

theorem mem_dictSet_iff {α β : Type} [DecidableEq α] {k : α} {v : β} {kv' : α × β} :
    ∀ {l : List (α × β)}, (l.map (fun kv => kv.1)).Nodup →
      (kv' ∈ dictSet k v l ↔ (kv' = (k, v) ∨ (kv' ∈ l ∧ kv'.1 ≠ k))) := by
  intro l
  induction l with
  | nil =>
      intro _
      constructor
      · intro h; simp [dictSet] at h; exact Or.inl h
      · rintro (h | h)
        · simp [dictSet, h]
        · simp at h
  | cons kv rest ih =>
      intro hnd
      simp at hnd
      rw [dictSet]
      split_ifs with hk
      · constructor
        · intro h
          rcases List.mem_cons.mp h with h | h
          · exact Or.inl h
          · refine Or.inr ⟨List.mem_cons_of_mem _ h, ?_⟩
            intro he
            have hekv : (kv.1, kv'.2) = kv' := by rw [hk, ← he]
            exact hnd.1 kv'.2 (hekv ▸ h)
        · rintro (h | ⟨hm, hne⟩)
          · rw [h]; exact List.mem_cons_self _ _
          · rcases List.mem_cons.mp hm with h | h
            · exact absurd (h ▸ hk) hne
            · exact List.mem_cons_of_mem _ h
      · rw [List.mem_cons, List.mem_cons, ih hnd.2]
        constructor
        · rintro (h | h | ⟨hm, hne⟩)
          · refine Or.inr ⟨Or.inl h, ?_⟩
            rw [h]
            exact hk
          · exact Or.inl h
          · exact Or.inr ⟨Or.inr hm, hne⟩
        · rintro (h | ⟨(hm | hm), hne⟩)
          · exact Or.inr (Or.inl h)
          · exact Or.inl hm
          · exact Or.inr (Or.inr ⟨hm, hne⟩)

/-! heap-peek lemmas -/

theorem bestOf_left_or_right (side : OrderSide) (a b : ℚ) :
    bestOf side a b = a ∨ bestOf side a b = b := by
  cases side <;> rw [bestOf]
  · exact max_choice a b
  · exact min_choice a b

theorem foldl_bestOf_mem (side : OrderSide) :
    ∀ (ps : List ℚ) (p : ℚ), ps.foldl (bestOf side) p ∈ p :: ps := by
  intro ps
  induction ps with
  | nil => intro p; simp
  | cons q qs ih =>
      intro p
      rw [List.foldl_cons]
      have hthis := ih (bestOf side p q)
      rcases List.mem_cons.mp hthis with h2 | h2
      · rw [h2]
        rcases bestOf_left_or_right side p q with h | h <;> rw [h]
        · exact List.mem_cons_self _ _
        · exact List.mem_cons_of_mem _ (List.mem_cons_self _ _)
      · exact List.mem_cons_of_mem _ (List.mem_cons_of_mem _ h2)

theorem foldl_max_ge :
    ∀ (ps : List ℚ) (p : ℚ), ∀ x ∈ p :: ps, x ≤ ps.foldl max p := by
  intro ps
  induction ps with
  | nil => intro p x hx; simp at hx; simp [hx]
  | cons q qs ih =>
      intro p x hx
      rw [List.foldl_cons]
      rcases List.mem_cons.mp hx with rfl | h
      · exact le_trans (le_max_left _ q) (ih (max x q) _ (List.mem_cons_self _ _))
      · rcases List.mem_cons.mp h with rfl | h2
        · exact le_trans (le_max_right p _) (ih (max p x) _ (List.mem_cons_self _ _))
        · exact ih (max p q) x (List.mem_cons_of_mem _ h2)

theorem foldl_min_le :
    ∀ (ps : List ℚ) (p : ℚ), ∀ x ∈ p :: ps, ps.foldl min p ≤ x := by
  intro ps
  induction ps with
  | nil => intro p x hx; simp at hx; simp [hx]
  | cons q qs ih =>
      intro p x hx
      rw [List.foldl_cons]
      rcases List.mem_cons.mp hx with rfl | h
      · exact le_trans (ih (min x q) _ (List.mem_cons_self _ _)) (min_le_left _ q)
      · rcases List.mem_cons.mp h with rfl | h2
        · exact le_trans (ih (min p x) _ (List.mem_cons_self _ _)) (min_le_right p _)
        · exact ih (min p q) x (List.mem_cons_of_mem _ h2)

theorem heapPeek_none_iff (side : OrderSide) (l : List ℚ) :
    heapPeek side l = none ↔ l = [] := by
  cases l <;> simp [heapPeek]

theorem heapPeek_mem {side : OrderSide} {l : List ℚ} {m : ℚ}
    (h : heapPeek side l = some m) : m ∈ l := by
  cases l with
  | nil => simp [heapPeek] at h
  | cons p ps =>
      rw [heapPeek] at h
      have hm := foldl_bestOf_mem side ps p
      simp at h
      rw [h] at hm
      exact hm

theorem heapPeek_best {side : OrderSide} {l : List ℚ} {m : ℚ}
    (h : heapPeek side l = some m) : ∀ x ∈ l, bestOf side x m = m := by
  intro x hx
  cases l with
  | nil => simp at hx
  | cons p ps =>
      rw [heapPeek] at h
      simp at h
      cases side <;> rw [bestOf] <;> rw [← h]
      · exact max_eq_right (foldl_max_ge ps p x hx)
      · exact min_eq_right (foldl_min_le ps p x hx)

theorem heapPeek_congr (side : OrderSide) {l₁ l₂ : List ℚ}
    (h : ∀ x : ℚ, x ∈ l₁ ↔ x ∈ l₂) : heapPeek side l₁ = heapPeek side l₂ := by
  rcases h₁ : heapPeek side l₁ with _ | m₁
  · rcases h₂ : heapPeek side l₂ with _ | m₂
    · rfl
    · rw [heapPeek_none_iff] at h₁
      have := (h m₂).mpr (heapPeek_mem h₂)
      rw [h₁] at this
      simp at this
  · rcases h₂ : heapPeek side l₂ with _ | m₂
    · rw [heapPeek_none_iff] at h₂
      have := (h m₁).mp (heapPeek_mem h₁)
      rw [h₂] at this
      simp at this
    · have hb1 := heapPeek_best h₁ m₂ ((h m₂).mpr (heapPeek_mem h₂))
      have hb2 := heapPeek_best h₂ m₁ ((h m₁).mp (heapPeek_mem h₁))
      cases side
      · rw [bestOf] at hb1 hb2
        have h1 : m₂ ≤ m₁ := max_eq_right_iff.mp hb1
        have h2 : m₁ ≤ m₂ := max_eq_right_iff.mp hb2
        rw [le_antisymm h2 h1]
      · rw [bestOf] at hb1 hb2
        have h1 : m₁ ≤ m₂ := min_eq_right_iff.mp hb1
        have h2 : m₂ ≤ m₁ := min_eq_right_iff.mp hb2
        rw [le_antisymm h2 h1]

/-! timestamp-sort lemmas -/

theorem insertByTs_perm (x : Order) :
    ∀ (l : List Order), (insertByTs x l).Perm (x :: l) := by
  intro l
  induction l with
  | nil => simp [insertByTs]
  | cons y ys ih =>
      rw [insertByTs]
      split_ifs with h
      · exact List.Perm.refl _
      · exact ((ih.cons y).trans (List.Perm.swap x y ys))

theorem sortByTs_perm : ∀ (l : List Order), (sortByTs l).Perm l := by
  intro l
  induction l with
  | nil => simp [sortByTs]
  | cons x xs ih =>
      rw [sortByTs]
      exact (insertByTs_perm x (sortByTs xs)).trans (ih.cons x)

theorem insertByTs_sorted (x : Order) :
    ∀ {l : List Order}, l.Pairwise (fun a b => a.timestamp ≤ b.timestamp) →
      (insertByTs x l).Pairwise (fun a b => a.timestamp ≤ b.timestamp) := by
  intro l
  induction l with
  | nil => intro _; simp [insertByTs]
  | cons y ys ih =>
      intro hs
      rw [List.pairwise_cons] at hs
      rw [insertByTs]
      split_ifs with h
      · refine List.Pairwise.cons ?_ (List.Pairwise.cons hs.1 hs.2)
        intro b hb
        rcases List.mem_cons.mp hb with hb | hb
        · exact hb ▸ h
        · exact le_trans h (hs.1 b hb)
      · refine List.Pairwise.cons ?_ (ih hs.2)
        intro b hb
        have := (insertByTs_perm x ys).mem_iff.mp hb
        rcases List.mem_cons.mp this with hb2 | hb2
        · exact hb2 ▸ le_of_not_le h
        · exact hs.1 b hb2

theorem sortByTs_sorted :
    ∀ (l : List Order), (sortByTs l).Pairwise (fun a b => a.timestamp ≤ b.timestamp) := by
  intro l
  induction l with
  | nil => simp [sortByTs]
  | cons x xs ih => exact insertByTs_sorted x ih

theorem sortByTs_head_of_min {l : List Order} {o₀ : Order} (hmem : o₀ ∈ l)
    (hmin : ∀ x ∈ l, o₀.timestamp ≤ x.timestamp)
    (hinj : ∀ a ∈ l, ∀ b ∈ l, a.timestamp = b.timestamp → a = b) :
    ∃ rest, sortByTs l = o₀ :: rest := by
  rcases hs : sortByTs l with _ | ⟨h₀, rest⟩
  · have := (sortByTs_perm l).symm.mem_iff.mp hmem
    rw [hs] at this
    simp at this
  · have hh₀ : h₀ ∈ l := (sortByTs_perm l).mem_iff.mp (hs ▸ List.mem_cons_self h₀ rest)
    have hle : h₀.timestamp ≤ o₀.timestamp := by
      have hsorted := sortByTs_sorted l
      rw [hs, List.pairwise_cons] at hsorted
      have ho₀ : o₀ ∈ h₀ :: rest := hs ▸ (sortByTs_perm l).symm.mem_iff.mp hmem
      rcases List.mem_cons.mp ho₀ with h | h
      · exact h ▸ le_refl _
      · exact hsorted.1 o₀ h
    have : h₀ = o₀ := hinj h₀ hh₀ o₀ hmem (le_antisymm hle (hmin h₀ hh₀))
    exact ⟨rest, this ▸ rfl⟩

/-! Layer 2: the structural soundness predicate of a base side and the
characterisation of its operations. -/

theorem dictGet_split {α β : Type} [DecidableEq α] {k : α} {v : β} :
    ∀ {l : List (α × β)}, dictGet k l = some v →
      ∃ l₁ l₂, l = l₁ ++ (k, v) :: l₂ ∧ k ∉ l₁.map (fun kv => kv.1) := by
  intro l
  induction l with
  | nil => intro h; simp [dictGet] at h
  | cons kv rest ih =>
      intro h
      rw [dictGet] at h
      split_ifs at h with hk
      · rcases kv with ⟨k0, v0⟩
        simp at hk h
        subst hk
        subst h
        exact ⟨[], rest, by simp, by simp⟩
      · obtain ⟨l₁, l₂, heq, hnk⟩ := ih h
        refine ⟨kv :: l₁, l₂, by rw [heq]; simp, ?_⟩
        simp only [List.map_cons, List.mem_cons]
        rintro (hx | hx)
        · exact hk hx.symm
        · exact hnk hx

theorem dictSet_split {α β : Type} [DecidableEq α] {k : α} (v w : β)
    {l₁ : List (α × β)} (l₂ : List (α × β)) (h : k ∉ l₁.map (fun kv => kv.1)) :
    dictSet k w (l₁ ++ (k, v) :: l₂) = l₁ ++ (k, w) :: l₂ := by
  induction l₁ with
  | nil => simp [dictSet]
  | cons kv rest ih =>
      simp only [List.map_cons, List.mem_cons] at h
      rw [List.cons_append, dictSet,
        if_neg (fun hx => h (Or.inl hx.symm)), List.cons_append,
        ih (fun hx => h (Or.inr hx))]

theorem dictDel_split {α β : Type} [DecidableEq α] {k : α} (v : β)
    {l₁ : List (α × β)} (l₂ : List (α × β)) (h : k ∉ l₁.map (fun kv => kv.1)) :
    dictDel k (l₁ ++ (k, v) :: l₂) = l₁ ++ l₂ := by
  induction l₁ with
  | nil => simp [dictDel]
  | cons kv rest ih =>
      simp only [List.map_cons, List.mem_cons] at h
      rw [List.cons_append, dictDel,
        if_neg (fun hx => h (Or.inl hx.symm)), List.cons_append,
        ih (fun hx => h (Or.inr hx))]

theorem allOrders_split (bk : OrderBookSide) {l₁ l₂ : List (ℚ × PriceLevel)}
    {p : ℚ} {lvl : PriceLevel} (h : bk.priceLevels = l₁ ++ (p, lvl) :: l₂) :
    bk.allOrders = ((l₁.map (fun kv => kv.2.orders)).flatten) ++ lvl.orders ++
      ((l₂.map (fun kv => kv.2.orders)).flatten) := by
  rw [OrderBookSide.allOrders, h]
  simp

theorem getBestPriceAux_hit (n : Nat) (bk : OrderBookSide) {best : ℚ} {lvl : PriceLevel}
    (hpk : heapPeek bk.side bk.heap = some best)
    (hg : dictGet best bk.priceLevels = some lvl)
    (hnemp : ¬ lvl.isEmpty) :
    OrderBookSide.getBestPriceAux (n + 1) bk = (some best, bk) := by
  rw [OrderBookSide.getBestPriceAux]
  simp only [hpk, hg]
  rw [if_pos hnemp]

theorem getBestPrice_eq {bk : OrderBookSide} (h : GoodSide bk) :
    bk.getBestPrice = (heapPeek bk.side bk.heap, bk) := by
  obtain ⟨hheap, hnd, hne, _, _, _⟩ := h
  rw [OrderBookSide.getBestPrice]
  rcases hl : bk.heap with _ | ⟨p, ps⟩
  · rw [List.length_nil, OrderBookSide.getBestPriceAux, heapPeek]
  · rcases hpk : heapPeek bk.side bk.heap with _ | best
    · rw [heapPeek_none_iff, hl] at hpk
      simp at hpk
    · have hmem : best ∈ bk.priceLevels.map (fun kv => kv.1) :=
        hheap ▸ heapPeek_mem hpk
      have hsome : (dictGet best bk.priceLevels).isSome :=
        (dictGet_isSome_iff best bk.priceLevels).mpr hmem
      rcases hg : dictGet best bk.priceLevels with _ | lvl
      · rw [hg] at hsome; simp at hsome
      · have hlvlmem : (best, lvl) ∈ bk.priceLevels := dictGet_mem hg
        have hord : lvl.orders ≠ [] := hne (best, lvl) hlvlmem
        have hnemp : ¬ lvl.isEmpty := by
          rw [PriceLevel.isEmpty]
          simpa using hord
        have hpk2 : heapPeek bk.side (p :: ps) = some best := hl ▸ hpk
        rw [List.length_cons, getBestPriceAux_hit ps.length bk hpk hg hnemp, hpk2]

theorem setTopAt_split {bk : OrderBookSide} {best : ℚ} {lvl : PriceLevel}
    (hg : dictGet best bk.priceLevels = some lvl) (o' : Order) :
    ∃ preL sufL,
      bk.priceLevels = preL ++ (best, lvl) :: sufL ∧
      best ∉ preL.map (fun kv => kv.1) ∧
      bk.setTopAt best o' =
        { bk with priceLevels := preL ++ (best, lvl.setTop o') :: sufL } := by
  obtain ⟨preL, sufL, heq, hnk⟩ := dictGet_split hg
  refine ⟨preL, sufL, heq, hnk, ?_⟩
  rw [OrderBookSide.setTopAt, hg, heq]
  dsimp only
  rw [dictSet_split lvl (lvl.setTop o') sufL hnk]

theorem head_price {bk : OrderBookSide} (h : GoodSide bk) {best : ℚ} {lvl : PriceLevel}
    (hg : dictGet best bk.priceLevels = some lvl) {o₀ : Order} (hmem : o₀ ∈ lvl.orders) :
    o₀.price = best :=
  h.2.2.2.1 (best, lvl) (dictGet_mem hg) o₀ hmem

theorem allOrders_erase_head {bk : OrderBookSide} (hids : IdsNodup bk)
    {preL sufL : List (ℚ × PriceLevel)} {best : ℚ} {lvl : PriceLevel}
    (heq : bk.priceLevels = preL ++ (best, lvl) :: sufL)
    {o₀ : Order} {tl : List Order} (hho : lvl.orders = o₀ :: tl) :
    bk.allOrders.erase o₀ =
      ((preL.map (fun kv => kv.2.orders)).flatten) ++ tl ++
        ((sufL.map (fun kv => kv.2.orders)).flatten) := by
  have hall := allOrders_split bk heq
  rw [hho] at hall
  have hids2 := hids
  rw [IdsNodup, hall, List.map_append, List.map_append, List.nodup_append,
    List.nodup_append] at hids2
  have hnopre : o₀ ∉ (preL.map (fun kv => kv.2.orders)).flatten := by
    intro hxp
    exact hids2.1.2.2 (List.mem_map_of_mem _ hxp)
      (by rw [List.map_cons]; exact List.mem_cons_self _ _)
  rw [hall,
    List.erase_append_left _ (List.mem_append_right _ (List.mem_cons_self _ _)),
    List.erase_append_right _ hnopre, List.erase_cons_head]

theorem goodSide_setTop {bk : OrderBookSide} (h : GoodSide bk) (hids : IdsNodup bk)
    {best : ℚ} {lvl : PriceLevel} (hg : dictGet best bk.priceLevels = some lvl)
    {o₀ : Order} {tl : List Order} (hho : lvl.orders = o₀ :: tl) (o' : Order)
    (hid : o'.orderId = o₀.orderId) (hpr : o'.price = o₀.price)
    (hts : o'.timestamp = o₀.timestamp) :
    GoodSide (bk.setTopAt best o') ∧
    (bk.setTopAt best o').allOrders.Perm (o' :: bk.allOrders.erase o₀) ∧
    (bk.setTopAt best o').heap = bk.heap ∧
    (bk.setTopAt best o').side = bk.side ∧
    ((bk.setTopAt best o').allOrders.map (fun o => o.orderId)).Perm
      (bk.allOrders.map (fun o => o.orderId)) ∧
    ((bk.setTopAt best o').allOrders.map (fun o => o.timestamp)).Perm
      (bk.allOrders.map (fun o => o.timestamp)) := by
  obtain ⟨preL, sufL, heq, hnk, hset⟩ := setTopAt_split hg o'
  obtain ⟨hheap, hnd, hne, hpv, hsort, hback⟩ := h
  have hkeys : (preL ++ (best, lvl.setTop o') :: sufL).map (fun kv => kv.1) =
      bk.priceLevels.map (fun kv => kv.1) := by
    rw [heq]; simp
  have hmemsplit : ∀ kv ∈ preL ++ (best, lvl.setTop o') :: sufL,
      kv = (best, lvl.setTop o') ∨ kv ∈ bk.priceLevels := by
    intro kv hkv
    rcases List.mem_append.mp hkv with hkv | hkv
    · exact Or.inr (heq ▸ List.mem_append_left _ hkv)
    · rcases List.mem_cons.mp hkv with hkv | hkv
      · exact Or.inl hkv
      · exact Or.inr (heq ▸ List.mem_append_right _ (List.mem_cons_of_mem _ hkv))
  have hsetorders : (lvl.setTop o').orders = o' :: tl := by
    rw [PriceLevel.setTop, hho]
    simp
  have ho₀mem : o₀ ∈ lvl.orders := hho ▸ List.mem_cons_self _ _
  have hpost : (bk.setTopAt best o').allOrders =
      ((preL.map (fun kv => kv.2.orders)).flatten) ++ (o' :: tl) ++
        ((sufL.map (fun kv => kv.2.orders)).flatten) := by
    rw [hset]
    have hs := allOrders_split
      { bk with priceLevels := preL ++ (best, lvl.setTop o') :: sufL } rfl
    rw [hsetorders] at hs
    exact hs
  have herase := allOrders_erase_head hids heq hho
  have hperm : (bk.setTopAt best o').allOrders.Perm (o' :: bk.allOrders.erase o₀) := by
    rw [hpost, herase]
    have hm := @List.perm_middle _ o' ((preL.map (fun kv => kv.2.orders)).flatten)
      (tl ++ (sufL.map (fun kv => kv.2.orders)).flatten)
    refine List.Perm.trans ?_ (hm.trans ?_)
    · simp
    · simp
  have ho₀all : o₀ ∈ bk.allOrders := by
    rw [allOrders_split bk heq, hho]
    simp
  have hbkperm : bk.allOrders.Perm (o₀ :: bk.allOrders.erase o₀) :=
    List.perm_cons_erase ho₀all
  refine ⟨?_, hperm, by rw [hset], by rw [hset], ?_, ?_⟩
  · rw [hset]
    refine ⟨by rw [hheap, heq]; simp, by have hnd2 := hnd; rw [heq] at hnd2; simpa using hnd2, ?_, ?_, ?_, ?_⟩
    · intro kv hkv
      rcases hmemsplit kv hkv with hkv | hkv
      · rw [hkv]
        simp [hsetorders]
      · exact hne kv hkv
    · intro kv hkv o ho
      rcases hmemsplit kv hkv with hkv | hkv
      · rw [hkv] at ho ⊢
        rw [hsetorders] at ho
        rcases List.mem_cons.mp ho with ho | ho
        · rw [ho, hpr]
          exact hpv (best, lvl) (dictGet_mem hg) o₀ ho₀mem
        · exact hpv (best, lvl) (dictGet_mem hg) o (hho ▸ List.mem_cons_of_mem _ ho)
      · exact hpv kv hkv o ho
    · intro kv hkv
      rcases hmemsplit kv hkv with hkv | hkv
      · rw [hkv]
        have hs := hsort (best, lvl) (dictGet_mem hg)
        rw [TsStrict, hho, List.pairwise_cons] at hs
        rw [TsStrict, hsetorders, List.pairwise_cons]
        exact ⟨fun b hb => hts ▸ hs.1 b hb, hs.2⟩
      · exact hsort kv hkv
    · intro kv hkv o ho
      rcases hmemsplit kv hkv with hkv | hkv
      · rw [hkv] at ho ⊢
        rw [hsetorders] at ho
        rcases List.mem_cons.mp ho with ho | ho
        · rw [ho, hid]
          exact hback (best, lvl) (dictGet_mem hg) o₀ ho₀mem
        · exact hback (best, lvl) (dictGet_mem hg) o (hho ▸ List.mem_cons_of_mem _ ho)
      · exact hback kv hkv o ho
  · refine (hperm.map _).trans ?_
    rw [List.map_cons, hid]
    simpa using (hbkperm.map (fun o => o.orderId)).symm
  · refine (hperm.map _).trans ?_
    rw [List.map_cons, hts]
    simpa using (hbkperm.map (fun o => o.timestamp)).symm

theorem ids_split_ne {bk : OrderBookSide} (hids : IdsNodup bk)
    {preL sufL : List (ℚ × PriceLevel)} {best : ℚ} {lvl : PriceLevel}
    (heq : bk.priceLevels = preL ++ (best, lvl) :: sufL)
    {o₀ : Order} {tl : List Order} (hho : lvl.orders = o₀ :: tl) :
    ∀ o, (o ∈ (preL.map (fun kv => kv.2.orders)).flatten ∨ o ∈ tl ∨
        o ∈ (sufL.map (fun kv => kv.2.orders)).flatten) →
      o.orderId ≠ o₀.orderId := by
  have hall := allOrders_split bk heq
  rw [hho] at hall
  have hids2 := hids
  rw [IdsNodup, hall, List.map_append, List.map_append, List.nodup_append,
    List.nodup_append, List.map_cons, List.nodup_cons] at hids2
  rintro o (ho | ho | ho) he
  · exact hids2.1.2.2 (List.mem_map_of_mem _ ho)
      (he ▸ List.mem_cons_self _ _)
  · exact hids2.1.2.1.1 (he ▸ List.mem_map_of_mem _ ho)
  · exact hids2.2.2 (List.mem_append_right _
      (List.mem_cons_self _ _)) (he ▸ List.mem_map_of_mem _ ho)

theorem removeOrder_head_eq {bk : OrderBookSide} (h : GoodSide bk)
    {best : ℚ} {lvl : PriceLevel} (hg : dictGet best bk.priceLevels = some lvl)
    {o₀ : Order} {tl : List Order} (hho : lvl.orders = o₀ :: tl)
    {preL sufL : List (ℚ × PriceLevel)}
    (heq : bk.priceLevels = preL ++ (best, lvl) :: sufL)
    (hnk : best ∉ preL.map (fun kv => kv.1)) :
    bk.removeOrder o₀.orderId =
      (if tl.isEmpty then
        { bk with
            priceLevels := preL ++ sufL
            heap := (preL ++ sufL).map (fun kv => kv.1)
            orderMap := bk.orderMap.erase o₀.orderId
            orderToPriceLevel := dictDel o₀.orderId bk.orderToPriceLevel }
      else
        { bk with
            priceLevels := preL ++ (best, levelTail lvl o₀ tl) :: sufL
            orderMap := bk.orderMap.erase o₀.orderId
            orderToPriceLevel := dictDel o₀.orderId bk.orderToPriceLevel }, true) := by
  have ho₀mem : o₀ ∈ lvl.orders := hho ▸ List.mem_cons_self _ _
  have hb : dictGet o₀.orderId bk.orderToPriceLevel = some best :=
    h.2.2.2.2.2 (best, lvl) (dictGet_mem hg) o₀ ho₀mem
  have hfind : lvl.orders.find? (fun o => o.orderId == o₀.orderId) = some o₀ := by
    rw [hho, List.find?]
    simp
  have hrm : lvl.removeOrder o₀ = (levelTail lvl o₀ tl, true) := by
    rw [PriceLevel.removeOrder, if_pos ho₀mem, hho, List.erase_cons_head, levelTail]
  rw [OrderBookSide.removeOrder, hb]
  dsimp only
  rw [hg]
  dsimp only
  rw [hfind]
  dsimp only
  rw [hrm]
  dsimp only
  rw [if_neg (by simp)]
  have hset : dictSet best (levelTail lvl o₀ tl) bk.priceLevels =
      preL ++ (best, levelTail lvl o₀ tl) :: sufL := by
    rw [heq]
    exact dictSet_split lvl _ sufL hnk
  have hdel : dictDel best (preL ++ (best, levelTail lvl o₀ tl) :: sufL) =
      preL ++ sufL :=
    dictDel_split _ sufL hnk
  by_cases hemp : tl.isEmpty
  · rw [if_pos (show (levelTail lvl o₀ tl).isEmpty from hemp), if_pos hemp]
    rw [hset, hdel]
  · rw [if_neg (show ¬ (levelTail lvl o₀ tl).isEmpty from hemp), if_neg hemp]
    rw [hset]

theorem goodSide_removeHead {bk : OrderBookSide} (h : GoodSide bk) (hids : IdsNodup bk)
    {best : ℚ} {lvl : PriceLevel} (hg : dictGet best bk.priceLevels = some lvl)
    {o₀ : Order} {tl : List Order} (hho : lvl.orders = o₀ :: tl) :
    GoodSide ((bk.removeOrder o₀.orderId).1) ∧
    ((bk.removeOrder o₀.orderId).1).allOrders.Perm (bk.allOrders.erase o₀) ∧
    ((bk.removeOrder o₀.orderId).1).side = bk.side := by
  obtain ⟨preL, sufL, heq, hnk⟩ := dictGet_split hg
  have hrw := removeOrder_head_eq h hg hho heq hnk
  have hne0 := ids_split_ne hids heq hho
  have herase := allOrders_erase_head hids heq hho
  obtain ⟨hheap, hnd, hne, hpv, hsort, hback⟩ := h
  have hmemPS : ∀ kv : ℚ × PriceLevel, kv ∈ preL ∨ kv ∈ sufL → kv ∈ bk.priceLevels := by
    intro kv hkv
    rw [heq]
    rcases hkv with hkv | hkv
    · exact List.mem_append_left _ hkv
    · exact List.mem_append_right _ (List.mem_cons_of_mem _ hkv)
  have hflat : ∀ kv : ℚ × PriceLevel, ∀ o ∈ kv.2.orders,
      (kv ∈ preL → o ∈ (preL.map (fun kv => kv.2.orders)).flatten) ∧
      (kv ∈ sufL → o ∈ (sufL.map (fun kv => kv.2.orders)).flatten) := by
    intro kv o ho
    exact ⟨fun hkv => List.mem_flatten.mpr ⟨kv.2.orders, List.mem_map_of_mem _ hkv, ho⟩,
           fun hkv => List.mem_flatten.mpr ⟨kv.2.orders, List.mem_map_of_mem _ hkv, ho⟩⟩
  have hbackDel : ∀ kv ∈ bk.priceLevels, ∀ o ∈ kv.2.orders, o.orderId ≠ o₀.orderId →
      dictGet o.orderId (dictDel o₀.orderId bk.orderToPriceLevel) = some kv.1 := by
    intro kv hkv o ho hneid
    rw [dictGet_dictDel_ne hneid]
    exact hback kv hkv o ho
  have hkeysOld : bk.priceLevels.map (fun kv => kv.1) =
      preL.map (fun kv => kv.1) ++ best :: sufL.map (fun kv => kv.1) := by
    rw [heq]; simp
  by_cases hemp : tl.isEmpty
  · have htl : tl = [] := by
      rcases tl with _ | _
      · rfl
      · simp [List.isEmpty] at hemp
    rw [hrw, if_pos hemp]
    refine ⟨⟨rfl, ?_, ?_, ?_, ?_, ?_⟩, ?_, rfl⟩
    · have hsub : List.Sublist ((preL ++ sufL).map (fun kv => kv.1))
          (bk.priceLevels.map (fun kv => kv.1)) := by
        rw [hkeysOld, List.map_append]
        exact List.Sublist.append_left (List.sublist_cons_self _ _) _
      exact hnd.sublist hsub
    · intro kv hkv
      exact hne kv (hmemPS kv (List.mem_append.mp hkv))
    · intro kv hkv o ho
      exact hpv kv (hmemPS kv (List.mem_append.mp hkv)) o ho
    · intro kv hkv
      exact hsort kv (hmemPS kv (List.mem_append.mp hkv))
    · intro kv hkv o ho
      refine hbackDel kv (hmemPS kv (List.mem_append.mp hkv)) o ho ?_
      rcases List.mem_append.mp hkv with hkv | hkv
      · exact hne0 o (Or.inl ((hflat kv o ho).1 hkv))
      · exact hne0 o (Or.inr (Or.inr ((hflat kv o ho).2 hkv)))
    · rw [herase, htl]
      have : OrderBookSide.allOrders
          { bk with
              priceLevels := preL ++ sufL
              heap := (preL ++ sufL).map (fun kv => kv.1)
              orderMap := bk.orderMap.erase o₀.orderId
              orderToPriceLevel := dictDel o₀.orderId bk.orderToPriceLevel } =
          ((preL.map (fun kv => kv.2.orders)).flatten) ++
            ((sufL.map (fun kv => kv.2.orders)).flatten) := by
        rw [OrderBookSide.allOrders]
        simp
      rw [this]
      simp
  · have htl : tl ≠ [] := by
      intro hx
      rw [hx] at hemp
      simp [List.isEmpty] at hemp
    rw [hrw, if_neg hemp]
    have hkeysNew : (preL ++ (best, levelTail lvl o₀ tl) :: sufL).map (fun kv => kv.1) =
        preL.map (fun kv => kv.1) ++ best :: sufL.map (fun kv => kv.1) := by
      simp
    have hmemsplit : ∀ kv : ℚ × PriceLevel, kv ∈ preL ++ (best, levelTail lvl o₀ tl) :: sufL →
        kv = (best, levelTail lvl o₀ tl) ∨ (kv ∈ bk.priceLevels ∧ (kv ∈ preL ∨ kv ∈ sufL)) := by
      intro kv hkv
      rcases List.mem_append.mp hkv with hkv | hkv
      · exact Or.inr ⟨hmemPS kv (Or.inl hkv), Or.inl hkv⟩
      · rcases List.mem_cons.mp hkv with hkv | hkv
        · exact Or.inl hkv
        · exact Or.inr ⟨hmemPS kv (Or.inr hkv), Or.inr hkv⟩
    refine ⟨⟨?_, ?_, ?_, ?_, ?_, ?_⟩, ?_, rfl⟩
    · rw [hkeysNew, hheap, hkeysOld]
    · rw [hkeysNew, ← hkeysOld]
      exact hnd
    · intro kv hkv
      rcases hmemsplit kv hkv with hkv | ⟨hkv, _⟩
      · rw [hkv]
        exact htl
      · exact hne kv hkv
    · intro kv hkv o ho
      rcases hmemsplit kv hkv with hkv | ⟨hkv, _⟩
      · rw [hkv] at ho ⊢
        exact hpv (best, lvl) (dictGet_mem hg) o (hho ▸ List.mem_cons_of_mem _ ho)
      · exact hpv kv hkv o ho
    · intro kv hkv
      rcases hmemsplit kv hkv with hkv | ⟨hkv, _⟩
      · rw [hkv]
        have hs := hsort (best, lvl) (dictGet_mem hg)
        rw [TsStrict, hho, List.pairwise_cons] at hs
        exact hs.2
      · exact hsort kv hkv
    · intro kv hkv o ho
      rcases hmemsplit kv hkv with hkv | ⟨hkv, hps⟩
      · rw [hkv] at ho ⊢
        exact hbackDel (best, lvl) (dictGet_mem hg) o
          (hho ▸ List.mem_cons_of_mem _ ho) (hne0 o (Or.inr (Or.inl ho)))
      · refine hbackDel kv hkv o ho ?_
        rcases hps with hps | hps
        · exact hne0 o (Or.inl ((hflat kv o ho).1 hps))
        · exact hne0 o (Or.inr (Or.inr ((hflat kv o ho).2 hps)))
    · rw [herase]
      have : OrderBookSide.allOrders
          { bk with
              priceLevels := preL ++ (best, levelTail lvl o₀ tl) :: sufL
              orderMap := bk.orderMap.erase o₀.orderId
              orderToPriceLevel := dictDel o₀.orderId bk.orderToPriceLevel } =
          ((preL.map (fun kv => kv.2.orders)).flatten) ++ tl ++
            ((sufL.map (fun kv => kv.2.orders)).flatten) := by
        rw [OrderBookSide.allOrders]
        simp [levelTail]
      rw [this]

theorem dictSet_absent {α β : Type} [DecidableEq α] {k : α} (v : β) :
    ∀ {l : List (α × β)}, dictGet k l = none → dictSet k v l = l ++ [(k, v)] := by
  intro l
  induction l with
  | nil => intro _; rfl
  | cons kv rest ih =>
      intro h
      rw [dictGet] at h
      split_ifs at h with hk
      rw [dictSet, if_neg hk, ih h]
      simp

theorem addOrder_eq_new {bk : OrderBookSide} {o : Order}
    (hnone : dictGet o.price bk.priceLevels = none) :
    bk.addOrder o =
      { bk with
          priceLevels := bk.priceLevels ++ [(o.price, (PriceLevel.empty o.price).addOrder o)]
          heap := bk.heap ++ [o.price]
          orderMap := if o.orderId ∈ bk.orderMap then bk.orderMap
                      else bk.orderMap ++ [o.orderId]
          orderToPriceLevel := dictSet o.orderId o.price bk.orderToPriceLevel } := by
  have hnk : o.price ∉ bk.priceLevels.map (fun kv => kv.1) := by
    intro hx
    have := (dictGet_isSome_iff o.price bk.priceLevels).mpr hx
    rw [hnone] at this
    simp at this
  rw [OrderBookSide.addOrder, hnone]
  dsimp only
  rw [dictSet_absent (PriceLevel.empty o.price) hnone]
  have h2 : dictSet o.price ((PriceLevel.empty o.price).addOrder o)
      (bk.priceLevels ++ [(o.price, PriceLevel.empty o.price)]) =
      bk.priceLevels ++ [(o.price, (PriceLevel.empty o.price).addOrder o)] := by
    have := dictSet_split (PriceLevel.empty o.price)
      ((PriceLevel.empty o.price).addOrder o) ([] : List (ℚ × PriceLevel)) hnk
    simpa using this
  rw [h2]

theorem addOrder_eq_old {bk : OrderBookSide} {o : Order} {lvl : PriceLevel}
    {preL sufL : List (ℚ × PriceLevel)}
    (hsome : dictGet o.price bk.priceLevels = some lvl)
    (heq : bk.priceLevels = preL ++ (o.price, lvl) :: sufL)
    (hnk : o.price ∉ preL.map (fun kv => kv.1)) :
    bk.addOrder o =
      { bk with
          priceLevels := preL ++ (o.price, lvl.addOrder o) :: sufL
          orderMap := if o.orderId ∈ bk.orderMap then bk.orderMap
                      else bk.orderMap ++ [o.orderId]
          orderToPriceLevel := dictSet o.orderId o.price bk.orderToPriceLevel } := by
  rw [OrderBookSide.addOrder, hsome]
  dsimp only
  rw [heq, dictSet_split lvl (lvl.addOrder o) sufL hnk]

theorem goodSide_addOrder {bk : OrderBookSide} (h : GoodSide bk) (hids : IdsNodup bk)
    (o : Order)
    (hfresh : o.orderId ∉ bk.allOrders.map (fun x => x.orderId))
    (hlate : ∀ r ∈ bk.allOrders, r.timestamp < o.timestamp) :
    GoodSide (bk.addOrder o) ∧
    (bk.addOrder o).allOrders.Perm (bk.allOrders ++ [o]) ∧
    (bk.addOrder o).side = bk.side := by
  obtain ⟨hheap, hnd, hne, hpv, hsort, hback⟩ := h
  have hmemAll : ∀ kv ∈ bk.priceLevels, ∀ x ∈ kv.2.orders, x ∈ bk.allOrders := by
    intro kv hkv x hx
    rw [OrderBookSide.allOrders]
    exact List.mem_flatten.mpr ⟨kv.2.orders, List.mem_map_of_mem _ hkv, hx⟩
  have hbackNew : ∀ kv ∈ bk.priceLevels, ∀ x ∈ kv.2.orders,
      dictGet x.orderId (dictSet o.orderId o.price bk.orderToPriceLevel) = some kv.1 := by
    intro kv hkv x hx
    have hne2 : x.orderId ≠ o.orderId := by
      intro he
      exact hfresh (he ▸ List.mem_map_of_mem _ (hmemAll kv hkv x hx))
    rw [dictGet_dictSet_ne _ hne2]
    exact hback kv hkv x hx
  rcases hget : dictGet o.price bk.priceLevels with _ | lvl
  · have heqn := addOrder_eq_new hget
    have hnk : o.price ∉ bk.priceLevels.map (fun kv => kv.1) := by
      intro hx
      have hi := (dictGet_isSome_iff o.price bk.priceLevels).mpr hx
      rw [hget] at hi
      simp at hi
    rw [heqn]
    have hordNew : ((PriceLevel.empty o.price).addOrder o).orders = [o] := rfl
    refine ⟨⟨?_, ?_, ?_, ?_, ?_, ?_⟩, ?_, rfl⟩
    · rw [hheap]
      simp
    · simp only [List.map_append]
      rw [List.nodup_append]
      refine ⟨hnd, by simp, ?_⟩
      intro a ha hb
      simp at hb
      exact hnk (hb ▸ ha)
    · intro kv hkv
      rcases List.mem_append.mp hkv with hkv | hkv
      · exact hne kv hkv
      · simp only [List.mem_singleton] at hkv
        rw [hkv]
        simp [hordNew]
    · intro kv hkv x hx
      rcases List.mem_append.mp hkv with hkv | hkv
      · exact hpv kv hkv x hx
      · simp only [List.mem_singleton] at hkv
        rw [hkv] at hx ⊢
        simp only [hordNew, List.mem_singleton] at hx
        rw [hx]
    · intro kv hkv
      rcases List.mem_append.mp hkv with hkv | hkv
      · exact hsort kv hkv
      · simp only [List.mem_singleton] at hkv
        rw [hkv]
        rw [TsStrict]
        simp [hordNew]
    · intro kv hkv x hx
      rcases List.mem_append.mp hkv with hkv | hkv
      · exact hbackNew kv hkv x hx
      · simp only [List.mem_singleton] at hkv
        rw [hkv] at hx ⊢
        simp only [hordNew, List.mem_singleton] at hx
        rw [hx]
        exact dictGet_dictSet_self o.orderId o.price bk.orderToPriceLevel
    · have hallNew : OrderBookSide.allOrders
          { bk with
              priceLevels := bk.priceLevels ++
                [(o.price, (PriceLevel.empty o.price).addOrder o)]
              heap := bk.heap ++ [o.price]
              orderMap := if o.orderId ∈ bk.orderMap then bk.orderMap
                          else bk.orderMap ++ [o.orderId]
              orderToPriceLevel := dictSet o.orderId o.price bk.orderToPriceLevel } =
          bk.allOrders ++ [o] := by
        rw [OrderBookSide.allOrders, OrderBookSide.allOrders]
        simp [hordNew]
      rw [hallNew]
  · obtain ⟨preL, sufL, heq, hnk⟩ := dictGet_split hget
    have heqo := addOrder_eq_old hget heq hnk
    have hlvlmem : (o.price, lvl) ∈ bk.priceLevels := dictGet_mem hget
    have hordNew : (lvl.addOrder o).orders = lvl.orders ++ [o] := rfl
    rw [heqo]
    have hmemsplit : ∀ kv : ℚ × PriceLevel, kv ∈ preL ++ (o.price, lvl.addOrder o) :: sufL →
        kv = (o.price, lvl.addOrder o) ∨ kv ∈ bk.priceLevels := by
      intro kv hkv
      rcases List.mem_append.mp hkv with hkv | hkv
      · exact Or.inr (heq ▸ List.mem_append_left _ hkv)
      · rcases List.mem_cons.mp hkv with hkv | hkv
        · exact Or.inl hkv
        · exact Or.inr (heq ▸ List.mem_append_right _ (List.mem_cons_of_mem _ hkv))
    have hkeysNew : (preL ++ (o.price, lvl.addOrder o) :: sufL).map (fun kv => kv.1) =
        bk.priceLevels.map (fun kv => kv.1) := by
      rw [heq]
      simp
    refine ⟨⟨?_, ?_, ?_, ?_, ?_, ?_⟩, ?_, rfl⟩
    · rw [hheap, hkeysNew]
    · rw [hkeysNew]
      exact hnd
    · intro kv hkv
      rcases hmemsplit kv hkv with hkv | hkv
      · rw [hkv]
        simp [hordNew]
      · exact hne kv hkv
    · intro kv hkv x hx
      rcases hmemsplit kv hkv with hkv | hkv
      · rw [hkv] at hx ⊢
        rw [hordNew] at hx
        rcases List.mem_append.mp hx with hx | hx
        · exact hpv (o.price, lvl) hlvlmem x hx
        · simp only [List.mem_singleton] at hx
          rw [hx]
      · exact hpv kv hkv x hx
    · intro kv hkv
      rcases hmemsplit kv hkv with hkv | hkv
      · rw [hkv]
        rw [TsStrict, hordNew, List.pairwise_append]
        refine ⟨hsort (o.price, lvl) hlvlmem, by simp [TsStrict], ?_⟩
        intro a ha b hb
        simp only [List.mem_singleton] at hb
        rw [hb]
        exact hlate a (hmemAll (o.price, lvl) hlvlmem a ha)
      · exact hsort kv hkv
    · intro kv hkv x hx
      rcases hmemsplit kv hkv with hkv | hkv
      · rw [hkv] at hx ⊢
        rw [hordNew] at hx
        rcases List.mem_append.mp hx with hx | hx
        · exact hbackNew (o.price, lvl) hlvlmem x hx
        · simp only [List.mem_singleton] at hx
          rw [hx]
          exact dictGet_dictSet_self o.orderId o.price bk.orderToPriceLevel
      · exact hbackNew kv hkv x hx
    · have hallNew : OrderBookSide.allOrders
          { bk with
              priceLevels := preL ++ (o.price, lvl.addOrder o) :: sufL
              orderMap := if o.orderId ∈ bk.orderMap then bk.orderMap
                          else bk.orderMap ++ [o.orderId]
              orderToPriceLevel := dictSet o.orderId o.price bk.orderToPriceLevel } =
          ((preL.map (fun kv => kv.2.orders)).flatten) ++ (lvl.orders ++ [o]) ++
            ((sufL.map (fun kv => kv.2.orders)).flatten) := by
        rw [OrderBookSide.allOrders]
        simp [hordNew]
      have hallOld : bk.allOrders =
          ((preL.map (fun kv => kv.2.orders)).flatten) ++ lvl.orders ++
            ((sufL.map (fun kv => kv.2.orders)).flatten) := allOrders_split bk heq
      rw [hallNew, hallOld]
      have hstep : ((preL.map (fun kv => kv.2.orders)).flatten) ++ (lvl.orders ++ [o]) ++
          ((sufL.map (fun kv => kv.2.orders)).flatten) =
          (((preL.map (fun kv => kv.2.orders)).flatten) ++ lvl.orders) ++
            ([o] ++ ((sufL.map (fun kv => kv.2.orders)).flatten)) := by
        simp
      rw [hstep]
      refine (List.Perm.append_left _ (List.perm_append_comm)).trans ?_
      simp

theorem mem_allOrders_iff {bk : OrderBookSide} :
    ∀ x, x ∈ bk.allOrders ↔ ∃ kv ∈ bk.priceLevels, x ∈ kv.2.orders := by
  intro x
  rw [OrderBookSide.allOrders]
  constructor
  · intro hx
    obtain ⟨l, hl, hxl⟩ := List.mem_flatten.mp hx
    obtain ⟨kv, hkv, hkvl⟩ := List.mem_map.mp hl
    exact ⟨kv, hkv, hkvl ▸ hxl⟩
  · rintro ⟨kv, hkv, hx⟩
    exact List.mem_flatten.mpr ⟨kv.2.orders, List.mem_map_of_mem _ hkv, hx⟩

theorem peek_prices {bk : OrderBookSide} (h : GoodSide bk) :
    heapPeek bk.side bk.heap =
      heapPeek bk.side (bk.allOrders.map (fun o => o.price)) := by
  obtain ⟨hheap, hnd, hne, hpv, hsort, hback⟩ := h
  apply heapPeek_congr
  intro x
  rw [hheap]
  constructor
  · intro hx
    obtain ⟨kv, hkv, hkx⟩ := List.mem_map.mp hx
    rcases hord : kv.2.orders with _ | ⟨o₀, _⟩
    · exact absurd hord (hne kv hkv)
    · have ho₀ : o₀ ∈ kv.2.orders := hord ▸ List.mem_cons_self _ _
      refine List.mem_map.mpr ⟨o₀, (mem_allOrders_iff o₀).mpr ⟨kv, hkv, ho₀⟩, ?_⟩
      rw [hpv kv hkv o₀ ho₀, hkx]
  · intro hx
    obtain ⟨o₀, ho₀, hox⟩ := List.mem_map.mp hx
    obtain ⟨kv, hkv, hmem⟩ := (mem_allOrders_iff o₀).mp ho₀
    have : kv.1 = x := by rw [← hox, hpv kv hkv o₀ hmem]
    exact this ▸ List.mem_map_of_mem _ hkv

/-! Layer 3: the sharded side. -/

theorem bestOf_assoc (side : OrderSide) (a b c : ℚ) :
    bestOf side (bestOf side a b) c = bestOf side a (bestOf side b c) := by
  cases side <;> rw [bestOf, bestOf, bestOf, bestOf]
  · exact max_assoc a b c
  · exact min_assoc a b c

theorem foldl_bestOf_hoist (side : OrderSide) :
    ∀ (qs : List ℚ) (q a : ℚ),
      bestOf side a (qs.foldl (bestOf side) q) = qs.foldl (bestOf side) (bestOf side a q) := by
  intro qs
  induction qs with
  | nil => intro q a; rfl
  | cons r rs ih =>
      intro q a
      rw [List.foldl_cons, List.foldl_cons, ih, bestOf_assoc]

theorem combine_peek (side : OrderSide) (l₁ l₂ : List ℚ) :
    combine side (heapPeek side l₁) (heapPeek side l₂) = heapPeek side (l₁ ++ l₂) := by
  rcases l₁ with _ | ⟨p, ps⟩
  · rfl
  · rcases l₂ with _ | ⟨q, qs⟩
    · rw [List.append_nil, heapPeek]
      rfl
    · rw [heapPeek, heapPeek, combine, List.cons_append, heapPeek]
      rw [List.foldl_append, List.foldl_cons]
      rw [foldl_bestOf_hoist]

theorem list_set_split {α : Type} {l : List α} {i : Nat} (h : i < l.length) (x : α) :
    ∃ l₁ l₂, l = l₁ ++ l.get ⟨i, h⟩ :: l₂ ∧ l₁.length = i ∧ l.set i x = l₁ ++ x :: l₂ := by
  induction l generalizing i with
  | nil => simp at h
  | cons a rest ih =>
      rcases i with _ | j
      · exact ⟨[], rest, by simp, rfl, by simp⟩
      · have hj : j < rest.length := by
          simpa using h
        obtain ⟨l₁, l₂, heq, hlen, hset⟩ := ih hj
        refine ⟨a :: l₁, l₂, ?_, by simp [hlen], ?_⟩
        · have hget : (a :: rest).get ⟨j + 1, h⟩ = rest.get ⟨j, hj⟩ := rfl
          rw [List.cons_append, hget, ← heq]
        · rw [List.set_cons_succ, hset]
          simp

theorem scan_foldl (side : OrderSide) :
    ∀ (shs : List OrderBookSide), (∀ sh ∈ shs, GoodSide sh) →
    ∀ (acc : Option ℚ) (col : List OrderBookSide),
      shs.foldl (fun (acc : Option ℚ × List OrderBookSide) shard =>
        let (shardBest, shard') := shard.getBestPrice
        let best' := match acc.1, shardBest with
          | none, sb => sb
          | some b, none => some b
          | some b, some v => some (bestOf side b v)
        (best', acc.2 ++ [shard'])) (acc, col) =
      (shs.foldl (fun a sh => combine side a (heapPeek sh.side sh.heap)) acc, col ++ shs) := by
  intro shs
  induction shs with
  | nil => intro _ acc col; simp
  | cons sh rest ih =>
      intro hg acc col
      rw [List.foldl_cons, List.foldl_cons]
      have hbp := getBestPrice_eq (hg sh (List.mem_cons_self _ _))
      rw [hbp]
      dsimp only
      have hcomb : (match acc, heapPeek sh.side sh.heap with
          | none, sb => sb
          | some b, none => some b
          | some b, some v => some (bestOf side b v)) =
          combine side acc (heapPeek sh.side sh.heap) := by
        rcases acc with _ | b <;> rcases heapPeek sh.side sh.heap with _ | v <;> rfl
      rw [hcomb, ih (fun x hx => hg x (List.mem_cons_of_mem _ hx))]
      simp

theorem sharded_getBestPrice_eq {sbk : ShardedOrderBookSide} (h : GoodSharded sbk) :
    sbk.getBestPrice = (combinedPeek sbk, cacheSet sbk) := by
  obtain ⟨hlen, hpos, hsh, hroute, hcache⟩ := h
  rw [ShardedOrderBookSide.getBestPrice]
  by_cases hc : sbk.cacheValid = true ∧ (sbk.bestPriceCache.isSome : Prop)
  · rw [if_pos hc]
    have hbc := hcache hc.1
    have hcs : cacheSet sbk = sbk := by
      rw [cacheSet, ← hbc, ← hc.1]
    rw [hbc, hcs]
  · rw [if_neg hc]
    have hscan := scan_foldl sbk.side sbk.shards
      (fun sh hs => (hsh sh hs).2) none []
    dsimp only
    rw [hscan]
    simp [combinedPeek, cacheSet]

theorem combinedPeek_flatten_aux (side : OrderSide) :
    ∀ (shs : List OrderBookSide), (∀ sh ∈ shs, sh.side = side) →
    ∀ (L : List ℚ),
      shs.foldl (fun a sh => combine side a (heapPeek sh.side sh.heap)) (heapPeek side L) =
      heapPeek side (L ++ (shs.map (fun sh => sh.heap)).flatten) := by
  intro shs
  induction shs with
  | nil => intro _ L; simp
  | cons sh rest ih =>
      intro hside L
      rw [List.foldl_cons]
      have hs := hside sh (List.mem_cons_self _ _)
      rw [hs, combine_peek]
      rw [ih (fun x hx => hside x (List.mem_cons_of_mem _ hx)) (L ++ sh.heap)]
      rw [List.map_cons, List.flatten_cons, List.append_assoc]

theorem combinedPeek_flatten {sbk : ShardedOrderBookSide}
    (hside : ∀ sh ∈ sbk.shards, sh.side = sbk.side) :
    combinedPeek sbk = heapPeek sbk.side ((sbk.shards.map (fun sh => sh.heap)).flatten) := by
  have haux := combinedPeek_flatten_aux sbk.side sbk.shards hside []
  rw [combinedPeek]
  simpa using haux

theorem heap_mem_iff {bk : OrderBookSide} (h : GoodSide bk) :
    ∀ x, x ∈ bk.heap ↔ x ∈ bk.allOrders.map (fun o => o.price) := by
  obtain ⟨hheap, hnd, hne, hpv, hsort, hback⟩ := h
  intro x
  rw [hheap]
  constructor
  · intro hx
    obtain ⟨kv, hkv, hkx⟩ := List.mem_map.mp hx
    rcases hord : kv.2.orders with _ | ⟨o₀, _⟩
    · exact absurd hord (hne kv hkv)
    · have ho₀ : o₀ ∈ kv.2.orders := hord ▸ List.mem_cons_self _ _
      refine List.mem_map.mpr ⟨o₀, (mem_allOrders_iff o₀).mpr ⟨kv, hkv, ho₀⟩, ?_⟩
      rw [hpv kv hkv o₀ ho₀, hkx]
  · intro hx
    obtain ⟨o₀, ho₀, hox⟩ := List.mem_map.mp hx
    obtain ⟨kv, hkv, hmem⟩ := (mem_allOrders_iff o₀).mp ho₀
    have hx1 : kv.1 = x := by rw [← hox, hpv kv hkv o₀ hmem]
    exact hx1 ▸ List.mem_map_of_mem _ hkv

theorem mem_sharded_allOrders {sbk : ShardedOrderBookSide} :
    ∀ x, x ∈ sbk.allOrders ↔ ∃ sh ∈ sbk.shards, x ∈ sh.allOrders := by
  intro x
  rw [ShardedOrderBookSide.allOrders]
  constructor
  · intro hx
    obtain ⟨l, hl, hxl⟩ := List.mem_flatten.mp hx
    obtain ⟨sh, hsh, hshl⟩ := List.mem_map.mp hl
    exact ⟨sh, hsh, hshl ▸ hxl⟩
  · rintro ⟨sh, hsh, hx⟩
    exact List.mem_flatten.mpr ⟨sh.allOrders, List.mem_map_of_mem _ hsh, hx⟩

theorem combinedPeek_prices {sbk : ShardedOrderBookSide} (h : GoodSharded sbk) :
    combinedPeek sbk = heapPeek sbk.side (sbk.allOrders.map (fun o => o.price)) := by
  rw [combinedPeek_flatten (fun sh hs => (h.2.2.1 sh hs).1)]
  apply heapPeek_congr
  intro x
  constructor
  · intro hx
    obtain ⟨l, hl, hxl⟩ := List.mem_flatten.mp hx
    obtain ⟨sh, hsh, hshl⟩ := List.mem_map.mp hl
    have hx2 := (heap_mem_iff (h.2.2.1 sh hsh).2 x).mp (hshl ▸ hxl)
    obtain ⟨o₀, ho₀, hox⟩ := List.mem_map.mp hx2
    exact List.mem_map.mpr ⟨o₀, (mem_sharded_allOrders o₀).mpr ⟨sh, hsh, ho₀⟩, hox⟩
  · intro hx
    obtain ⟨o₀, ho₀, hox⟩ := List.mem_map.mp hx
    obtain ⟨sh, hsh, hmem⟩ := (mem_sharded_allOrders o₀).mp ho₀
    have hx2 : x ∈ sh.heap := (heap_mem_iff (h.2.2.1 sh hsh).2 x).mpr
      (List.mem_map.mpr ⟨o₀, hmem, hox⟩)
    exact List.mem_flatten.mpr ⟨sh.heap, List.mem_map_of_mem _ hsh, hx2⟩

theorem map_subst_of_not_mem {oid : String} (o' : Order) :
    ∀ {l : List Order}, (∀ x ∈ l, x.orderId ≠ oid) →
      l.map (fun o => if o.orderId = oid then o' else o) = l := by
  intro l
  induction l with
  | nil => intro _; rfl
  | cons x xs ih =>
      intro hx
      rw [List.map_cons, if_neg (hx x (List.mem_cons_self _ _)),
        ih (fun y hy => hx y (List.mem_cons_of_mem _ hy))]

theorem map_subst_perm {o₀ : Order} (o' : Order) :
    ∀ {l : List Order}, (l.map (fun o => o.orderId)).Nodup → o₀ ∈ l →
      (l.map (fun o => if o.orderId = o₀.orderId then o' else o)).Perm
        (o' :: l.erase o₀) := by
  intro l
  induction l with
  | nil => intro _ hm; simp at hm
  | cons x xs ih =>
      intro hnd hm
      rw [List.map_cons, List.nodup_cons] at hnd
      by_cases hxid : x.orderId = o₀.orderId
      · have hxo : x = o₀ := by
          rcases List.mem_cons.mp hm with hm | hm
          · exact hm.symm
          · exact absurd (hxid ▸ List.mem_map_of_mem (fun o => o.orderId) hm) hnd.1
        have hrest : List.map (fun o => if o.orderId = o₀.orderId then o' else o) xs = xs :=
          map_subst_of_not_mem o' (fun y hy he => hnd.1 (by
            have hyx : y.orderId = x.orderId := he.trans hxid.symm
            exact hyx ▸ List.mem_map_of_mem (fun o => o.orderId) hy))
        rw [List.map_cons, if_pos hxid, hxo, List.erase_cons_head, hrest]
      · have hm2 : o₀ ∈ xs := by
          rcases List.mem_cons.mp hm with hm | hm
          · exact absurd (congrArg (fun o => o.orderId) hm).symm hxid
          · exact hm
        have hxne : ¬ x == o₀ := by
          simp only [beq_iff_eq]
          exact fun he => hxid (by rw [he])
        rw [List.map_cons, if_neg hxid, List.erase_cons_tail hxne]
        refine ((ih hnd.2 hm2).cons x).trans ?_
        exact List.Perm.swap o' x (xs.erase o₀)

theorem writeBack_allOrders (bk : OrderBookSide) (oid : String) (o' : Order) :
    (bk.writeBackOrder oid o').allOrders =
      bk.allOrders.map (fun o => if o.orderId = oid then o' else o) := by
  rw [OrderBookSide.writeBackOrder, OrderBookSide.allOrders, OrderBookSide.allOrders]
  rw [List.map_map, List.map_flatten, List.map_map]
  rfl

theorem writeBack_absent {bk : OrderBookSide} {oid : String}
    (h : ∀ x ∈ bk.allOrders, x.orderId ≠ oid) (o' : Order) :
    bk.writeBackOrder oid o' = bk := by
  rw [OrderBookSide.writeBackOrder]
  have hpt : ∀ kv ∈ bk.priceLevels,
      (kv.1, { kv.2 with orders := kv.2.orders.map (fun o =>
        if o.orderId = oid then o' else o) }) = kv := by
    intro kv hkv
    have hordid : kv.2.orders.map (fun o => if o.orderId = oid then o' else o) =
        kv.2.orders :=
      map_subst_of_not_mem o' (fun x hx => h x ((mem_allOrders_iff x).mpr ⟨kv, hkv, hx⟩))
    rw [hordid]
  have hmap : bk.priceLevels.map (fun kv =>
      (kv.1, { kv.2 with orders := kv.2.orders.map (fun o =>
        if o.orderId = oid then o' else o) })) = bk.priceLevels :=
    (List.map_congr_left hpt).trans (List.map_id' _)
  rw [hmap]

theorem goodSide_writeBack {bk : OrderBookSide} (h : GoodSide bk) (hids : IdsNodup bk)
    {o₀ : Order} (hmem : o₀ ∈ bk.allOrders) (o' : Order)
    (hid : o'.orderId = o₀.orderId) (hpr : o'.price = o₀.price)
    (hts : o'.timestamp = o₀.timestamp) :
    GoodSide (bk.writeBackOrder o₀.orderId o') ∧
    (bk.writeBackOrder o₀.orderId o').allOrders.Perm (o' :: bk.allOrders.erase o₀) ∧
    (bk.writeBackOrder o₀.orderId o').heap = bk.heap ∧
    (bk.writeBackOrder o₀.orderId o').side = bk.side := by
  obtain ⟨hheap, hnd, hne, hpv, hsort, hback⟩ := h
  have hinj : ∀ y ∈ bk.allOrders, y.orderId = o₀.orderId → y = o₀ :=
    fun y hy he => List.inj_on_of_nodup_map hids hy hmem he
  have hsubst : ∀ kv ∈ bk.priceLevels, ∀ x ∈ kv.2.orders,
      ((if x.orderId = o₀.orderId then o' else x).orderId = x.orderId ∧
       (if x.orderId = o₀.orderId then o' else x).price = x.price ∧
       (if x.orderId = o₀.orderId then o' else x).timestamp = x.timestamp) := by
    intro kv hkv x hx
    by_cases hxi : x.orderId = o₀.orderId
    · have hxo : x = o₀ := hinj x ((mem_allOrders_iff x).mpr ⟨kv, hkv, hx⟩) hxi
      rw [if_pos hxi, hxo, hid, hpr, hts]
      exact ⟨rfl, rfl, rfl⟩
    · rw [if_neg hxi]
      exact ⟨rfl, rfl, rfl⟩
  constructor
  · rw [OrderBookSide.writeBackOrder]
    have hkeys : (bk.priceLevels.map (fun (kv : ℚ × PriceLevel) =>
        (kv.1, { kv.2 with orders := kv.2.orders.map (fun (o : Order) =>
          if o.orderId = o₀.orderId then o' else o) }))).map (fun kv => kv.1) =
        bk.priceLevels.map (fun kv => kv.1) := by
      rw [List.map_map]
      rfl
    refine ⟨by rw [hkeys]; exact hheap, by rw [hkeys]; exact hnd, ?_, ?_, ?_, ?_⟩
    · intro kv hkv
      obtain ⟨kv0, hkv0, hkveq⟩ := List.mem_map.mp hkv
      rw [← hkveq]
      intro hx
      rw [List.map_eq_nil_iff] at hx
      exact hne kv0 hkv0 hx
    · intro kv hkv x hx
      obtain ⟨kv0, hkv0, hkveq⟩ := List.mem_map.mp hkv
      rw [← hkveq] at hx ⊢
      obtain ⟨y, hy, hyx⟩ := List.mem_map.mp hx
      rw [← hyx]
      have hs := hsubst kv0 hkv0 y hy
      rw [hs.2.1]
      exact hpv kv0 hkv0 y hy
    · intro kv hkv
      obtain ⟨kv0, hkv0, hkveq⟩ := List.mem_map.mp hkv
      rw [← hkveq, TsStrict]
      rw [List.pairwise_map]
      refine List.Pairwise.imp_of_mem ?_ (hsort kv0 hkv0)
      intro a b ha hb hab
      rw [(hsubst kv0 hkv0 a ha).2.2, (hsubst kv0 hkv0 b hb).2.2]
      exact hab
    · intro kv hkv x hx
      obtain ⟨kv0, hkv0, hkveq⟩ := List.mem_map.mp hkv
      rw [← hkveq] at hx ⊢
      obtain ⟨y, hy, hyx⟩ := List.mem_map.mp hx
      rw [← hyx]
      have hs := hsubst kv0 hkv0 y hy
      rw [hs.1]
      exact hback kv0 hkv0 y hy
  · refine ⟨?_, rfl, rfl⟩
    rw [writeBack_allOrders]
    exact map_subst_perm o' hids hmem

theorem sharded_allOrders_eq (shs : List OrderBookSide) {s₁ s₂ : List OrderBookSide}
    {sh : OrderBookSide} (heq : shs = s₁ ++ sh :: s₂) :
    (shs.map OrderBookSide.allOrders).flatten =
      ((s₁.map OrderBookSide.allOrders).flatten) ++ sh.allOrders ++
        ((s₂.map OrderBookSide.allOrders).flatten) := by
  rw [heq]
  simp

theorem shard_sub_ids {sbk : ShardedOrderBookSide} {sh : OrderBookSide}
    (hm : sh ∈ sbk.shards) :
    List.Sublist (sh.allOrders.map (fun x => x.orderId))
      (sbk.allOrders.map (fun x => x.orderId)) := by
  obtain ⟨s₁, s₂, heq⟩ := List.append_of_mem hm
  have hall : sbk.allOrders =
      ((s₁.map OrderBookSide.allOrders).flatten) ++ sh.allOrders ++
        ((s₂.map OrderBookSide.allOrders).flatten) := by
    rw [ShardedOrderBookSide.allOrders]
    exact sharded_allOrders_eq sbk.shards heq
  rw [hall, List.map_append, List.map_append]
  refine List.Sublist.trans ?_ (List.sublist_append_left _ _)
  exact List.sublist_append_right _ _

theorem shard_ids_nodup {sbk : ShardedOrderBookSide} {sh : OrderBookSide}
    (hm : sh ∈ sbk.shards)
    (hids : (sbk.allOrders.map (fun x => x.orderId)).Nodup) :
    IdsNodup sh :=
  hids.sublist (shard_sub_ids hm)

theorem goodSharded_addOrder {sbk : ShardedOrderBookSide} (h : GoodSharded sbk)
    (hids : (sbk.allOrders.map (fun x => x.orderId)).Nodup)
    (o : Order)
    (hfresh : o.orderId ∉ sbk.allOrders.map (fun x => x.orderId))
    (hlate : ∀ r ∈ sbk.allOrders, r.timestamp < o.timestamp) :
    GoodSharded (sbk.addOrder o) ∧
    (sbk.addOrder o).allOrders.Perm (sbk.allOrders ++ [o]) ∧
    (sbk.addOrder o).side = sbk.side ∧
    (sbk.addOrder o).numShards = sbk.numShards := by
  obtain ⟨hlen, hpos, hsh, hroute, hcache⟩ := h
  have hidx : shardIndex o.orderId sbk.numShards < sbk.shards.length := by
    rw [hlen]
    exact Nat.mod_lt _ hpos
  have hget : sbk.shards.get? (shardIndex o.orderId sbk.numShards) =
      some (sbk.shards.get ⟨shardIndex o.orderId sbk.numShards, hidx⟩) :=
    List.get?_eq_get hidx
  set shard := sbk.shards.get ⟨shardIndex o.orderId sbk.numShards, hidx⟩ with hsharddef
  have hshmem : shard ∈ sbk.shards := List.get_mem _ _ _
  have hshGood := (hsh shard hshmem).2
  have hshIds := shard_ids_nodup hshmem hids
  have hsub : ∀ x ∈ shard.allOrders, x ∈ sbk.allOrders := by
    intro x hx
    exact (mem_sharded_allOrders x).mpr ⟨shard, hshmem, hx⟩
  have hfreshS : o.orderId ∉ shard.allOrders.map (fun x => x.orderId) := by
    intro hx
    obtain ⟨y, hy, hyid⟩ := List.mem_map.mp hx
    exact hfresh (List.mem_map.mpr ⟨y, hsub y hy, hyid⟩)
  obtain ⟨hG, hP, hS⟩ := goodSide_addOrder hshGood hshIds o hfreshS
    (fun r hr => hlate r (hsub r hr))
  have hres : sbk.addOrder o =
      { sbk with shards := sbk.shards.set (shardIndex o.orderId sbk.numShards)
                   (shard.addOrder o)
                 totalOrders := sbk.totalOrders + 1
                 cacheValid := false } := by
    rw [ShardedOrderBookSide.addOrder, hget]
  rw [hres]
  have hlen2 : (sbk.shards.set (shardIndex o.orderId sbk.numShards)
      (shard.addOrder o)).length = sbk.shards.length := by
    simp
  have hmemshards : ∀ x ∈ sbk.shards.set (shardIndex o.orderId sbk.numShards)
      (shard.addOrder o), x = shard.addOrder o ∨ x ∈ sbk.shards := by
    intro x hx
    rcases List.mem_or_eq_of_mem_set hx with hx | hx
    · exact Or.inr hx
    · exact Or.inl hx
  refine ⟨⟨by rw [hlen2, hlen], hpos, ?_, ?_, ?_⟩, ?_, rfl, rfl⟩
  · intro sh hm
    rcases hmemshards sh hm with hm | hm
    · rw [hm]
      exact ⟨hS.trans (hsh shard hshmem).1, hG⟩
    · exact hsh sh hm
  · intro i hi x hx
    have hi2 : i < sbk.shards.length := by
      rw [← hlen2]
      exact hi
    by_cases hieq : shardIndex o.orderId sbk.numShards = i
    · subst hieq
      have hgeti : (sbk.shards.set (shardIndex o.orderId sbk.numShards)
          (shard.addOrder o)).get ⟨shardIndex o.orderId sbk.numShards, hi⟩ =
          shard.addOrder o := by
        rw [List.get_eq_getElem, List.getElem_set_self]
      rw [hgeti] at hx
      rcases List.mem_append.mp (hP.mem_iff.mp hx) with hx2 | hx2
      · exact hroute _ hidx x hx2
      · simp only [List.mem_singleton] at hx2
        rw [hx2]
    · have hgeti : (sbk.shards.set (shardIndex o.orderId sbk.numShards)
          (shard.addOrder o)).get ⟨i, hi⟩ = sbk.shards.get ⟨i, hi2⟩ := by
        rw [List.get_eq_getElem, List.getElem_set_ne hieq, List.get_eq_getElem]
      rw [hgeti] at hx
      exact hroute i hi2 x hx
  · intro hc
    simp at hc
  · obtain ⟨s₁, s₂, hspl, hslen, hsset⟩ := list_set_split hidx (shard.addOrder o)
    rw [← hsharddef] at hspl
    have hgoal : ShardedOrderBookSide.allOrders
        { sbk with shards := sbk.shards.set (shardIndex o.orderId sbk.numShards)
                     (shard.addOrder o)
                   totalOrders := sbk.totalOrders + 1
                   cacheValid := false } =
        ((s₁.map OrderBookSide.allOrders).flatten) ++ (shard.addOrder o).allOrders ++
          ((s₂.map OrderBookSide.allOrders).flatten) := by
      rw [ShardedOrderBookSide.allOrders]
      dsimp only
      rw [hsset]
      exact sharded_allOrders_eq _ rfl
    have hB : sbk.allOrders =
        ((s₁.map OrderBookSide.allOrders).flatten) ++ shard.allOrders ++
          ((s₂.map OrderBookSide.allOrders).flatten) := by
      rw [ShardedOrderBookSide.allOrders]
      exact sharded_allOrders_eq sbk.shards hspl
    rw [hgoal, hB]
    simp only [List.append_assoc]
    refine List.Perm.append_left _ ?_
    refine (hP.append_right _).trans ?_
    rw [List.append_assoc]
    exact List.Perm.append_left _ List.perm_append_comm

theorem head_of_min {bk : OrderBookSide} (h : GoodSide bk)
    {o₀ : Order} (hmem : o₀ ∈ bk.allOrders)
    (hmin : ∀ y ∈ bk.allOrders, y.price = o₀.price → o₀.timestamp ≤ y.timestamp) :
    ∃ lvl tl, dictGet o₀.price bk.priceLevels = some lvl ∧ lvl.orders = o₀ :: tl := by
  obtain ⟨kv, hkv, hmemlvl⟩ := (mem_allOrders_iff o₀).mp hmem
  have hpr : o₀.price = kv.1 := h.2.2.2.1 kv hkv o₀ hmemlvl
  have hg : dictGet o₀.price bk.priceLevels = some kv.2 := by
    rw [hpr]
    exact dictGet_of_mem_nodup h.2.1 (by
      have : (kv.1, kv.2) = kv := rfl
      rw [this]
      exact hkv)
  rcases hord : kv.2.orders with _ | ⟨hd, tl⟩
  · exact absurd hord (h.2.2.1 kv hkv)
  · have hhd : hd ∈ kv.2.orders := hord ▸ List.mem_cons_self _ _
    have hdmem : hd ∈ bk.allOrders := (mem_allOrders_iff hd).mpr ⟨kv, hkv, hhd⟩
    have hdpr : hd.price = o₀.price := by
      rw [h.2.2.2.1 kv hkv hd hhd, hpr]
    have hle : o₀.timestamp ≤ hd.timestamp := hmin hd hdmem hdpr
    have ho₀hd : o₀ = hd := by
      rw [hord] at hmemlvl
      rcases List.mem_cons.mp hmemlvl with hx | hx
      · exact hx
      · have hsorted := h.2.2.2.2.1 kv hkv
        rw [TsStrict, hord, List.pairwise_cons] at hsorted
        exact absurd (hsorted.1 o₀ hx) (not_lt.mpr hle)
    exact ⟨kv.2, tl, hg, by rw [hord, ho₀hd]⟩

theorem goodSharded_removeTop {sbk : ShardedOrderBookSide} (h : GoodSharded sbk)
    (hids : (sbk.allOrders.map (fun x => x.orderId)).Nodup)
    {o₀ : Order} (hmem : o₀ ∈ sbk.allOrders)
    (hmin : ∀ y ∈ sbk.allOrders, y.price = o₀.price → o₀.timestamp ≤ y.timestamp) :
    (sbk.removeOrder o₀.orderId).2 = true ∧
    GoodSharded ((sbk.removeOrder o₀.orderId).1) ∧
    ((sbk.removeOrder o₀.orderId).1).allOrders.Perm (sbk.allOrders.erase o₀) ∧
    ((sbk.removeOrder o₀.orderId).1).side = sbk.side ∧
    ((sbk.removeOrder o₀.orderId).1).numShards = sbk.numShards := by
  obtain ⟨hlen, hpos, hsh, hroute, hcache⟩ := h
  obtain ⟨sh0, hsh0, hmemsh0⟩ := (mem_sharded_allOrders o₀).mp hmem
  obtain ⟨⟨j, hj⟩, hjget⟩ := List.mem_iff_get.mp hsh0
  have hrj : shardIndex o₀.orderId sbk.numShards = j :=
    hroute j hj o₀ (by rw [hjget]; exact hmemsh0)
  have hidx : shardIndex o₀.orderId sbk.numShards < sbk.shards.length := by
    rw [hrj]
    exact hj
  have hget : sbk.shards.get? (shardIndex o₀.orderId sbk.numShards) =
      some (sbk.shards.get ⟨shardIndex o₀.orderId sbk.numShards, hidx⟩) :=
    List.get?_eq_get hidx
  set shard := sbk.shards.get ⟨shardIndex o₀.orderId sbk.numShards, hidx⟩ with hsharddef
  have hshardsh0 : shard = sh0 := by
    rw [hsharddef, ← hjget]
    congr 1
    exact Fin.ext hrj
  have hshmem : shard ∈ sbk.shards := List.get_mem _ _ _
  have hshGood := (hsh shard hshmem).2
  have hshIds := shard_ids_nodup hshmem hids
  have hsub : ∀ x ∈ shard.allOrders, x ∈ sbk.allOrders := by
    intro x hx
    exact (mem_sharded_allOrders x).mpr ⟨shard, hshmem, hx⟩
  have hmemS : o₀ ∈ shard.allOrders := by
    rw [hshardsh0]
    exact hmemsh0
  obtain ⟨lvl, tl, hg, hho⟩ := head_of_min hshGood hmemS
    (fun y hy hp => hmin y (hsub y hy) hp)
  obtain ⟨preL, sufL, heqL, hnkL⟩ := dictGet_split hg
  have hrm := removeOrder_head_eq hshGood hg hho heqL hnkL
  obtain ⟨hG, hP, hSide⟩ := goodSide_removeHead hshGood hshIds hg hho
  have hres : sbk.removeOrder o₀.orderId =
      ({ sbk with shards := sbk.shards.set (shardIndex o₀.orderId sbk.numShards)
                    (shard.removeOrder o₀.orderId).1
                  totalCancellations := sbk.totalCancellations + 1
                  cacheValid := false }, true) := by
    rw [ShardedOrderBookSide.removeOrder, hget]
    dsimp only
    rw [hrm]
    dsimp only
    rw [if_pos rfl]
  rw [hres]
  refine ⟨rfl, ⟨?_, hpos, ?_, ?_, ?_⟩, ?_, rfl, rfl⟩
  · simp [hlen]
  · intro sh hm
    rcases List.mem_or_eq_of_mem_set hm with hm | hm
    · exact hsh sh hm
    · rw [hm]
      exact ⟨hSide.trans (hsh shard hshmem).1, hG⟩
  · intro i hi x hx
    have hi2 : i < sbk.shards.length := by
      simpa using hi
    by_cases hieq : shardIndex o₀.orderId sbk.numShards = i
    · subst hieq
      have hgeti : (sbk.shards.set (shardIndex o₀.orderId sbk.numShards)
          (shard.removeOrder o₀.orderId).1).get ⟨shardIndex o₀.orderId sbk.numShards, hi⟩ =
          (shard.removeOrder o₀.orderId).1 := by
        rw [List.get_eq_getElem, List.getElem_set_self]
      rw [hgeti] at hx
      have hx2 : x ∈ shard.allOrders := by
        have := hP.mem_iff.mp hx
        exact (List.erase_sublist o₀ shard.allOrders).mem this
      exact hroute _ hidx x hx2
    · have hgeti : (sbk.shards.set (shardIndex o₀.orderId sbk.numShards)
          (shard.removeOrder o₀.orderId).1).get ⟨i, hi⟩ = sbk.shards.get ⟨i, hi2⟩ := by
        rw [List.get_eq_getElem, List.getElem_set_ne hieq, List.get_eq_getElem]
      rw [hgeti] at hx
      exact hroute i hi2 x hx
  · intro hc
    simp at hc
  · obtain ⟨s₁, s₂, hspl, hslen, hsset⟩ := list_set_split hidx (shard.removeOrder o₀.orderId).1
    rw [← hsharddef] at hspl
    have hgoal : ShardedOrderBookSide.allOrders
        { sbk with shards := sbk.shards.set (shardIndex o₀.orderId sbk.numShards)
                     (shard.removeOrder o₀.orderId).1
                   totalCancellations := sbk.totalCancellations + 1
                   cacheValid := false } =
        ((s₁.map OrderBookSide.allOrders).flatten) ++
          ((shard.removeOrder o₀.orderId).1).allOrders ++
          ((s₂.map OrderBookSide.allOrders).flatten) := by
      rw [ShardedOrderBookSide.allOrders]
      dsimp only
      rw [hsset]
      exact sharded_allOrders_eq _ rfl
    have hB : sbk.allOrders =
        ((s₁.map OrderBookSide.allOrders).flatten) ++ shard.allOrders ++
          ((s₂.map OrderBookSide.allOrders).flatten) := by
      rw [ShardedOrderBookSide.allOrders]
      exact sharded_allOrders_eq sbk.shards hspl
    have hnoA : o₀ ∉ (s₁.map OrderBookSide.allOrders).flatten := by
      intro hxA
      have hidsB := hids
      rw [hB, List.map_append, List.map_append, List.nodup_append,
        List.nodup_append] at hidsB
      exact hidsB.1.2.2 (List.mem_map_of_mem _ hxA) (List.mem_map_of_mem _ hmemS)
    have herase : sbk.allOrders.erase o₀ =
        ((s₁.map OrderBookSide.allOrders).flatten) ++ (shard.allOrders.erase o₀) ++
          ((s₂.map OrderBookSide.allOrders).flatten) := by
      rw [hB, List.erase_append_left _ (List.mem_append_right _ hmemS),
        List.erase_append_right _ hnoA]
    rw [hgoal, herase]
    simp only [List.append_assoc]
    exact (hP.append_right _).append_left _

theorem getOrdersAtBestPrice_eq {sbk : ShardedOrderBookSide} (h : GoodSharded sbk)
    {bp : ℚ} (hb : combinedPeek sbk = some bp) :
    ∃ C, sbk.getOrdersAtBestPrice = (sortByTs C, cacheSet sbk) ∧
      (∀ x, x ∈ C ↔ (x ∈ sbk.allOrders ∧ x.price = bp)) := by
  have hbp := sharded_getBestPrice_eq h
  rw [hb] at hbp
  refine ⟨(sbk.shards.map (fun shard =>
      match shard.getPriceLevel bp with
      | some lvl => if ¬ lvl.isEmpty then lvl.orders else []
      | none => [])).flatten, ?_, ?_⟩
  · rw [ShardedOrderBookSide.getOrdersAtBestPrice, hbp]
    rfl
  · intro x
    constructor
    · intro hx
      obtain ⟨l, hl, hxl⟩ := List.mem_flatten.mp hx
      obtain ⟨sh, hshm, hsheq⟩ := List.mem_map.mp hl
      rw [← hsheq] at hxl
      rcases hgl : sh.getPriceLevel bp with _ | lvl
      · rw [hgl] at hxl
        simp at hxl
      · rw [hgl] at hxl
        dsimp only at hxl
        by_cases hemp : lvl.isEmpty
        · rw [if_neg (by simp [hemp])] at hxl
          simp at hxl
        · rw [if_pos hemp] at hxl
          have hgl2 : dictGet bp sh.priceLevels = some lvl := hgl
          have hkv : (bp, lvl) ∈ sh.priceLevels := dictGet_mem hgl2
          refine ⟨(mem_sharded_allOrders x).mpr
            ⟨sh, hshm, (mem_allOrders_iff x).mpr ⟨(bp, lvl), hkv, hxl⟩⟩, ?_⟩
          exact (h.2.2.1 sh hshm).2.2.2.2.1 (bp, lvl) hkv x hxl
    · rintro ⟨hmem, hpr⟩
      obtain ⟨sh, hshm, hxsh⟩ := (mem_sharded_allOrders x).mp hmem
      obtain ⟨kv, hkv, hxkv⟩ := (mem_allOrders_iff x).mp hxsh
      have hG := (h.2.2.1 sh hshm).2
      have hkv1 : kv.1 = bp := by
        rw [← hpr]
        exact (hG.2.2.2.1 kv hkv x hxkv).symm
      have hgl : sh.getPriceLevel bp = some kv.2 := by
        rw [OrderBookSide.getPriceLevel, ← hkv1]
        exact dictGet_of_mem_nodup hG.2.1 (by
          have hkveta : (kv.1, kv.2) = kv := rfl
          rw [hkveta]
          exact hkv)
      have hbr : (match sh.getPriceLevel bp with
          | some lvl => if ¬ lvl.isEmpty then lvl.orders else []
          | none => ([] : List Order)) = kv.2.orders := by
        rw [hgl]
        dsimp only
        rw [if_pos (by
          have hne2 := hG.2.2.1 kv hkv
          rw [PriceLevel.isEmpty]
          simpa using hne2)]
      exact List.mem_flatten.mpr ⟨_, List.mem_map_of_mem _ hshm, hbr ▸ hxkv⟩

/-! Layer 4: the lockstep relation between a plain side and a sharded side. -/

theorem cacheSet_allOrders (sbk : ShardedOrderBookSide) :
    (cacheSet sbk).allOrders = sbk.allOrders := rfl

theorem cacheSet_idem (sbk : ShardedOrderBookSide) :
    cacheSet (cacheSet sbk) = cacheSet sbk := rfl

theorem combinedPeek_cacheSet (sbk : ShardedOrderBookSide) :
    combinedPeek (cacheSet sbk) = combinedPeek sbk := rfl

theorem goodSharded_cacheSet {sbk : ShardedOrderBookSide} (h : GoodSharded sbk) :
    GoodSharded (cacheSet sbk) := by
  obtain ⟨hlen, hpos, hsh, hroute, hcache⟩ := h
  exact ⟨hlen, hpos, hsh, hroute, fun _ => rfl⟩

theorem bookRel_cacheSet {bk : OrderBookSide} {sbk : ShardedOrderBookSide}
    (h : BookRel bk sbk) : BookRel bk (cacheSet sbk) := by
  obtain ⟨hG, hS, hside, hids, hts, hperm⟩ := h
  exact ⟨hG, goodSharded_cacheSet hS, hside, hids, hts, hperm⟩

theorem rel_peek {bk : OrderBookSide} {sbk : ShardedOrderBookSide}
    (h : BookRel bk sbk) : combinedPeek sbk = heapPeek bk.side bk.heap := by
  obtain ⟨hG, hS, hside, hids, hts, hperm⟩ := h
  rw [combinedPeek_prices hS, hside, peek_prices hG]
  exact heapPeek_congr bk.side
    (fun x => ((hperm.map (fun o => o.price)).mem_iff).symm)

theorem base_top_min {bk : OrderBookSide} (h : GoodSide bk) {bp : ℚ}
    (hpk : heapPeek bk.side bk.heap = some bp) :
    ∃ lvl o₀ tl, dictGet bp bk.priceLevels = some lvl ∧ lvl.orders = o₀ :: tl ∧
      o₀ ∈ bk.allOrders ∧ o₀.price = bp ∧
      (∀ y ∈ bk.allOrders, y.price = bp → o₀.timestamp ≤ y.timestamp) := by
  have hmemk : bp ∈ bk.priceLevels.map (fun kv => kv.1) := h.1 ▸ heapPeek_mem hpk
  have hsome : (dictGet bp bk.priceLevels).isSome :=
    (dictGet_isSome_iff bp bk.priceLevels).mpr hmemk
  rcases hg : dictGet bp bk.priceLevels with _ | lvl
  · rw [hg] at hsome
    simp at hsome
  · have hkv : (bp, lvl) ∈ bk.priceLevels := dictGet_mem hg
    rcases hord : lvl.orders with _ | ⟨o₀, tl⟩
    · exact absurd hord (h.2.2.1 (bp, lvl) hkv)
    · have ho₀lvl : o₀ ∈ lvl.orders := hord ▸ List.mem_cons_self _ _
      refine ⟨lvl, o₀, tl, rfl, hord, (mem_allOrders_iff o₀).mpr ⟨(bp, lvl), hkv, ho₀lvl⟩,
        h.2.2.2.1 (bp, lvl) hkv o₀ ho₀lvl, ?_⟩
      intro y hy hyp
      obtain ⟨kv2, hkv2, hylvl⟩ := (mem_allOrders_iff y).mp hy
      have hkv21 : kv2.1 = bp := by
        rw [← hyp]
        exact (h.2.2.2.1 kv2 hkv2 y hylvl).symm
      have : dictGet bp bk.priceLevels = some kv2.2 := by
        rw [← hkv21]
        exact dictGet_of_mem_nodup h.2.1 (by
          have hkveta : (kv2.1, kv2.2) = kv2 := rfl
          rw [hkveta]
          exact hkv2)
      rw [hg] at this
      have hlvl2 : kv2.2 = lvl := by
        injection this with h2
        exact h2.symm
      rw [hlvl2] at hylvl
      rw [hord] at hylvl
      rcases List.mem_cons.mp hylvl with hx | hx
      · rw [hx]
      · have hsorted := h.2.2.2.2.1 (bp, lvl) hkv
        rw [TsStrict, hord, List.pairwise_cons] at hsorted
        exact le_of_lt (hsorted.1 y hx)

theorem shardedWriteBack_allOrders (sbk : ShardedOrderBookSide) (oid : String) (o' : Order) :
    (sbk.writeBackOrder oid o').allOrders =
      sbk.allOrders.map (fun o => if o.orderId = oid then o' else o) := by
  rw [ShardedOrderBookSide.writeBackOrder, ShardedOrderBookSide.allOrders,
    ShardedOrderBookSide.allOrders]
  dsimp only
  rw [List.map_map, List.map_flatten, List.map_map]
  congr 1
  refine List.map_congr_left ?_
  intro sh _
  exact writeBack_allOrders sh oid o'

theorem goodSharded_writeBack {sbk : ShardedOrderBookSide} (h : GoodSharded sbk)
    (hids : (sbk.allOrders.map (fun x => x.orderId)).Nodup)
    {o₀ : Order} (hmem : o₀ ∈ sbk.allOrders) (o' : Order)
    (hid : o'.orderId = o₀.orderId) (hpr : o'.price = o₀.price)
    (hts : o'.timestamp = o₀.timestamp) :
    GoodSharded (sbk.writeBackOrder o₀.orderId o') ∧
    (sbk.writeBackOrder o₀.orderId o').allOrders.Perm (o' :: sbk.allOrders.erase o₀) ∧
    (sbk.writeBackOrder o₀.orderId o').side = sbk.side ∧
    (sbk.writeBackOrder o₀.orderId o').numShards = sbk.numShards := by
  obtain ⟨hlen, hpos, hsh, hroute, hcache⟩ := h
  have hinj : ∀ y ∈ sbk.allOrders, y.orderId = o₀.orderId → y = o₀ :=
    fun y hy he => List.inj_on_of_nodup_map hids hy hmem he
  refine ⟨⟨?_, hpos, ?_, ?_, ?_⟩, ?_, rfl, rfl⟩
  · rw [ShardedOrderBookSide.writeBackOrder]
    dsimp only
    rw [List.length_map]
    exact hlen
  · intro sh hm
    rw [ShardedOrderBookSide.writeBackOrder] at hm
    dsimp only at hm
    obtain ⟨sh0, hsh0, hsheq⟩ := List.mem_map.mp hm
    rw [← hsheq]
    by_cases hm0 : o₀ ∈ sh0.allOrders
    · obtain ⟨hG, _, _, hS⟩ := goodSide_writeBack (hsh sh0 hsh0).2
        (shard_ids_nodup hsh0 hids) hm0 o' hid hpr hts
      exact ⟨hS.trans (hsh sh0 hsh0).1, hG⟩
    · have habs : ∀ x ∈ sh0.allOrders, x.orderId ≠ o₀.orderId := by
        intro x hx he
        exact hm0 ((hinj x ((mem_sharded_allOrders x).mpr ⟨sh0, hsh0, hx⟩) he) ▸ hx)
      rw [writeBack_absent habs o']
      exact hsh sh0 hsh0
  · intro i hi x hx
    have hshards : (sbk.writeBackOrder o₀.orderId o').shards =
        sbk.shards.map (fun sh => sh.writeBackOrder o₀.orderId o') := rfl
    have hi2 : i < sbk.shards.length := by
      have hl : (sbk.writeBackOrder o₀.orderId o').shards.length = sbk.shards.length := by
        rw [hshards, List.length_map]
      rw [hl] at hi
      exact hi
    have hget2 : (sbk.writeBackOrder o₀.orderId o').shards.get ⟨i, hi⟩ =
        (sbk.shards.get ⟨i, hi2⟩).writeBackOrder o₀.orderId o' := by
      rw [List.get_eq_getElem, List.get_eq_getElem]
      simp [hshards]
    rw [hget2] at hx
    rw [writeBack_allOrders] at hx
    obtain ⟨y, hy, hyx⟩ := List.mem_map.mp hx
    have hxid : x.orderId = y.orderId := by
      rw [← hyx]
      by_cases hyi : y.orderId = o₀.orderId
      · rw [if_pos hyi, hid, hyi]
      · rw [if_neg hyi]
    rw [hxid]
    exact hroute i hi2 y hy
  · intro hc
    rw [ShardedOrderBookSide.writeBackOrder] at hc ⊢
    dsimp only at hc ⊢
    have hcomb : combinedPeek
        { sbk with shards := sbk.shards.map (fun sh => sh.writeBackOrder o₀.orderId o') } =
        combinedPeek sbk := by
      rw [combinedPeek, combinedPeek]
      dsimp only
      rw [List.foldl_map]
      rfl
    rw [hcomb]
    exact hcache hc
  · rw [shardedWriteBack_allOrders]
    exact map_subst_perm o' hids hmem

theorem baseBuyStep_stop0 (b : Order) (bk : OrderBookSide) (acc : List Trade)
    (fuel : Nat) (hq : ¬ b.remainingQuantity > 0) :
    baseMatchBuyLoop (fuel + 1) b bk acc = (b, bk, acc) := by
  rw [baseMatchBuyLoop, if_neg hq]

theorem baseBuyStep_none {bk : OrderBookSide} (hG : GoodSide bk)
    (hpk : heapPeek bk.side bk.heap = none)
    (b : Order) (acc : List Trade) (fuel : Nat) (hq : b.remainingQuantity > 0) :
    baseMatchBuyLoop (fuel + 1) b bk acc = (b, bk, acc) := by
  rw [baseMatchBuyLoop, if_pos hq, getBestPrice_eq hG, hpk]

theorem baseBuyStep_guardFalse {bk : OrderBookSide} (hG : GoodSide bk) {bp : ℚ}
    (hpk : heapPeek bk.side bk.heap = some bp)
    (b : Order) (acc : List Trade) (fuel : Nat) (hq : b.remainingQuantity > 0)
    (hmkt : ¬ b.orderType = OrderType.MARKET) (hpr : ¬ bp ≤ b.price) :
    baseMatchBuyLoop (fuel + 1) b bk acc = (b, bk, acc) := by
  rw [baseMatchBuyLoop, if_pos hq, getBestPrice_eq hG, hpk]
  dsimp only
  rw [if_neg hmkt, getBestPrice_eq hG, hpk]
  dsimp only
  rw [if_neg (by simpa using hpr)]

theorem baseBuyStep_trade {bk : OrderBookSide} (hG : GoodSide bk)
    {bp : ℚ} {lvl : PriceLevel} {o₀ : Order} {tl : List Order}
    (hpk : heapPeek bk.side bk.heap = some bp)
    (hg : dictGet bp bk.priceLevels = some lvl) (hho : lvl.orders = o₀ :: tl)
    (b : Order) (acc : List Trade) (fuel : Nat) (hq : b.remainingQuantity > 0)
    (hgo : b.orderType = OrderType.MARKET ∨ bp ≤ b.price) :
    baseMatchBuyLoop (fuel + 1) b bk acc =
      baseMatchBuyLoop fuel
        (fillBy b (min b.remainingQuantity o₀.remainingQuantity))
        (if (fillBy o₀ (min b.remainingQuantity o₀.remainingQuantity)).remainingQuantity = 0
         then ((bk.setTopAt bp
            (fillBy o₀ (min b.remainingQuantity o₀.remainingQuantity))).removeOrder
              o₀.orderId).1
         else bk.setTopAt bp (fillBy o₀ (min b.remainingQuantity o₀.remainingQuantity)))
        (acc ++ [createTrade b o₀ (min b.remainingQuantity o₀.remainingQuantity)]) := by
  rw [baseMatchBuyLoop, if_pos hq, getBestPrice_eq hG, hpk]
  dsimp only
  have hguard : (if b.orderType = OrderType.MARKET then (true, bk)
      else
        match bk.getBestPrice with
        | (some p2, a2) => (decide (p2 ≤ b.price), a2)
        | (none, a2) => (false, a2)) = (true, bk) := by
    rcases hgo with hgo | hgo
    · rw [if_pos hgo]
    · by_cases hmkt : b.orderType = OrderType.MARKET
      · rw [if_pos hmkt]
      · rw [if_neg hmkt, getBestPrice_eq hG, hpk]
        dsimp only
        rw [decide_eq_true hgo]
  rw [hguard]
  dsimp only
  rw [if_pos rfl, getBestPrice_eq hG, hpk]
  dsimp only
  rw [OrderBookSide.getPriceLevel, hg]
  dsimp only
  rw [PriceLevel.getTopOrder, hho]
  rfl

theorem shardedBuyStep_stop0 (b : Order) (sbk : ShardedOrderBookSide) (acc : List Trade)
    (fuel : Nat) (hq : ¬ b.remainingQuantity > 0) :
    shardedMatchBuyLoop (fuel + 1) b sbk acc = (b, sbk, acc) := by
  rw [shardedMatchBuyLoop, if_neg hq]

theorem shardedBuyStep_none {sbk : ShardedOrderBookSide} (hS : GoodSharded sbk)
    (hb : combinedPeek sbk = none)
    (b : Order) (acc : List Trade) (fuel : Nat) (hq : b.remainingQuantity > 0) :
    shardedMatchBuyLoop (fuel + 1) b sbk acc = (b, cacheSet sbk, acc) := by
  rw [shardedMatchBuyLoop, if_pos hq, sharded_getBestPrice_eq hS, hb]

theorem shardedBuyStep_guardFalse {sbk : ShardedOrderBookSide} (hS : GoodSharded sbk)
    {bp : ℚ} (hb : combinedPeek sbk = some bp)
    (b : Order) (acc : List Trade) (fuel : Nat) (hq : b.remainingQuantity > 0)
    (hmkt : ¬ b.orderType = OrderType.MARKET) (hpr : ¬ bp ≤ b.price) :
    shardedMatchBuyLoop (fuel + 1) b sbk acc = (b, cacheSet sbk, acc) := by
  rw [shardedMatchBuyLoop, if_pos hq, sharded_getBestPrice_eq hS, hb]
  dsimp only
  rw [if_neg hmkt, sharded_getBestPrice_eq (goodSharded_cacheSet hS),
    combinedPeek_cacheSet, cacheSet_idem, hb]
  dsimp only
  rw [if_neg (by simpa using hpr)]

theorem shardedBuyStep_trade {sbk : ShardedOrderBookSide} (hS : GoodSharded sbk)
    {bp : ℚ} {o₀ : Order} {rest : List Order}
    (hb : combinedPeek sbk = some bp)
    (hops : (cacheSet sbk).getOrdersAtBestPrice = (o₀ :: rest, cacheSet sbk))
    (b : Order) (acc : List Trade) (fuel : Nat) (hq : b.remainingQuantity > 0)
    (hgo : b.orderType = OrderType.MARKET ∨ bp ≤ b.price) :
    shardedMatchBuyLoop (fuel + 1) b sbk acc =
      shardedMatchBuyLoop fuel
        (fillBy b (min b.remainingQuantity o₀.remainingQuantity))
        (if (fillBy o₀ (min b.remainingQuantity o₀.remainingQuantity)).remainingQuantity = 0
         then (((cacheSet sbk).writeBackOrder o₀.orderId
            (fillBy o₀ (min b.remainingQuantity o₀.remainingQuantity))).removeOrder
              o₀.orderId).1
         else (cacheSet sbk).writeBackOrder o₀.orderId
            (fillBy o₀ (min b.remainingQuantity o₀.remainingQuantity)))
        (acc ++ [createTrade b o₀ (min b.remainingQuantity o₀.remainingQuantity)]) := by
  rw [shardedMatchBuyLoop, if_pos hq, sharded_getBestPrice_eq hS, hb]
  dsimp only
  have hguard : (if b.orderType = OrderType.MARKET then (true, cacheSet sbk)
      else
        match (cacheSet sbk).getBestPrice with
        | (some p2, a2) => (decide (p2 ≤ b.price), a2)
        | (none, a2) => (false, a2)) = (true, cacheSet sbk) := by
    rcases hgo with hgo | hgo
    · rw [if_pos hgo]
    · by_cases hmkt : b.orderType = OrderType.MARKET
      · rw [if_pos hmkt]
      · rw [if_neg hmkt, sharded_getBestPrice_eq (goodSharded_cacheSet hS),
          combinedPeek_cacheSet, cacheSet_idem, hb]
        dsimp only
        rw [decide_eq_true hgo]
  rw [hguard]
  dsimp only
  rw [if_pos rfl, sharded_getBestPrice_eq (goodSharded_cacheSet hS),
    combinedPeek_cacheSet, cacheSet_idem, hb]
  dsimp only
  rw [hops]
  rfl

theorem sharded_top {bk : OrderBookSide} {sbk : ShardedOrderBookSide}
    (hrel : BookRel bk sbk) {bp : ℚ} {o₀ : Order}
    (hb : combinedPeek sbk = some bp)
    (hmemB : o₀ ∈ bk.allOrders) (ho₀p : o₀.price = bp)
    (hminB : ∀ y ∈ bk.allOrders, y.price = bp → o₀.timestamp ≤ y.timestamp) :
    ∃ rest, (cacheSet sbk).getOrdersAtBestPrice = (o₀ :: rest, cacheSet sbk) := by
  obtain ⟨hG, hS, hside, hids, hts, hperm⟩ := hrel
  have hb2 : combinedPeek (cacheSet sbk) = some bp := by
    rw [combinedPeek_cacheSet]
    exact hb
  obtain ⟨C, hCeq, hCmem⟩ := getOrdersAtBestPrice_eq (goodSharded_cacheSet hS) hb2
  rw [cacheSet_idem] at hCeq
  have htsS : (sbk.allOrders.map (fun o => o.timestamp)).Nodup :=
    ((hperm.map (fun o => o.timestamp)).nodup_iff).mp hts
  have hCsub : ∀ x ∈ C, x ∈ sbk.allOrders ∧ x.price = bp := by
    intro x hx
    have := (hCmem x).mp hx
    rw [cacheSet_allOrders] at this
    exact this
  have ho₀C : o₀ ∈ C := by
    rw [hCmem o₀, cacheSet_allOrders]
    exact ⟨hperm.mem_iff.mp hmemB, ho₀p⟩
  obtain ⟨rest, hrest⟩ := sortByTs_head_of_min ho₀C
    (fun x hx => hminB x (hperm.mem_iff.mpr (hCsub x hx).1) (hCsub x hx).2 |>.trans (le_refl _))
    (fun a ha b hb0 he =>
      List.inj_on_of_nodup_map htsS (hCsub a ha).1 (hCsub b hb0).1 he)
  exact ⟨rest, by rw [hCeq, hrest]⟩

theorem rel_after_setTop {bk : OrderBookSide} {sbk : ShardedOrderBookSide}
    (hrel : BookRel bk sbk) {bp : ℚ} {lvl : PriceLevel} {o₀ : Order} {tl : List Order}
    (hg : dictGet bp bk.priceLevels = some lvl) (hho : lvl.orders = o₀ :: tl)
    (q : ℤ) :
    BookRel (bk.setTopAt bp (fillBy o₀ q))
      ((cacheSet sbk).writeBackOrder o₀.orderId (fillBy o₀ q)) ∧
    (bk.setTopAt bp (fillBy o₀ q)).allOrders.Perm (fillBy o₀ q :: bk.allOrders.erase o₀) ∧
    ((cacheSet sbk).writeBackOrder o₀.orderId (fillBy o₀ q)).allOrders.Perm
      (fillBy o₀ q :: sbk.allOrders.erase o₀) := by
  obtain ⟨hG, hS, hside, hids, hts, hperm⟩ := hrel
  have hidS : (fillBy o₀ q).orderId = o₀.orderId := rfl
  have hprS : (fillBy o₀ q).price = o₀.price := rfl
  have htsS : (fillBy o₀ q).timestamp = o₀.timestamp := rfl
  obtain ⟨hG4, hP4, hheap4, hside4, hidp4, htsp4⟩ :=
    goodSide_setTop hG hids hg hho (fillBy o₀ q) hidS hprS htsS
  have hidsB : (bk.allOrders.map (fun x => x.orderId)).Nodup := hids
  have hidsSh : (sbk.allOrders.map (fun x => x.orderId)).Nodup :=
    ((hperm.map (fun x => x.orderId)).nodup_iff).mp hidsB
  have hmemB : o₀ ∈ bk.allOrders := by
    rw [mem_allOrders_iff]
    exact ⟨(bp, lvl), dictGet_mem hg, hho ▸ List.mem_cons_self _ _⟩
  have hmemSh : o₀ ∈ (cacheSet sbk).allOrders := by
    rw [cacheSet_allOrders]
    exact hperm.mem_iff.mp hmemB
  obtain ⟨hG5, hP5, hside5, hnum5⟩ :=
    goodSharded_writeBack (goodSharded_cacheSet hS)
      (by rw [cacheSet_allOrders]; exact hidsSh) hmemSh (fillBy o₀ q) hidS hprS htsS
  rw [cacheSet_allOrders] at hP5
  refine ⟨⟨hG4, hG5, ?_, ?_, ?_, ?_⟩, hP4, hP5⟩
  · rw [hside5, hside4]
    exact hside
  · rw [IdsNodup]
    exact (hidp4.nodup_iff).mpr hids
  · exact (htsp4.nodup_iff).mpr hts
  · refine hP4.trans (.trans ?_ hP5.symm)
    exact List.Perm.cons _ (hperm.erase o₀)

theorem rel_after_remove {bk : OrderBookSide} {sbk : ShardedOrderBookSide}
    (hrel : BookRel bk sbk) {bp : ℚ} {lvl : PriceLevel} {o₀ : Order} {tl : List Order}
    (hg : dictGet bp bk.priceLevels = some lvl) (hho : lvl.orders = o₀ :: tl)
    (hminB : ∀ y ∈ bk.allOrders, y.price = bp → o₀.timestamp ≤ y.timestamp)
    (q : ℤ) :
    BookRel ((bk.setTopAt bp (fillBy o₀ q)).removeOrder o₀.orderId).1
      ((((cacheSet sbk).writeBackOrder o₀.orderId (fillBy o₀ q)).removeOrder
        o₀.orderId).1) ∧
    (((bk.setTopAt bp (fillBy o₀ q)).removeOrder o₀.orderId).1).allOrders.Perm
      (bk.allOrders.erase o₀) := by
  obtain ⟨hrel45, hP4, hP5⟩ := rel_after_setTop hrel hg hho q
  obtain ⟨hG, hS, hside, hids, hts, hperm⟩ := hrel
  obtain ⟨hG4, hS5, hside45, hids4, hts4, hperm45⟩ := hrel45
  have ho₀bp : o₀.price = bp := head_price hG hg (hho ▸ List.mem_cons_self _ _)
  obtain ⟨preL, sufL, heq4, hnk4, hset4⟩ := setTopAt_split hg (fillBy o₀ q)
  have hg4 : dictGet bp (bk.setTopAt bp (fillBy o₀ q)).priceLevels =
      some (lvl.setTop (fillBy o₀ q)) := by
    rw [hset4]
    exact dictGet_of_mem_nodup (by
        have hk := hG4.2.1
        rw [hset4] at hk
        exact hk)
      (List.mem_append_right _ (List.mem_cons_self _ _))
  have hho4 : (lvl.setTop (fillBy o₀ q)).orders = fillBy o₀ q :: tl := by
    rw [PriceLevel.setTop, hho]
    simp
  obtain ⟨hGrm, hPrm, hSiderm⟩ := goodSide_removeHead hG4 hids4 hg4 hho4
  have hPrmB : (((bk.setTopAt bp (fillBy o₀ q)).removeOrder o₀.orderId).1).allOrders.Perm
      (bk.allOrders.erase o₀) := by
    refine hPrm.trans ?_
    refine (hP4.erase (fillBy o₀ q)).trans ?_
    rw [List.erase_cons_head]
  have hidsSh5 : (((cacheSet sbk).writeBackOrder o₀.orderId
      (fillBy o₀ q)).allOrders.map (fun x => x.orderId)).Nodup := by
    have hids4B : ((bk.setTopAt bp (fillBy o₀ q)).allOrders.map
        (fun x => x.orderId)).Nodup := hids4
    exact ((hperm45.map (fun x => x.orderId)).nodup_iff).mp hids4B
  have hmem5 : fillBy o₀ q ∈
      ((cacheSet sbk).writeBackOrder o₀.orderId (fillBy o₀ q)).allOrders :=
    hP5.mem_iff.mpr (List.mem_cons_self _ _)
  have hmin5 : ∀ y ∈ ((cacheSet sbk).writeBackOrder o₀.orderId (fillBy o₀ q)).allOrders,
      y.price = (fillBy o₀ q).price → (fillBy o₀ q).timestamp ≤ y.timestamp := by
    intro y hy hyp
    rcases List.mem_cons.mp (hP5.mem_iff.mp hy) with hy2 | hy2
    · rw [hy2]
    · have hyS : y ∈ sbk.allOrders := (List.erase_sublist o₀ sbk.allOrders).mem hy2
      have hyB : y ∈ bk.allOrders := hperm.mem_iff.mpr hyS
      exact hminB y hyB (by rw [hyp]; exact ho₀bp)
  have hrmS := goodSharded_removeTop hS5 hidsSh5 hmem5 hmin5
  have hPrmS : ((((cacheSet sbk).writeBackOrder o₀.orderId (fillBy o₀ q)).removeOrder
      o₀.orderId).1).allOrders.Perm (sbk.allOrders.erase o₀) := by
    refine hrmS.2.2.1.trans ?_
    refine (hP5.erase (fillBy o₀ q)).trans ?_
    rw [List.erase_cons_head]
  refine ⟨⟨hGrm, hrmS.2.1, ?_, ?_, ?_, ?_⟩, hPrmB⟩
  · have hsideS : ((((cacheSet sbk).writeBackOrder o₀.orderId (fillBy o₀ q)).removeOrder
        o₀.orderId).1).side =
        ((cacheSet sbk).writeBackOrder o₀.orderId (fillBy o₀ q)).side := hrmS.2.2.2.1
    have hsideB : (((bk.setTopAt bp (fillBy o₀ q)).removeOrder o₀.orderId).1).side =
        (bk.setTopAt bp (fillBy o₀ q)).side := hSiderm
    rw [hsideS, hsideB]
    exact hside45
  · rw [IdsNodup]
    have hsub : List.Sublist ((bk.allOrders.erase o₀).map (fun x => x.orderId))
        (bk.allOrders.map (fun x => x.orderId)) :=
      (List.erase_sublist o₀ bk.allOrders).map _
    exact ((hPrmB.map (fun x => x.orderId)).nodup_iff).mpr
      ((show (bk.allOrders.map (fun x => x.orderId)).Nodup from hids).sublist hsub)
  · have hsub : List.Sublist ((bk.allOrders.erase o₀).map (fun x => x.timestamp))
        (bk.allOrders.map (fun x => x.timestamp)) :=
      (List.erase_sublist o₀ bk.allOrders).map _
    exact ((hPrmB.map (fun x => x.timestamp)).nodup_iff).mpr (hts.sublist hsub)
  · exact hPrmB.trans ((hperm.erase o₀).trans hPrmS.symm)

theorem lockstep_buy : ∀ (fuel : Nat) (b : Order) (bk : OrderBookSide)
    (sbk : ShardedOrderBookSide) (acc : List Trade), BookRel bk sbk →
    (baseMatchBuyLoop fuel b bk acc).1 = (shardedMatchBuyLoop fuel b sbk acc).1 ∧
    (baseMatchBuyLoop fuel b bk acc).2.2 = (shardedMatchBuyLoop fuel b sbk acc).2.2 ∧
    BookRel (baseMatchBuyLoop fuel b bk acc).2.1
      (shardedMatchBuyLoop fuel b sbk acc).2.1 ∧
    (∀ x ∈ (baseMatchBuyLoop fuel b bk acc).2.1.allOrders,
      ∃ y ∈ bk.allOrders, x.orderId = y.orderId ∧ x.timestamp = y.timestamp) := by
  intro fuel
  induction fuel with
  | zero =>
      intro b bk sbk acc hrel
      rw [baseMatchBuyLoop, shardedMatchBuyLoop]
      exact ⟨rfl, rfl, hrel, fun x hx => ⟨x, hx, rfl, rfl⟩⟩
  | succ fuel ih =>
      intro b bk sbk acc hrel
      have hrelC := hrel
      obtain ⟨hG, hS, hside, hids, hts, hperm⟩ := hrelC
      by_cases hq : b.remainingQuantity > 0
      · rcases hpk : heapPeek bk.side bk.heap with _ | bp
        · rw [baseBuyStep_none hG hpk b acc fuel hq,
            shardedBuyStep_none hS (by rw [rel_peek hrel, hpk]) b acc fuel hq]
          exact ⟨rfl, rfl, bookRel_cacheSet hrel, fun x hx => ⟨x, hx, rfl, rfl⟩⟩
        · have hb : combinedPeek sbk = some bp := by rw [rel_peek hrel, hpk]
          by_cases hgo : b.orderType = OrderType.MARKET ∨ bp ≤ b.price
          · obtain ⟨lvl, o₀, tl, hg, hho, hmemB, ho₀p, hminB⟩ := base_top_min hG hpk
            obtain ⟨rest, hops⟩ := sharded_top hrel hb hmemB ho₀p hminB
            rw [baseBuyStep_trade hG hpk hg hho b acc fuel hq hgo,
              shardedBuyStep_trade hS hb hops b acc fuel hq hgo]
            by_cases hrem : (fillBy o₀
                (min b.remainingQuantity o₀.remainingQuantity)).remainingQuantity = 0
            · rw [if_pos hrem, if_pos hrem]
              obtain ⟨hrel2, hPB⟩ := rel_after_remove hrel hg hho hminB
                (min b.remainingQuantity o₀.remainingQuantity)
              obtain ⟨h1, h2, h3, h4⟩ := ih _ _ _ _ hrel2
              refine ⟨h1, h2, h3, ?_⟩
              intro x hx
              obtain ⟨y, hy, hyid, hyts⟩ := h4 x hx
              have hy2 : y ∈ bk.allOrders.erase o₀ := hPB.mem_iff.mp hy
              exact ⟨y, (List.erase_sublist o₀ bk.allOrders).mem hy2, hyid, hyts⟩
            · rw [if_neg hrem, if_neg hrem]
              obtain ⟨hrel2, hPB4, hPS5⟩ := rel_after_setTop hrel hg hho
                (min b.remainingQuantity o₀.remainingQuantity)
              obtain ⟨h1, h2, h3, h4⟩ := ih _ _ _ _ hrel2
              refine ⟨h1, h2, h3, ?_⟩
              intro x hx
              obtain ⟨y, hy, hyid, hyts⟩ := h4 x hx
              have hy2 := hPB4.mem_iff.mp hy
              rcases List.mem_cons.mp hy2 with hy3 | hy3
              · refine ⟨o₀, hmemB, ?_, ?_⟩
                · rw [hy3] at hyid
                  exact hyid
                · rw [hy3] at hyts
                  exact hyts
              · exact ⟨y, (List.erase_sublist o₀ bk.allOrders).mem hy3, hyid, hyts⟩
          · push_neg at hgo
            rw [baseBuyStep_guardFalse hG hpk b acc fuel hq hgo.1 (not_le.mpr hgo.2),
              shardedBuyStep_guardFalse hS hb b acc fuel hq hgo.1 (not_le.mpr hgo.2)]
            exact ⟨rfl, rfl, bookRel_cacheSet hrel, fun x hx => ⟨x, hx, rfl, rfl⟩⟩
      · rw [baseBuyStep_stop0 b bk acc fuel hq, shardedBuyStep_stop0 b sbk acc fuel hq]
        exact ⟨rfl, rfl, hrel, fun x hx => ⟨x, hx, rfl, rfl⟩⟩

theorem baseSellStep_stop0 (s : Order) (bk : OrderBookSide) (acc : List Trade)
    (fuel : Nat) (hq : ¬ s.remainingQuantity > 0) :
    baseMatchSellLoop (fuel + 1) s bk acc = (s, bk, acc) := by
  rw [baseMatchSellLoop, if_neg hq]

theorem baseSellStep_none {bk : OrderBookSide} (hG : GoodSide bk)
    (hpk : heapPeek bk.side bk.heap = none)
    (s : Order) (acc : List Trade) (fuel : Nat) (hq : s.remainingQuantity > 0) :
    baseMatchSellLoop (fuel + 1) s bk acc = (s, bk, acc) := by
  rw [baseMatchSellLoop, if_pos hq, getBestPrice_eq hG, hpk]

theorem baseSellStep_guardFalse {bk : OrderBookSide} (hG : GoodSide bk) {bp : ℚ}
    (hpk : heapPeek bk.side bk.heap = some bp)
    (s : Order) (acc : List Trade) (fuel : Nat) (hq : s.remainingQuantity > 0)
    (hmkt : ¬ s.orderType = OrderType.MARKET) (hpr : ¬ bp ≥ s.price) :
    baseMatchSellLoop (fuel + 1) s bk acc = (s, bk, acc) := by
  rw [baseMatchSellLoop, if_pos hq, getBestPrice_eq hG, hpk]
  dsimp only
  rw [if_neg hmkt, getBestPrice_eq hG, hpk]
  dsimp only
  rw [if_neg (by simpa using hpr)]

theorem baseSellStep_trade {bk : OrderBookSide} (hG : GoodSide bk)
    {bp : ℚ} {lvl : PriceLevel} {o₀ : Order} {tl : List Order}
    (hpk : heapPeek bk.side bk.heap = some bp)
    (hg : dictGet bp bk.priceLevels = some lvl) (hho : lvl.orders = o₀ :: tl)
    (s : Order) (acc : List Trade) (fuel : Nat) (hq : s.remainingQuantity > 0)
    (hgo : s.orderType = OrderType.MARKET ∨ bp ≥ s.price) :
    baseMatchSellLoop (fuel + 1) s bk acc =
      baseMatchSellLoop fuel
        (fillBy s (min s.remainingQuantity o₀.remainingQuantity))
        (if (fillBy o₀ (min s.remainingQuantity o₀.remainingQuantity)).remainingQuantity = 0
         then ((bk.setTopAt bp
            (fillBy o₀ (min s.remainingQuantity o₀.remainingQuantity))).removeOrder
              o₀.orderId).1
         else bk.setTopAt bp (fillBy o₀ (min s.remainingQuantity o₀.remainingQuantity)))
        (acc ++ [createTrade o₀ s (min s.remainingQuantity o₀.remainingQuantity)]) := by
  rw [baseMatchSellLoop, if_pos hq, getBestPrice_eq hG, hpk]
  dsimp only
  have hguard : (if s.orderType = OrderType.MARKET then (true, bk)
      else
        match bk.getBestPrice with
        | (some p2, a2) => (decide (p2 ≥ s.price), a2)
        | (none, a2) => (false, a2)) = (true, bk) := by
    rcases hgo with hgo | hgo
    · rw [if_pos hgo]
    · by_cases hmkt : s.orderType = OrderType.MARKET
      · rw [if_pos hmkt]
      · rw [if_neg hmkt, getBestPrice_eq hG, hpk]
        dsimp only
        rw [decide_eq_true hgo]
  rw [hguard]
  dsimp only
  rw [if_pos rfl, getBestPrice_eq hG, hpk]
  dsimp only
  rw [OrderBookSide.getPriceLevel, hg]
  dsimp only
  rw [PriceLevel.getTopOrder, hho]
  rfl

theorem shardedSellStep_stop0 (s : Order) (sbk : ShardedOrderBookSide) (acc : List Trade)
    (fuel : Nat) (hq : ¬ s.remainingQuantity > 0) :
    shardedMatchSellLoop (fuel + 1) s sbk acc = (s, sbk, acc) := by
  rw [shardedMatchSellLoop, if_neg hq]

theorem shardedSellStep_none {sbk : ShardedOrderBookSide} (hS : GoodSharded sbk)
    (hb : combinedPeek sbk = none)
    (s : Order) (acc : List Trade) (fuel : Nat) (hq : s.remainingQuantity > 0) :
    shardedMatchSellLoop (fuel + 1) s sbk acc = (s, cacheSet sbk, acc) := by
  rw [shardedMatchSellLoop, if_pos hq, sharded_getBestPrice_eq hS, hb]

theorem shardedSellStep_guardFalse {sbk : ShardedOrderBookSide} (hS : GoodSharded sbk)
    {bp : ℚ} (hb : combinedPeek sbk = some bp)
    (s : Order) (acc : List Trade) (fuel : Nat) (hq : s.remainingQuantity > 0)
    (hmkt : ¬ s.orderType = OrderType.MARKET) (hpr : ¬ bp ≥ s.price) :
    shardedMatchSellLoop (fuel + 1) s sbk acc = (s, cacheSet sbk, acc) := by
  rw [shardedMatchSellLoop, if_pos hq, sharded_getBestPrice_eq hS, hb]
  dsimp only
  rw [if_neg hmkt, sharded_getBestPrice_eq (goodSharded_cacheSet hS),
    combinedPeek_cacheSet, cacheSet_idem, hb]
  dsimp only
  rw [if_neg (by simpa using hpr)]

theorem shardedSellStep_trade {sbk : ShardedOrderBookSide} (hS : GoodSharded sbk)
    {bp : ℚ} {o₀ : Order} {rest : List Order}
    (hb : combinedPeek sbk = some bp)
    (hops : (cacheSet sbk).getOrdersAtBestPrice = (o₀ :: rest, cacheSet sbk))
    (s : Order) (acc : List Trade) (fuel : Nat) (hq : s.remainingQuantity > 0)
    (hgo : s.orderType = OrderType.MARKET ∨ bp ≥ s.price) :
    shardedMatchSellLoop (fuel + 1) s sbk acc =
      shardedMatchSellLoop fuel
        (fillBy s (min s.remainingQuantity o₀.remainingQuantity))
        (if (fillBy o₀ (min s.remainingQuantity o₀.remainingQuantity)).remainingQuantity = 0
         then (((cacheSet sbk).writeBackOrder o₀.orderId
            (fillBy o₀ (min s.remainingQuantity o₀.remainingQuantity))).removeOrder
              o₀.orderId).1
         else (cacheSet sbk).writeBackOrder o₀.orderId
            (fillBy o₀ (min s.remainingQuantity o₀.remainingQuantity)))
        (acc ++ [createTrade o₀ s (min s.remainingQuantity o₀.remainingQuantity)]) := by
  rw [shardedMatchSellLoop, if_pos hq, sharded_getBestPrice_eq hS, hb]
  dsimp only
  have hguard : (if s.orderType = OrderType.MARKET then (true, cacheSet sbk)
      else
        match (cacheSet sbk).getBestPrice with
        | (some p2, a2) => (decide (p2 ≥ s.price), a2)
        | (none, a2) => (false, a2)) = (true, cacheSet sbk) := by
    rcases hgo with hgo | hgo
    · rw [if_pos hgo]
    · by_cases hmkt : s.orderType = OrderType.MARKET
      · rw [if_pos hmkt]
      · rw [if_neg hmkt, sharded_getBestPrice_eq (goodSharded_cacheSet hS),
          combinedPeek_cacheSet, cacheSet_idem, hb]
        dsimp only
        rw [decide_eq_true hgo]
  rw [hguard]
  dsimp only
  rw [if_pos rfl, sharded_getBestPrice_eq (goodSharded_cacheSet hS),
    combinedPeek_cacheSet, cacheSet_idem, hb]
  dsimp only
  rw [hops]
  rfl

theorem lockstep_sell : ∀ (fuel : Nat) (s : Order) (bk : OrderBookSide)
    (sbk : ShardedOrderBookSide) (acc : List Trade), BookRel bk sbk →
    (baseMatchSellLoop fuel s bk acc).1 = (shardedMatchSellLoop fuel s sbk acc).1 ∧
    (baseMatchSellLoop fuel s bk acc).2.2 = (shardedMatchSellLoop fuel s sbk acc).2.2 ∧
    BookRel (baseMatchSellLoop fuel s bk acc).2.1
      (shardedMatchSellLoop fuel s sbk acc).2.1 ∧
    (∀ x ∈ (baseMatchSellLoop fuel s bk acc).2.1.allOrders,
      ∃ y ∈ bk.allOrders, x.orderId = y.orderId ∧ x.timestamp = y.timestamp) := by
  intro fuel
  induction fuel with
  | zero =>
      intro s bk sbk acc hrel
      rw [baseMatchSellLoop, shardedMatchSellLoop]
      exact ⟨rfl, rfl, hrel, fun x hx => ⟨x, hx, rfl, rfl⟩⟩
  | succ fuel ih =>
      intro s bk sbk acc hrel
      have hrelC := hrel
      obtain ⟨hG, hS, hside, hids, hts, hperm⟩ := hrelC
      by_cases hq : s.remainingQuantity > 0
      · rcases hpk : heapPeek bk.side bk.heap with _ | bp
        · rw [baseSellStep_none hG hpk s acc fuel hq,
            shardedSellStep_none hS (by rw [rel_peek hrel, hpk]) s acc fuel hq]
          exact ⟨rfl, rfl, bookRel_cacheSet hrel, fun x hx => ⟨x, hx, rfl, rfl⟩⟩
        · have hb : combinedPeek sbk = some bp := by rw [rel_peek hrel, hpk]
          by_cases hgo : s.orderType = OrderType.MARKET ∨ bp ≥ s.price
          · obtain ⟨lvl, o₀, tl, hg, hho, hmemB, ho₀p, hminB⟩ := base_top_min hG hpk
            obtain ⟨rest, hops⟩ := sharded_top hrel hb hmemB ho₀p hminB
            rw [baseSellStep_trade hG hpk hg hho s acc fuel hq hgo,
              shardedSellStep_trade hS hb hops s acc fuel hq hgo]
            by_cases hrem : (fillBy o₀
                (min s.remainingQuantity o₀.remainingQuantity)).remainingQuantity = 0
            · rw [if_pos hrem, if_pos hrem]
              obtain ⟨hrel2, hPB⟩ := rel_after_remove hrel hg hho hminB
                (min s.remainingQuantity o₀.remainingQuantity)
              obtain ⟨h1, h2, h3, h4⟩ := ih _ _ _ _ hrel2
              refine ⟨h1, h2, h3, ?_⟩
              intro x hx
              obtain ⟨y, hy, hyid, hyts⟩ := h4 x hx
              have hy2 : y ∈ bk.allOrders.erase o₀ := hPB.mem_iff.mp hy
              exact ⟨y, (List.erase_sublist o₀ bk.allOrders).mem hy2, hyid, hyts⟩
            · rw [if_neg hrem, if_neg hrem]
              obtain ⟨hrel2, hPB4, hPS5⟩ := rel_after_setTop hrel hg hho
                (min s.remainingQuantity o₀.remainingQuantity)
              obtain ⟨h1, h2, h3, h4⟩ := ih _ _ _ _ hrel2
              refine ⟨h1, h2, h3, ?_⟩
              intro x hx
              obtain ⟨y, hy, hyid, hyts⟩ := h4 x hx
              have hy2 := hPB4.mem_iff.mp hy
              rcases List.mem_cons.mp hy2 with hy3 | hy3
              · refine ⟨o₀, hmemB, ?_, ?_⟩
                · rw [hy3] at hyid
                  exact hyid
                · rw [hy3] at hyts
                  exact hyts
              · exact ⟨y, (List.erase_sublist o₀ bk.allOrders).mem hy3, hyid, hyts⟩
          · push_neg at hgo
            rw [baseSellStep_guardFalse hG hpk s acc fuel hq hgo.1 (not_le.mpr hgo.2),
              shardedSellStep_guardFalse hS hb s acc fuel hq hgo.1 (not_le.mpr hgo.2)]
            exact ⟨rfl, rfl, bookRel_cacheSet hrel, fun x hx => ⟨x, hx, rfl, rfl⟩⟩
      · rw [baseSellStep_stop0 s bk acc fuel hq, shardedSellStep_stop0 s sbk acc fuel hq]
        exact ⟨rfl, rfl, hrel, fun x hx => ⟨x, hx, rfl, rfl⟩⟩

/-! Layer 5: engine-level lockstep. -/

theorem coreEq_trans {a b c : Order} (h₁ : coreEq a b) (h₂ : coreEq b c) : coreEq a c :=
  ⟨h₁.1.trans h₂.1, h₁.2.1.trans h₂.2.1, h₁.2.2.1.trans h₂.2.2.1,
   h₁.2.2.2.1.trans h₂.2.2.2.1, h₁.2.2.2.2.trans h₂.2.2.2.2⟩

theorem baseBuyLoop_core : ∀ (fuel : Nat) (b : Order) (bk : OrderBookSide)
    (acc : List Trade), coreEq (baseMatchBuyLoop fuel b bk acc).1 b := by
  intro fuel
  induction fuel with
  | zero => intro b bk acc; exact ⟨rfl, rfl, rfl, rfl, rfl⟩
  | succ fuel ih =>
      intro b bk acc
      rw [baseMatchBuyLoop]
      repeat' split
      all_goals
        first
          | exact ⟨rfl, rfl, rfl, rfl, rfl⟩
          | exact coreEq_trans (ih _ _ _) ⟨rfl, rfl, rfl, rfl, rfl⟩

theorem baseSellLoop_core : ∀ (fuel : Nat) (s : Order) (bk : OrderBookSide)
    (acc : List Trade), coreEq (baseMatchSellLoop fuel s bk acc).1 s := by
  intro fuel
  induction fuel with
  | zero => intro s bk acc; exact ⟨rfl, rfl, rfl, rfl, rfl⟩
  | succ fuel ih =>
      intro s bk acc
      rw [baseMatchSellLoop]
      repeat' split
      all_goals
        first
          | exact ⟨rfl, rfl, rfl, rfl, rfl⟩
          | exact coreEq_trans (ih _ _ _) ⟨rfl, rfl, rfl, rfl, rfl⟩

theorem baseAddOrder_buy (e : BaseEngine) (o : Order) (hside : o.side = OrderSide.BUY)
    {o' : Order} {asks' : OrderBookSide} {trades : List Trade}
    (hl : baseMatchBuyLoop (matchFuel o) o e.asks [] = (o', asks', trades)) :
    e.addOrder o =
      (trades,
       if o'.remainingQuantity > 0 ∧ o'.orderType = OrderType.LIMIT then
         if o'.side = OrderSide.BUY then
           { bids := e.bids.addOrder o'
             asks := asks'
             tradeHistory := e.tradeHistory ++ trades
             orderHistory := e.orderHistory ++ [o] }
         else
           { bids := e.bids
             asks := asks'.addOrder o'
             tradeHistory := e.tradeHistory ++ trades
             orderHistory := e.orderHistory ++ [o] }
       else
         { bids := e.bids
           asks := asks'
           tradeHistory := e.tradeHistory ++ trades
           orderHistory := e.orderHistory ++ [o] }) := by
  rw [BaseEngine.addOrder]
  dsimp only
  rw [if_pos hside, hl]
  dsimp only
  by_cases hc : o'.remainingQuantity > 0 ∧ o'.orderType = OrderType.LIMIT
  · simp only [if_pos hc]
    by_cases hs : o'.side = OrderSide.BUY
    · simp only [if_pos hs]
    · simp only [if_neg hs]
  · simp only [if_neg hc]

theorem baseAddOrder_sell (e : BaseEngine) (o : Order) (hside : ¬ o.side = OrderSide.BUY)
    {o' : Order} {bids' : OrderBookSide} {trades : List Trade}
    (hl : baseMatchSellLoop (matchFuel o) o e.bids [] = (o', bids', trades)) :
    e.addOrder o =
      (trades,
       if o'.remainingQuantity > 0 ∧ o'.orderType = OrderType.LIMIT then
         if o'.side = OrderSide.BUY then
           { bids := bids'.addOrder o'
             asks := e.asks
             tradeHistory := e.tradeHistory ++ trades
             orderHistory := e.orderHistory ++ [o] }
         else
           { bids := bids'
             asks := e.asks.addOrder o'
             tradeHistory := e.tradeHistory ++ trades
             orderHistory := e.orderHistory ++ [o] }
       else
         { bids := bids'
           asks := e.asks
           tradeHistory := e.tradeHistory ++ trades
           orderHistory := e.orderHistory ++ [o] }) := by
  rw [BaseEngine.addOrder]
  dsimp only
  rw [if_neg hside, hl]
  dsimp only
  by_cases hc : o'.remainingQuantity > 0 ∧ o'.orderType = OrderType.LIMIT
  · simp only [if_pos hc]
    by_cases hs : o'.side = OrderSide.BUY
    · simp only [if_pos hs]
    · simp only [if_neg hs]
  · simp only [if_neg hc]

theorem shardedAddOrder_buy (g : ShardedEngine) (o : Order)
    (hside : o.side = OrderSide.BUY)
    {o' : Order} {asks' : ShardedOrderBookSide} {trades : List Trade}
    (hl : shardedMatchBuyLoop (matchFuel o) o g.asks [] = (o', asks', trades)) :
    g.addOrder o =
      (trades,
       if o'.remainingQuantity > 0 ∧ o'.orderType = OrderType.LIMIT then
         if o'.side = OrderSide.BUY then
           { numShards := g.numShards
             bids := g.bids.addOrder o'
             asks := asks'
             tradeHistory := g.tradeHistory ++ trades
             orderHistory := g.orderHistory ++ [o] }
         else
           { numShards := g.numShards
             bids := g.bids
             asks := asks'.addOrder o'
             tradeHistory := g.tradeHistory ++ trades
             orderHistory := g.orderHistory ++ [o] }
       else
         { numShards := g.numShards
           bids := g.bids
           asks := asks'
           tradeHistory := g.tradeHistory ++ trades
           orderHistory := g.orderHistory ++ [o] }) := by
  rw [ShardedEngine.addOrder]
  dsimp only
  rw [if_pos hside, hl]
  dsimp only
  by_cases hc : o'.remainingQuantity > 0 ∧ o'.orderType = OrderType.LIMIT
  · simp only [if_pos hc]
    by_cases hs : o'.side = OrderSide.BUY
    · simp only [if_pos hs]
    · simp only [if_neg hs]
  · simp only [if_neg hc]

theorem shardedAddOrder_sell (g : ShardedEngine) (o : Order)
    (hside : ¬ o.side = OrderSide.BUY)
    {o' : Order} {bids' : ShardedOrderBookSide} {trades : List Trade}
    (hl : shardedMatchSellLoop (matchFuel o) o g.bids [] = (o', bids', trades)) :
    g.addOrder o =
      (trades,
       if o'.remainingQuantity > 0 ∧ o'.orderType = OrderType.LIMIT then
         if o'.side = OrderSide.BUY then
           { numShards := g.numShards
             bids := bids'.addOrder o'
             asks := g.asks
             tradeHistory := g.tradeHistory ++ trades
             orderHistory := g.orderHistory ++ [o] }
         else
           { numShards := g.numShards
             bids := bids'
             asks := g.asks.addOrder o'
             tradeHistory := g.tradeHistory ++ trades
             orderHistory := g.orderHistory ++ [o] }
       else
         { numShards := g.numShards
           bids := bids'
           asks := g.asks
           tradeHistory := g.tradeHistory ++ trades
           orderHistory := g.orderHistory ++ [o] }) := by
  rw [ShardedEngine.addOrder]
  dsimp only
  rw [if_neg hside, hl]
  dsimp only
  by_cases hc : o'.remainingQuantity > 0 ∧ o'.orderType = OrderType.LIMIT
  · simp only [if_pos hc]
    by_cases hs : o'.side = OrderSide.BUY
    · simp only [if_pos hs]
    · simp only [if_neg hs]
  · simp only [if_neg hc]

theorem bookRel_addOrder {bk : OrderBookSide} {sbk : ShardedOrderBookSide}
    (h : BookRel bk sbk) (o : Order)
    (hfresh : o.orderId ∉ bk.allOrders.map (fun x => x.orderId))
    (hlate : ∀ r ∈ bk.allOrders, r.timestamp < o.timestamp) :
    BookRel (bk.addOrder o) (sbk.addOrder o) ∧
    (bk.addOrder o).allOrders.Perm (bk.allOrders ++ [o]) := by
  obtain ⟨hG, hS, hside, hids, hts, hperm⟩ := h
  have hidsB : (bk.allOrders.map (fun x => x.orderId)).Nodup := hids
  have hidsS : (sbk.allOrders.map (fun x => x.orderId)).Nodup :=
    ((hperm.map (fun x => x.orderId)).nodup_iff).mp hidsB
  have hfreshS : o.orderId ∉ sbk.allOrders.map (fun x => x.orderId) := by
    intro hx
    exact hfresh (((hperm.map (fun x => x.orderId)).mem_iff).mpr hx)
  have hlateS : ∀ r ∈ sbk.allOrders, r.timestamp < o.timestamp := by
    intro r hr
    exact hlate r (hperm.mem_iff.mpr hr)
  obtain ⟨hG2, hP2, hSide2⟩ := goodSide_addOrder hG hids o hfresh hlate
  obtain ⟨hS2, hPS2, hSideS2, -⟩ := goodSharded_addOrder hS hidsS o hfreshS hlateS
  refine ⟨⟨hG2, hS2, ?_, ?_, ?_, ?_⟩, hP2⟩
  · rw [hSideS2, hSide2, hside]
  · rw [IdsNodup, ((hP2.map (fun x => x.orderId)).nodup_iff), List.map_append]
    refine List.Nodup.append hidsB (by simp) ?_
    intro a ha hb
    simp only [List.map_cons, List.map_nil, List.mem_singleton] at hb
    exact hfresh (hb ▸ ha)
  · rw [((hP2.map (fun x => x.timestamp)).nodup_iff), List.map_append]
    refine List.Nodup.append hts (by simp) ?_
    intro a ha hb
    simp only [List.map_cons, List.map_nil, List.mem_singleton] at hb
    obtain ⟨y, hy, hyts⟩ := List.mem_map.mp ha
    exact absurd (hyts.trans hb) (ne_of_lt (hlate y hy))
  · exact hP2.trans ((hperm.append_right [o]).trans hPS2.symm)

theorem engine_addOrder_lockstep (e : BaseEngine) (g : ShardedEngine) (o : Order)
    (hrel : EngineRel e g)
    (hfresh : ∀ x ∈ e.bids.allOrders ++ e.asks.allOrders, x.orderId ≠ o.orderId)
    (hlate : ∀ x ∈ e.bids.allOrders ++ e.asks.allOrders, x.timestamp < o.timestamp) :
    (e.addOrder o).1 = (g.addOrder o).1 ∧
    EngineRel (e.addOrder o).2 (g.addOrder o).2 ∧
    (∀ x ∈ (e.addOrder o).2.bids.allOrders ++ (e.addOrder o).2.asks.allOrders,
      (∃ y ∈ e.bids.allOrders ++ e.asks.allOrders,
        x.orderId = y.orderId ∧ x.timestamp = y.timestamp) ∨
      (x.orderId = o.orderId ∧ x.timestamp = o.timestamp)) := by
  obtain ⟨hrb, hra⟩ := hrel
  by_cases hside : o.side = OrderSide.BUY
  · obtain ⟨h1, h2, h3, h4⟩ := lockstep_buy (matchFuel o) o e.asks g.asks [] hra
    have hcore := baseBuyLoop_core (matchFuel o) o e.asks []
    rcases hLB : baseMatchBuyLoop (matchFuel o) o e.asks [] with ⟨o', asks', trades⟩
    rcases hLS : shardedMatchBuyLoop (matchFuel o) o g.asks [] with ⟨o₂, sasks', strades⟩
    rw [hLB, hLS] at h1 h2 h3
    rw [hLB] at h4 hcore
    dsimp only at h1 h2 h3 h4 hcore
    subst h1
    subst h2
    rw [baseAddOrder_buy e o hside hLB, shardedAddOrder_buy g o hside hLS]
    refine ⟨rfl, ?_, ?_⟩
    · by_cases hc : o'.remainingQuantity > 0 ∧ o'.orderType = OrderType.LIMIT
      · rw [if_pos hc, if_pos hc, if_pos (hcore.2.2.1.trans hside),
          if_pos (hcore.2.2.1.trans hside)]
        have hfr : o'.orderId ∉ e.bids.allOrders.map (fun x => x.orderId) := by
          intro hx
          obtain ⟨y, hy, hyid⟩ := List.mem_map.mp hx
          exact hfresh y (List.mem_append_left _ hy) (hyid.trans hcore.1)
        have hlt : ∀ r ∈ e.bids.allOrders, r.timestamp < o'.timestamp := by
          intro r hr
          rw [hcore.2.1]
          exact hlate r (List.mem_append_left _ hr)
        exact ⟨(bookRel_addOrder hrb o' hfr hlt).1, h3⟩
      · rw [if_neg hc, if_neg hc]
        exact ⟨hrb, h3⟩
    · by_cases hc : o'.remainingQuantity > 0 ∧ o'.orderType = OrderType.LIMIT
      · rw [if_pos hc, if_pos (hcore.2.2.1.trans hside)]
        dsimp only
        intro x hx
        rcases List.mem_append.mp hx with hx | hx
        · have hfr : o'.orderId ∉ e.bids.allOrders.map (fun y => y.orderId) := by
            intro hx2
            obtain ⟨y, hy, hyid⟩ := List.mem_map.mp hx2
            exact hfresh y (List.mem_append_left _ hy) (hyid.trans hcore.1)
          have hlt : ∀ r ∈ e.bids.allOrders, r.timestamp < o'.timestamp := by
            intro r hr
            rw [hcore.2.1]
            exact hlate r (List.mem_append_left _ hr)
          have hP := (bookRel_addOrder hrb o' hfr hlt).2
          rcases List.mem_append.mp (hP.mem_iff.mp hx) with hx2 | hx2
          · exact Or.inl ⟨x, List.mem_append_left _ hx2, rfl, rfl⟩
          · simp only [List.mem_singleton] at hx2
            subst hx2
            exact Or.inr ⟨hcore.1, hcore.2.1⟩
        · obtain ⟨y, hy, hyid, hyts⟩ := h4 x hx
          exact Or.inl ⟨y, List.mem_append_right _ hy, hyid, hyts⟩
      · rw [if_neg hc]
        dsimp only
        intro x hx
        rcases List.mem_append.mp hx with hx | hx
        · exact Or.inl ⟨x, List.mem_append_left _ hx, rfl, rfl⟩
        · obtain ⟨y, hy, hyid, hyts⟩ := h4 x hx
          exact Or.inl ⟨y, List.mem_append_right _ hy, hyid, hyts⟩
  · obtain ⟨h1, h2, h3, h4⟩ := lockstep_sell (matchFuel o) o e.bids g.bids [] hrb
    have hcore := baseSellLoop_core (matchFuel o) o e.bids []
    rcases hLB : baseMatchSellLoop (matchFuel o) o e.bids [] with ⟨o', bids', trades⟩
    rcases hLS : shardedMatchSellLoop (matchFuel o) o g.bids [] with ⟨o₂, sbids', strades⟩
    rw [hLB, hLS] at h1 h2 h3
    rw [hLB] at h4 hcore
    dsimp only at h1 h2 h3 h4 hcore
    subst h1
    subst h2
    rw [baseAddOrder_sell e o hside hLB, shardedAddOrder_sell g o hside hLS]
    have hsideN : ¬ o'.side = OrderSide.BUY := by
      rw [hcore.2.2.1]
      exact hside
    refine ⟨rfl, ?_, ?_⟩
    · by_cases hc : o'.remainingQuantity > 0 ∧ o'.orderType = OrderType.LIMIT
      · rw [if_pos hc, if_pos hc, if_neg hsideN, if_neg hsideN]
        have hfr : o'.orderId ∉ e.asks.allOrders.map (fun x => x.orderId) := by
          intro hx
          obtain ⟨y, hy, hyid⟩ := List.mem_map.mp hx
          exact hfresh y (List.mem_append_right _ hy) (hyid.trans hcore.1)
        have hlt : ∀ r ∈ e.asks.allOrders, r.timestamp < o'.timestamp := by
          intro r hr
          rw [hcore.2.1]
          exact hlate r (List.mem_append_right _ hr)
        exact ⟨h3, (bookRel_addOrder hra o' hfr hlt).1⟩
      · rw [if_neg hc, if_neg hc]
        exact ⟨h3, hra⟩
    · by_cases hc : o'.remainingQuantity > 0 ∧ o'.orderType = OrderType.LIMIT
      · rw [if_pos hc, if_neg hsideN]
        dsimp only
        intro x hx
        rcases List.mem_append.mp hx with hx | hx
        · obtain ⟨y, hy, hyid, hyts⟩ := h4 x hx
          exact Or.inl ⟨y, List.mem_append_left _ hy, hyid, hyts⟩
        · have hfr : o'.orderId ∉ e.asks.allOrders.map (fun y => y.orderId) := by
            intro hx2
            obtain ⟨y, hy, hyid⟩ := List.mem_map.mp hx2
            exact hfresh y (List.mem_append_right _ hy) (hyid.trans hcore.1)
          have hlt : ∀ r ∈ e.asks.allOrders, r.timestamp < o'.timestamp := by
            intro r hr
            rw [hcore.2.1]
            exact hlate r (List.mem_append_right _ hr)
          have hP := (bookRel_addOrder hra o' hfr hlt).2
          rcases List.mem_append.mp (hP.mem_iff.mp hx) with hx2 | hx2
          · exact Or.inl ⟨x, List.mem_append_right _ hx2, rfl, rfl⟩
          · simp only [List.mem_singleton] at hx2
            subst hx2
            exact Or.inr ⟨hcore.1, hcore.2.1⟩
      · rw [if_neg hc]
        dsimp only
        intro x hx
        rcases List.mem_append.mp hx with hx | hx
        · obtain ⟨y, hy, hyid, hyts⟩ := h4 x hx
          exact Or.inl ⟨y, List.mem_append_left _ hy, hyid, hyts⟩
        · exact Or.inl ⟨x, List.mem_append_right _ hx, rfl, rfl⟩

theorem goodSide_init (side : OrderSide) : GoodSide (OrderBookSide.init side) := by
  refine ⟨rfl, ?_, ?_, ?_, ?_, ?_⟩ <;> simp [OrderBookSide.init]

theorem init_allOrders (side : OrderSide) : (OrderBookSide.init side).allOrders = [] := rfl

theorem sharded_init_shards (side : OrderSide) (n : Nat) :
    (ShardedOrderBookSide.init side n).shards =
      List.replicate (max 1 n) (OrderBookSide.init side) := rfl

theorem sharded_init_allOrders (side : OrderSide) (n : Nat) :
    (ShardedOrderBookSide.init side n).allOrders = [] := by
  rw [List.eq_nil_iff_forall_not_mem]
  intro x hx
  rw [ShardedOrderBookSide.allOrders] at hx
  obtain ⟨l, hl, hxl⟩ := List.mem_flatten.mp hx
  obtain ⟨sh, hsh, rfl⟩ := List.mem_map.mp hl
  rw [sharded_init_shards] at hsh
  rw [List.eq_of_mem_replicate hsh, init_allOrders] at hxl
  exact (List.not_mem_nil x) hxl

theorem goodSharded_init (side : OrderSide) (n : Nat) :
    GoodSharded (ShardedOrderBookSide.init side n) := by
  refine ⟨by simp [ShardedOrderBookSide.init],
    Nat.lt_of_lt_of_le Nat.one_pos (le_max_left 1 n), ?_, ?_, ?_⟩
  · intro sh hm
    rw [sharded_init_shards] at hm
    rw [List.eq_of_mem_replicate hm]
    exact ⟨rfl, goodSide_init side⟩
  · intro i hi x hx
    have hsh : (ShardedOrderBookSide.init side n).shards.get ⟨i, hi⟩ ∈
        (ShardedOrderBookSide.init side n).shards := List.get_mem _ _ _
    have hnil : ∀ sh ∈ (ShardedOrderBookSide.init side n).shards, sh.allOrders = [] := by
      intro sh hm
      rw [sharded_init_shards] at hm
      rw [List.eq_of_mem_replicate hm, init_allOrders]
    rw [hnil _ hsh] at hx
    exact absurd hx (List.not_mem_nil x)
  · intro hc
    exact absurd hc (by simp [ShardedOrderBookSide.init])

theorem engineRel_init (n : Nat) : EngineRel BaseEngine.init (ShardedEngine.init n) := by
  have hb0 : BaseEngine.init.bids.allOrders = ([] : List Order) := rfl
  have ha0 : BaseEngine.init.asks.allOrders = ([] : List Order) := rfl
  have hsb0 : (ShardedEngine.init n).bids.allOrders = ([] : List Order) :=
    sharded_init_allOrders OrderSide.BUY n
  have hsa0 : (ShardedEngine.init n).asks.allOrders = ([] : List Order) :=
    sharded_init_allOrders OrderSide.SELL n
  constructor
  · refine ⟨goodSide_init _, goodSharded_init _ _, rfl, ?_, ?_, ?_⟩
    · rw [IdsNodup, hb0]
      exact List.nodup_nil
    · rw [hb0]
      exact List.nodup_nil
    · rw [hb0, hsb0]
  · refine ⟨goodSide_init _, goodSharded_init _ _, rfl, ?_, ?_, ?_⟩
    · rw [IdsNodup, ha0]
      exact List.nodup_nil
    · rw [ha0]
      exact List.nodup_nil
    · rw [ha0, hsa0]

theorem run_lockstep : ∀ (os : List Order) (accT : List Trade)
    (e : BaseEngine) (g : ShardedEngine), EngineRel e g →
    (os.map (fun o => o.orderId)).Nodup →
    os.Pairwise (fun a b => a.timestamp < b.timestamp) →
    (∀ o' ∈ os, ∀ x ∈ e.bids.allOrders ++ e.asks.allOrders, x.orderId ≠ o'.orderId) →
    (∀ o' ∈ os, ∀ x ∈ e.bids.allOrders ++ e.asks.allOrders, x.timestamp < o'.timestamp) →
    (os.foldl (fun (acc : List Trade × BaseEngine) o =>
        (acc.1 ++ (acc.2.addOrder o).1, (acc.2.addOrder o).2)) (accT, e)).1 =
    (os.foldl (fun (acc : List Trade × ShardedEngine) o =>
        (acc.1 ++ (acc.2.addOrder o).1, (acc.2.addOrder o).2)) (accT, g)).1 := by
  intro os
  induction os with
  | nil => intro accT e g _ _ _ _ _; rfl
  | cons o os ih =>
      intro accT e g hrel hnd hpw hfr hlt
      obtain ⟨h1, h2, h3⟩ := engine_addOrder_lockstep e g o hrel
        (hfr o (List.mem_cons_self o os))
        (hlt o (List.mem_cons_self o os))
      rw [List.foldl_cons, List.foldl_cons]
      dsimp only
      rw [← h1]
      have hnd2 : (∀ x ∈ os, ¬ x.orderId = o.orderId) ∧
          (os.map (fun o => o.orderId)).Nodup := by simpa using hnd
      obtain ⟨hndh, hndt⟩ := hnd2
      obtain ⟨hpwh, hpwt⟩ := List.pairwise_cons.mp hpw
      refine ih (accT ++ (e.addOrder o).1) (e.addOrder o).2 (g.addOrder o).2 h2
        hndt hpwt ?_ ?_
      · intro o' ho' x hx
        rcases h3 x hx with ⟨y, hy, hid, -⟩ | ⟨hid, -⟩
        · rw [hid]
          exact hfr o' (List.mem_cons_of_mem _ ho') y hy
        · rw [hid]
          intro heq
          exact hndh o' ho' heq.symm
      · intro o' ho' x hx
        rcases h3 x hx with ⟨y, hy, -, hts⟩ | ⟨-, hts⟩
        · rw [hts]
          exact hlt o' (List.mem_cons_of_mem _ ho') y hy
        · rw [hts]
          exact hpwh o' ho'

/-- C2 (amended): for any sequence of orders with pairwise-distinct order
ids and strictly increasing submission timestamps, the sharded engine and
the base engine produce the same trade list — hence the same multiset of
fills (buy id, sell id, price, quantity) — for every shard count.  (With
equal timestamps inside one price level the two engines can disagree; see
the counterexample.) -/
theorem C2_sharded_equals_base_on_distinct_timestamps
    (numShards : Nat) (os : List Order)
    (hnd : (os.map (fun o => o.orderId)).Nodup)
    (hpw : os.Pairwise (fun a b => a.timestamp < b.timestamp)) :
    (BaseEngine.run os).1 = (ShardedEngine.run numShards os).1 ∧
    (((BaseEngine.run os).1.map Trade.toFill : List Fill) : Multiset Fill) =
      (((ShardedEngine.run numShards os).1.map Trade.toFill : List Fill) : Multiset Fill) := by
  have h : (BaseEngine.run os).1 = (ShardedEngine.run numShards os).1 := by
    rw [BaseEngine.run, ShardedEngine.run]
    exact run_lockstep os [] BaseEngine.init (ShardedEngine.init numShards)
      (engineRel_init numShards) hnd hpw
      (fun o' _ x hx => absurd hx (List.not_mem_nil x))
      (fun o' _ x hx => absurd hx (List.not_mem_nil x))
  exact ⟨h, by rw [h]⟩

theorem C2_sharded_equals_base_on_distinct_timestamps_witness :
    (([s1b1, s1b2, s1s1].map (fun o => o.orderId)).Nodup ∧
      List.Pairwise (fun a b => a.timestamp < b.timestamp) [s1b1, s1b2, s1s1]) ∧
    ((BaseEngine.run [s1b1, s1b2, s1s1]).1 = (ShardedEngine.run 8 [s1b1, s1b2, s1s1]).1 ∧
      (((BaseEngine.run [s1b1, s1b2, s1s1]).1.map Trade.toFill : List Fill) : Multiset Fill) =
        (((ShardedEngine.run 8 [s1b1, s1b2, s1s1]).1.map Trade.toFill :
            List Fill) : Multiset Fill)) :=
  ⟨⟨by decide, by decide⟩,
   C2_sharded_equals_base_on_distinct_timestamps 8 [s1b1, s1b2, s1s1] (by decide) (by decide)⟩

end AME
